import Mathlib

/-!
# SingleLinkedList: a memory-level embedding of `single-linked-list.h`

The container is pointer code, so the embedding is a store of `Node` objects
indexed by addresses, with explicit state passing.

* An address is either the `head_` member of the list object in slot `l`
  (`Addr.head l`) or a node obtained from `new` (`Addr.heap a`).
* `Node*` is `Option Addr`, `none` being `nullptr`.
* `new` hands out the heap addresses `0, 1, 2, ...` in turn and throws
  `std::bad_alloc` once `next` reaches `limit`; `delete` empties the cell.
* `size_t` arithmetic is taken modulo `2 ^ 64`.
* A dereference of `nullptr` or of a released cell is undefined behaviour
  (`undefined`); a loop that has not finished when its fuel is used up is
  reported as `timeout`.
-/

namespace SLL

/-- Modulus of `size_t` arithmetic. -/
def SIZE_MOD : Nat := 2 ^ 64

/-- Address of a `Node` object: the sentinel `head_` of the list object in
slot `l`, or a node allocated with `new`. -/
inductive Addr where
  | head (l : Nat)
  | heap (a : Nat)
  deriving DecidableEq, Repr

/-- The source's `struct Node`. `value` is `none` only for the
default-constructed slot of a sentinel, which holds no element. -/
structure Node (α : Type) where
  value : Option α
  next_node : Option Addr

/-- The store: node objects by address, the `size_` member of each list
object, the next heap address `new` will return, and the bound at which
`new` starts to throw. -/
structure Memory (α : Type) where
  cells : Addr → Option (Node α)
  size_ : Nat → Nat
  next : Nat
  limit : Nat

/-- Result of an operation that only reads the store. -/
inductive Out (β : Type) where
  | ok (v : β)
  | undefined
  | timeout
  deriving DecidableEq, Repr

/-- Result of an operation that may change the store. `bad_alloc` carries
the store as it is when the exception leaves the operation. -/
inductive Res (σ β : Type) where
  | ok (v : β) (s : σ)
  | bad_alloc (s : σ)
  | undefined
  | timeout

/-- Outcome of a `Res` with the store dropped. -/
inductive Outcome (β : Type) where
  | ok (v : β)
  | bad_alloc
  | undefined
  | timeout
  deriving DecidableEq, Repr

variable {α : Type}

def Res.outcome {σ β : Type} : Res σ β → Outcome β
  | .ok v _ => .ok v
  | .bad_alloc _ => .bad_alloc
  | .undefined => .undefined
  | .timeout => .timeout

/-- Sequencing of store-changing operations; an exception or a fault of the
first ends the run. -/
def Res.andThen {σ β γ : Type} (r : Res σ β) (k : β → σ → Res σ γ) : Res σ γ :=
  match r with
  | .ok v s => k v s
  | .bad_alloc s => .bad_alloc s
  | .undefined => .undefined
  | .timeout => .timeout

/-- Run a read-only operation on the store reached by `r`. -/
def Res.observe {σ β γ : Type} (r : Res σ β) (k : σ → Out γ) : Outcome γ :=
  match r with
  | .ok _ s =>
    match k s with
    | .ok v => .ok v
    | .undefined => .undefined
    | .timeout => .timeout
  | .bad_alloc _ => .bad_alloc
  | .undefined => .undefined
  | .timeout => .timeout

/-! ## Store primitives -/

/-- The store before any object exists; `new` succeeds `limit` times. -/
def Memory.empty (limit : Nat) : Memory α :=
  { cells := fun _ => none, size_ := fun _ => 0, next := 0, limit := limit }

def Memory.setCell (s : Memory α) (p : Addr) (n : Option (Node α)) : Memory α :=
  { s with cells := fun q => if q = p then n else s.cells q }

/-- Assignment `p->next_node = nx` on a live node. -/
def Memory.setNext (s : Memory α) (p : Addr) (nx : Option Addr) : Memory α :=
  { s with cells := fun q =>
      if q = p then (s.cells p).map (fun n => { n with next_node := nx }) else s.cells q }

/-- Assignment `p->value = v` on a live node. -/
def Memory.setValue (s : Memory α) (p : Addr) (v : α) : Memory α :=
  { s with cells := fun q =>
      if q = p then (s.cells p).map (fun n => { n with value := some v }) else s.cells q }

def Memory.setSize (s : Memory α) (l : Nat) (n : Nat) : Memory α :=
  { s with size_ := fun k => if k = l then n else s.size_ k }

/-- Statement `++size_` of the list in slot `l`. -/
def Memory.incSize (s : Memory α) (l : Nat) : Memory α :=
  s.setSize l ((s.size_ l + 1) % SIZE_MOD)

/-- Statement `--size_` of the list in slot `l`. -/
def Memory.decSize (s : Memory α) (l : Nat) : Memory α :=
  s.setSize l ((s.size_ l + SIZE_MOD - 1) % SIZE_MOD)

/-- Expression `new Node(val, nx)` once the allocation has succeeded: the
node is built at heap address `s.next`. -/
def Memory.construct (s : Memory α) (val : α) (nx : Option Addr) : Memory α :=
  { s with
    cells := fun q => if q = Addr.heap s.next then some ⟨some val, nx⟩ else s.cells q
    next := s.next + 1 }

/-- Statement `delete p`: defined only for a live node that came from `new`. -/
def Memory.delete (s : Memory α) (p : Addr) : Option (Memory α) :=
  match p with
  | .head _ => none
  | .heap a =>
    match s.cells (.heap a) with
    | none => none
    | some _ => some (s.setCell (.heap a) none)

/-! ## BasicIterator -/

/-- The source's `BasicIterator`: the private member `node_`. The mutable
and the read-only variant have the same representation. -/
structure BasicIterator where
  node_ : Option Addr
  deriving DecidableEq, Repr

/-- Source lines 44-52: `operator==(const BasicIterator<const Type>&)`. -/
def BasicIterator.operator_eq (s : Memory α) (this rhs : BasicIterator) : Out Bool :=
  match rhs.node_, this.node_ with
  | none, none => .ok true
  | none, some _ => .ok false
  | some _, none => .ok false
  | some r, some t =>
    match s.cells r, s.cells t with
    | some rn, some tn => .ok (decide (rn.next_node = tn.next_node))
    | _, _ => .undefined

/-- Source lines 54-56: `operator!=(const BasicIterator<const Type>&)`. -/
def BasicIterator.operator_ne (s : Memory α) (this rhs : BasicIterator) : Out Bool :=
  match BasicIterator.operator_eq s this rhs with
  | .ok b => .ok (!b)
  | .undefined => .undefined
  | .timeout => .timeout

/-- Source lines 58-66: `operator==(const BasicIterator<Type>&)`, the
overload taking a mutable iterator. -/
def BasicIterator.operator_eq_mut (s : Memory α) (this rhs : BasicIterator) : Out Bool :=
  match rhs.node_, this.node_ with
  | none, none => .ok true
  | none, some _ => .ok false
  | some _, none => .ok false
  | some r, some t =>
    match s.cells r, s.cells t with
    | some rn, some tn => .ok (decide (rn.next_node = tn.next_node))
    | _, _ => .undefined

/-- Source lines 68-70: `operator!=(const BasicIterator<Type>&)`. -/
def BasicIterator.operator_ne_mut (s : Memory α) (this rhs : BasicIterator) : Out Bool :=
  match BasicIterator.operator_eq_mut s this rhs with
  | .ok b => .ok (!b)
  | .undefined => .undefined
  | .timeout => .timeout

/-- Source lines 72-81: `operator++`; the result is the advanced iterator. -/
def BasicIterator.operator_inc (s : Memory α) (this : BasicIterator) : Out BasicIterator :=
  match this.node_ with
  | none => .undefined
  | some p =>
    match s.cells p with
    | none => .undefined
    | some n => .ok ⟨n.next_node⟩

/-- Source lines 83-85: `operator*` read as a value. Reading the slot of a
sentinel, which holds no element, is undefined. -/
def BasicIterator.operator_deref (s : Memory α) (this : BasicIterator) : Out α :=
  match this.node_ with
  | none => .undefined
  | some p =>
    match s.cells p with
    | none => .undefined
    | some n =>
      match n.value with
      | none => .undefined
      | some v => .ok v

/-- Assignment `*it = v` through the reference `operator*` returns. -/
def BasicIterator.assign (s : Memory α) (this : BasicIterator) (v : α) : Res (Memory α) Unit :=
  match this.node_ with
  | none => .undefined
  | some p =>
    match s.cells p with
    | none => .undefined
    | some n =>
      match n.value with
      | none => .undefined
      | some _ => .ok () (s.setValue p v)

/-! ## SingleLinkedList members -/

/-- Source lines 130-132. -/
def GetSize (s : Memory α) (this : Nat) : Nat := s.size_ this

/-- Source lines 134-136. -/
def IsEmpty (s : Memory α) (this : Nat) : Bool :=
  if s.size_ this = 0 then true else false

/-- Source lines 175-177 and 183-185: `begin()`, both overloads. -/
def begin_ (s : Memory α) (this : Nat) : Out BasicIterator :=
  match s.cells (.head this) with
  | none => .undefined
  | some h => .ok ⟨h.next_node⟩

/-- Source lines 179-181 and 187-189: `end()`, both overloads. -/
def end_ : BasicIterator := ⟨none⟩

/-- Source lines 191-193. -/
def cbegin (s : Memory α) (this : Nat) : Out BasicIterator :=
  match s.cells (.head this) with
  | none => .undefined
  | some h => .ok ⟨h.next_node⟩

/-- Source lines 195-197. -/
def cend : BasicIterator := ⟨none⟩

/-- Source lines 199-201: the mutable overload. -/
def before_begin (this : Nat) : BasicIterator := ⟨some (.head this)⟩

/-- Source lines 203-205. -/
def cbefore_begin (this : Nat) : BasicIterator := ⟨some (.head this)⟩

/-- Source lines 207-209: the read-only overload, which returns `cbegin()`. -/
def before_begin_const (s : Memory α) (this : Nat) : Out BasicIterator :=
  cbegin s this

/-- Source line 103 and the member initialisers of lines 228-229: the list
object in slot `this` starts with a fresh sentinel and size 0. -/
def ctor_default (s : Memory α) (this : Nat) : Memory α :=
  (s.setCell (.head this) (some ⟨none, none⟩)).setSize this 0

/-- Source lines 138-141. -/
def PushFront (s : Memory α) (this : Nat) (value : α) : Res (Memory α) Unit :=
  if s.next < s.limit then
    match s.cells (.head this) with
    | none => .undefined
    | some h =>
      let s1 := s.construct value h.next_node
      let s2 := s1.setNext (.head this) (some (.heap s.next))
      .ok () (s2.incSize this)
  else .bad_alloc s

/-- Source lines 143-148. -/
def PopFront (s : Memory α) (this : Nat) : Res (Memory α) Unit :=
  match s.cells (.head this) with
  | none => .undefined
  | some h =>
    match h.next_node with
    | none => .undefined
    | some to_delete =>
      match s.cells to_delete with
      | none => .undefined
      | some d =>
        let s1 := s.setNext (.head this) d.next_node
        match s1.delete to_delete with
        | none => .undefined
        | some s2 => .ok () (s2.decSize this)

/-- Source lines 150-155. -/
def InsertAfter (s : Memory α) (this : Nat) (pos : BasicIterator) (value : α) :
    Res (Memory α) BasicIterator :=
  if s.next < s.limit then
    match pos.node_ with
    | none => .undefined
    | some p =>
      match s.cells p with
      | none => .undefined
      | some n =>
        let new_node := Addr.heap s.next
        let s1 := s.construct value n.next_node
        let s2 := s1.setNext p (some new_node)
        .ok ⟨some new_node⟩ (s2.incSize this)
  else .bad_alloc s

/-- Source lines 157-163. -/
def EraseAfter (s : Memory α) (this : Nat) (pos : BasicIterator) :
    Res (Memory α) BasicIterator :=
  match pos.node_ with
  | none => .undefined
  | some p =>
    match s.cells p with
    | none => .undefined
    | some n =>
      match n.next_node with
      | none => .undefined
      | some to_delete =>
        match s.cells to_delete with
        | none => .undefined
        | some d =>
          let s1 := s.setNext p d.next_node
          match s1.delete to_delete with
          | none => .undefined
          | some s2 =>
            let s3 := s2.decSize this
            match s3.cells p with
            | none => .undefined
            | some n3 => .ok ⟨n3.next_node⟩ s3

/-- Source lines 165-173. -/
def Clear : Nat → Memory α → Nat → Res (Memory α) Unit
  | 0, _, _ => .timeout
  | fuel + 1, s, this =>
    match s.cells (.head this) with
    | none => .undefined
    | some h =>
      match h.next_node with
      | none => .ok () s
      | some to_delete =>
        match s.cells to_delete with
        | none => .undefined
        | some d =>
          let s1 := s.setNext (.head this) d.next_node
          match s1.delete to_delete with
          | none => .undefined
          | some s2 => Clear fuel (s2.decSize this) this

/-- Loop of source lines 107-112, `ptr_at_last` being the node appended to. -/
def ctor_init_loop : Memory α → Nat → Addr → List α → Res (Memory α) Unit
  | s, _, _, [] => .ok () s
  | s, this, ptr_at_last, value :: values =>
    if s.next < s.limit then
      match s.cells ptr_at_last with
      | none => .undefined
      | some _ =>
        let new_node := Addr.heap s.next
        let s1 := s.construct value none
        let s2 := s1.setNext ptr_at_last (some new_node)
        ctor_init_loop (s2.incSize this) this new_node values
    else .bad_alloc s

/-- Source lines 105-113: construction from an initializer list. -/
def ctor_init (s : Memory α) (this : Nat) (values : List α) : Res (Memory α) Unit :=
  ctor_init_loop (ctor_default s this) this (.head this) values

/-- Loop of source lines 118-123. -/
def ctor_copy_loop : Nat → Memory α → Nat → Addr → BasicIterator → Res (Memory α) Unit
  | 0, _, _, _, _ => .timeout
  | fuel + 1, s, this, ptr_at_last, it =>
    match BasicIterator.operator_ne s it end_ with
    | .undefined => .undefined
    | .timeout => .timeout
    | .ok false => .ok () s
    | .ok true =>
      if s.next < s.limit then
        match BasicIterator.operator_deref s it with
        | .undefined => .undefined
        | .timeout => .timeout
        | .ok v =>
          match s.cells ptr_at_last with
          | none => .undefined
          | some _ =>
            let new_node := Addr.heap s.next
            let s1 := s.construct v none
            let s2 := s1.setNext ptr_at_last (some new_node)
            let s3 := s2.incSize this
            match BasicIterator.operator_inc s3 it with
            | .undefined => .undefined
            | .timeout => .timeout
            | .ok it1 => ctor_copy_loop fuel s3 this new_node it1
      else .bad_alloc s

/-- Source lines 115-124: the copy constructor. -/
def ctor_copy (fuel : Nat) (s : Memory α) (this other : Nat) : Res (Memory α) Unit :=
  (Clear fuel (ctor_default s this) this).andThen fun _ s1 =>
    match begin_ s1 other with
    | .undefined => .undefined
    | .timeout => .timeout
    | .ok it => ctor_copy_loop fuel s1 this (.head this) it

/-- Source lines 126-128, followed by the release of the object's storage. -/
def dtor (fuel : Nat) (s : Memory α) (this : Nat) : Res (Memory α) Unit :=
  (Clear fuel s this).andThen fun _ s1 => .ok () (s1.setCell (.head this) none)

/-- Source lines 217-225: member `swap`. -/
def swap (s : Memory α) (this other : Nat) : Res (Memory α) Unit :=
  match s.cells (.head this) with
  | none => .undefined
  | some h =>
    let temp_node_next := h.next_node
    let temp_size := s.size_ this
    match s.cells (.head other) with
    | none => .undefined
    | some o =>
      let s1 := s.setNext (.head this) o.next_node
      let s2 := s1.setSize this (s1.size_ other)
      let s3 := s2.setNext (.head other) temp_node_next
      .ok () (s3.setSize other temp_size)

/-- Source lines 232-235: non-member `swap`. -/
def swap_free (s : Memory α) (lhs rhs : Nat) : Res (Memory α) Unit :=
  swap s lhs rhs

/-- Source lines 211-215: copy assignment. The local `temp_list` is built
in the slot `temp_list` of the caller's frame; when the copy throws,
unwinding releases that slot and the nodes built so far stay allocated. -/
def operator_assign (fuel : Nat) (s : Memory α) (this rhs temp_list : Nat) :
    Res (Memory α) Unit :=
  match ctor_copy fuel s temp_list rhs with
  | .undefined => .undefined
  | .timeout => .timeout
  | .bad_alloc s1 => .bad_alloc (s1.setCell (.head temp_list) none)
  | .ok _ s1 =>
    (swap s1 this temp_list).andThen fun _ s2 => dtor fuel s2 temp_list

/-! ## Standard algorithms used by the comparison operators -/

/-- The three-iterator `std::equal` of the C++ standard library:
`for (; first1 != last1; ++first1, ++first2) if (!(*first1 == *first2)) return false;
return true;`. -/
def std_equal [DecidableEq α] :
    Nat → Memory α → BasicIterator → BasicIterator → BasicIterator → Out Bool
  | 0, _, _, _, _ => .timeout
  | fuel + 1, s, first1, last1, first2 =>
    match BasicIterator.operator_ne s first1 last1 with
    | .undefined => .undefined
    | .timeout => .timeout
    | .ok false => .ok true
    | .ok true =>
      match BasicIterator.operator_deref s first1, BasicIterator.operator_deref s first2 with
      | .ok a, .ok b =>
        if a = b then
          match BasicIterator.operator_inc s first1, BasicIterator.operator_inc s first2 with
          | .ok n1, .ok n2 => std_equal fuel s n1 last1 n2
          | _, _ => .undefined
        else .ok false
      | _, _ => .undefined

/-- The `std::lexicographical_compare` of the C++ standard library:
`for (; first1 != last1 && first2 != last2; ++first1, ++first2) {
 if (*first1 < *first2) return true; if (*first2 < *first1) return false; }
return first1 == last1 && first2 != last2;`. -/
def std_lexicographical_compare [LinearOrder α] :
    Nat → Memory α → BasicIterator → BasicIterator → BasicIterator → BasicIterator → Out Bool
  | 0, _, _, _, _, _ => .timeout
  | fuel + 1, s, first1, last1, first2, last2 =>
    match BasicIterator.operator_ne s first1 last1 with
    | .undefined => .undefined
    | .timeout => .timeout
    | .ok false =>
      -- loop left; `first1 == last1` holds, the result is `first2 != last2`
      BasicIterator.operator_ne s first2 last2
    | .ok true =>
      match BasicIterator.operator_ne s first2 last2 with
      | .undefined => .undefined
      | .timeout => .timeout
      | .ok false => .ok false
      | .ok true =>
        match BasicIterator.operator_deref s first1, BasicIterator.operator_deref s first2 with
        | .ok a, .ok b =>
          if a < b then .ok true
          else if b < a then .ok false
          else
            match BasicIterator.operator_inc s first1, BasicIterator.operator_inc s first2 with
            | .ok n1, .ok n2 => std_lexicographical_compare fuel s n1 last1 n2 last2
            | _, _ => .undefined
        | _, _ => .undefined

/-! ## Non-member comparison operators -/

/-- Source lines 237-240. -/
def operator_eq [DecidableEq α] (fuel : Nat) (s : Memory α) (lhs rhs : Nat) : Out Bool :=
  match cbegin s lhs, cbegin s rhs with
  | .ok b1, .ok b2 => std_equal fuel s b1 cend b2
  | _, _ => .undefined

/-- Source lines 242-245. -/
def operator_ne [DecidableEq α] (fuel : Nat) (s : Memory α) (lhs rhs : Nat) : Out Bool :=
  match operator_eq fuel s lhs rhs with
  | .ok b => .ok (!b)
  | .undefined => .undefined
  | .timeout => .timeout

/-- Source lines 247-250. -/
def operator_lt [LinearOrder α] (fuel : Nat) (s : Memory α) (lhs rhs : Nat) : Out Bool :=
  match cbegin s lhs, cbegin s rhs with
  | .ok b1, .ok b2 => std_lexicographical_compare fuel s b1 cend b2 cend
  | _, _ => .undefined

/-- Source lines 252-255: `lhs < rhs || lhs == rhs`, the right operand
evaluated only when the left one is false. -/
def operator_le [LinearOrder α] (fuel : Nat) (s : Memory α) (lhs rhs : Nat) : Out Bool :=
  match operator_lt fuel s lhs rhs with
  | .ok true => .ok true
  | .ok false => operator_eq fuel s lhs rhs
  | .undefined => .undefined
  | .timeout => .timeout

/-- Source lines 257-260: `!(lhs < rhs) && lhs != rhs`, the right operand
evaluated only when the left one is true. -/
def operator_gt [LinearOrder α] (fuel : Nat) (s : Memory α) (lhs rhs : Nat) : Out Bool :=
  match operator_lt fuel s lhs rhs with
  | .ok true => .ok false
  | .ok false => operator_ne fuel s lhs rhs
  | .undefined => .undefined
  | .timeout => .timeout

/-- Source lines 262-265. -/
def operator_ge [LinearOrder α] (fuel : Nat) (s : Memory α) (lhs rhs : Nat) : Out Bool :=
  match operator_lt fuel s lhs rhs with
  | .ok b => .ok (!b)
  | .undefined => .undefined
  | .timeout => .timeout

/-! ## Observation: forward traversal -/

/-- The client loop `for (; it != end(); ++it) out.push_back(*it);`. -/
def traverse : Nat → Memory α → BasicIterator → Out (List α)
  | 0, _, _ => .timeout
  | fuel + 1, s, it =>
    match BasicIterator.operator_ne s it end_ with
    | .undefined => .undefined
    | .timeout => .timeout
    | .ok false => .ok []
    | .ok true =>
      match BasicIterator.operator_deref s it, BasicIterator.operator_inc s it with
      | .ok v, .ok it1 =>
        match traverse fuel s it1 with
        | .ok vs => .ok (v :: vs)
        | .undefined => .undefined
        | .timeout => .timeout
      | _, _ => .undefined

/-- Elements met by forward traversal from `begin()` to `end()`. -/
def toList (fuel : Nat) (s : Memory α) (this : Nat) : Out (List α) :=
  match begin_ s this with
  | .ok it => traverse fuel s it
  | .undefined => .undefined
  | .timeout => .timeout

/-! ## Representation invariant -/

/-- Following `next_node` links in `c` from the pointer `q` visits exactly
the addresses `ps`, in order, and then reaches `nullptr`. -/
def Linked (c : Addr → Option (Node α)) : Option Addr → List Addr → Prop
  | q, [] => q = none
  | q, p :: ps => q = some p ∧ ∃ n, c p = some n ∧ Linked c n.next_node ps

/-- Element slots of the nodes at `ps`. -/
def valuesAt (c : Addr → Option (Node α)) (ps : List Addr) : List (Option α) :=
  ps.map fun p => (c p).bind Node.value

/-- The address is a heap address below `n`. -/
def Addr.below (n : Nat) : Addr → Prop
  | .heap a => a < n
  | .head _ => False

/-- The address exists when `new` has handed out the heap addresses below
`n`: a sentinel, or a heap address below `n`. -/
def Addr.old (n : Nat) : Addr → Prop
  | .heap a => a < n
  | .head _ => True

/-- Validity of the heap bounds: `new` has not run past its limit, and the
heap has fewer than `2 ^ 64` addresses. -/
def Memory.Valid (s : Memory α) : Prop :=
  s.next ≤ s.limit ∧ s.limit < SIZE_MOD

/-- The chain invariant of the list object in slot `l`: its sentinel is
live, the chain from the sentinel visits the distinct heap nodes `ps`, which
hold the elements `xs`, and `size_` is their number. -/
def IsList (s : Memory α) (l : Nat) (ps : List Addr) (xs : List α) : Prop :=
  Linked s.cells (some (.head l)) (.head l :: ps) ∧
  ps.Nodup ∧
  (∀ p ∈ ps, p.below s.next) ∧
  valuesAt s.cells ps = xs.map some ∧
  s.size_ l = ps.length

/-- Decision procedure for `Linked`, by walking the chain. -/
def Linked.dec (c : Addr → Option (Node α)) :
    (ps : List Addr) → (q : Option Addr) → Decidable (Linked c q ps)
  | [], q => inferInstanceAs (Decidable (q = none))
  | p :: ps, q =>
    if hq : q = some p then
      match hc : c p with
      | none => isFalse fun h => by
          obtain ⟨_, n, hn, _⟩ := h
          rw [hc] at hn
          cases hn
      | some n =>
        match Linked.dec c ps n.next_node with
        | isTrue h => isTrue ⟨hq, n, hc, h⟩
        | isFalse h => isFalse fun h2 => by
            obtain ⟨_, m, hm, hr⟩ := h2
            rw [hc] at hm
            cases hm
            exact h hr
    else isFalse fun h => hq h.1

instance (c : Addr → Option (Node α)) (q : Option Addr) (ps : List Addr) :
    Decidable (Linked c q ps) :=
  Linked.dec c ps q

instance (n : Nat) : (p : Addr) → Decidable (p.below n)
  | .heap a => inferInstanceAs (Decidable (a < n))
  | .head _ => inferInstanceAs (Decidable False)

instance (s : Memory α) : Decidable s.Valid :=
  inferInstanceAs (Decidable (s.next ≤ s.limit ∧ s.limit < SIZE_MOD))

instance [DecidableEq α] (s : Memory α) (l : Nat) (ps : List Addr) (xs : List α) :
    Decidable (IsList s l ps xs) :=
  inferInstanceAs (Decidable (
    Linked s.cells (some (.head l)) (.head l :: ps) ∧
    ps.Nodup ∧
    (∀ p ∈ ps, p.below s.next) ∧
    valuesAt s.cells ps = xs.map some ∧
    s.size_ l = ps.length))

/-- The iterator is the end marker or references a position of the list in
slot `l` with nodes `ps`: the sentinel or a real node. -/
def IteratorOf (l : Nat) (ps : List Addr) (it : BasicIterator) : Prop :=
  it.node_ = none ∨ ∃ p ∈ Addr.head l :: ps, it.node_ = some p

instance (l : Nat) (ps : List Addr) (it : BasicIterator) : Decidable (IteratorOf l ps it) :=
  inferInstanceAs (Decidable (it.node_ = none ∨ ∃ p ∈ Addr.head l :: ps, it.node_ = some p))

/-- Number carried by an address. -/
def Addr.index : Addr → Nat
  | .heap a => a
  | .head l => l

/-! ## Reference notions used to state the properties -/

/-- Reference lexicographic order in the words of the specification: at the
first index where the sequences differ the left element is smaller, or the
left sequence is a proper prefix of the right one. -/
def LexLess [LinearOrder α] (xs ys : List α) : Prop :=
  (∃ i a b, xs[i]? = some a ∧ ys[i]? = some b ∧ xs.take i = ys.take i ∧ a < b) ∨
  (xs.length < ys.length ∧ ys.take xs.length = xs)

/-! ## Drivers and example stores -/

/-- Store reached by a run, or `d` when the run did not end normally. -/
def Res.storeOr {σ β : Type} (r : Res σ β) (d : σ) : σ :=
  match r with
  | .ok _ s => s
  | _ => d

/-- One front operation of a client. -/
inductive Op (α : Type) where
  | push (v : α)
  | pop

/-- A client applying front operations in turn to the list in slot `l`. -/
def runOps : Memory α → Nat → List (Op α) → Res (Memory α) Unit
  | s, _, [] => .ok () s
  | s, l, .push v :: ops => (PushFront s l v).andThen fun _ s2 => runOps s2 l ops
  | s, l, .pop :: ops => (PopFront s l).andThen fun _ s2 => runOps s2 l ops

/-- LIFO stack model of a sequence of front operations, top first; `none`
when the sequence pops from an empty stack. -/
def stackModel : List α → List (Op α) → Option (List α)
  | st, [] => some st
  | st, .push v :: ops => stackModel (v :: st) ops
  | [], .pop :: _ => none
  | _ :: st, .pop :: ops => stackModel st ops

def pushes : List (Op α) → Nat
  | [] => 0
  | .push _ :: ops => pushes ops + 1
  | .pop :: ops => pushes ops

def pops : List (Op α) → Nat
  | [] => 0
  | .push _ :: ops => pops ops
  | .pop :: ops => pops ops + 1

/-- One mutation of a list by a client. -/
inductive Mutation (α : Type) where
  | PushFront (v : α)
  | PopFront
  | InsertAfter (pos : BasicIterator) (v : α)
  | EraseAfter (pos : BasicIterator)
  | Clear
  | assign (it : BasicIterator) (v : α)

/-- A client applying one mutation to the list in slot `c`. -/
def applyMutation (fuel : Nat) (s : Memory α) (c : Nat) : Mutation α → Res (Memory α) Unit
  | .PushFront v => PushFront s c v
  | .PopFront => PopFront s c
  | .InsertAfter pos v => (InsertAfter s c pos v).andThen fun _ s2 => .ok () s2
  | .EraseAfter pos => (EraseAfter s c pos).andThen fun _ s2 => .ok () s2
  | .Clear => Clear fuel s c
  | .assign it v => BasicIterator.assign s it v

/-- Preconditions of a mutation of the list in slot `c` with nodes `qs`:
`PopFront` needs an element, the position of `InsertAfter` is the sentinel
or a node of the list, the position of `EraseAfter` has a node after it, a
written iterator references a node of the list, and `Clear` has fuel for
every node. -/
def Mutation.admissible (c : Nat) (qs : List Addr) (fuel : Nat) : Mutation α → Prop
  | .PushFront _ => True
  | .PopFront => qs ≠ []
  | .InsertAfter pos _ =>
    ∃ (i : Nat) (p : Addr), (Addr.head c :: qs)[i]? = some p ∧ pos.node_ = some p
  | .EraseAfter pos =>
    ∃ (i : Nat) (p d : Addr),
      (Addr.head c :: qs)[i]? = some p ∧ qs[i]? = some d ∧ pos.node_ = some p
  | .Clear => qs.length < fuel
  | .assign it _ => ∃ p : Addr, p ∈ qs ∧ it.node_ = some p

/-- One call of the public interface by a client: a constructor building the
list object in slot `l`, a mutation of the list in slot `l`, the copy
assignment `a = b` (its temporary in slot `t`), or `a.swap(b)`. -/
inductive Call (α : Type) where
  | ctor_default (l : Nat)
  | ctor_init (l : Nat) (values : List α)
  | ctor_copy (l other : Nat)
  | mutate (l : Nat) (m : Mutation α)
  | operator_assign (a b t : Nat)
  | swap (a b : Nat)

/-- Execution of one call. -/
def Call.exec (fuel : Nat) (s : Memory α) : Call α → Res (Memory α) Unit
  | .ctor_default l => .ok () (SLL.ctor_default s l)
  | .ctor_init l values => SLL.ctor_init s l values
  | .ctor_copy l other => SLL.ctor_copy fuel s l other
  | .mutate l m => applyMutation fuel s l m
  | .operator_assign a b t => SLL.operator_assign fuel s a b t
  | .swap a b => SLL.swap s a b

/-- List objects alive after a call that returned normally, `ls` being those
alive before it. -/
def Call.live (ls : List Nat) : Call α → List Nat
  | .ctor_default l => l :: ls
  | .ctor_init l _ => l :: ls
  | .ctor_copy l _ => l :: ls
  | .mutate _ _ => ls
  | .operator_assign _ _ _ => ls
  | .swap _ _ => ls

/-- Preconditions of a call in store `s` with the list objects `ls` alive: a
constructor runs on a slot that holds no list, the other operations on live
lists within the preconditions of `Mutation.admissible`, the temporary of a
copy assignment in a free slot, and every loop has fuel for the list it
walks. -/
def Call.pre (fuel : Nat) (s : Memory α) (ls : List Nat) : Call α → Prop
  | .ctor_default l => l ∉ ls
  | .ctor_init l _ => l ∉ ls
  | .ctor_copy l other =>
    l ∉ ls ∧ other ∈ ls ∧ ∃ ps xs, IsList s other ps xs ∧ ps.length < fuel
  | .mutate l m => l ∈ ls ∧ ∃ ps xs, IsList s l ps xs ∧ m.admissible l ps fuel
  | .operator_assign a b t =>
    a ∈ ls ∧ b ∈ ls ∧ t ∉ ls ∧
      ∃ ps xs qs ys, IsList s a ps xs ∧ IsList s b qs ys ∧ ps.length < fuel ∧ qs.length < fuel
  | .swap a b => a ∈ ls ∧ b ∈ ls

/-- Stores reachable from the empty store through calls of the public
interface whose preconditions hold, with the list objects alive in them. A
call that ends with `bad_alloc` leaves the set of live lists as it was. -/
inductive Reachable : Memory α → List Nat → Prop where
  | start (limit : Nat) (h : limit < SIZE_MOD) : Reachable (Memory.empty limit) []
  | returned {s s2 : Memory α} {ls : List Nat} (call : Call α) (fuel : Nat) :
      Reachable s ls → call.pre fuel s ls → call.exec fuel s = .ok () s2 →
      Reachable s2 (call.live ls)
  | threw {s s2 : Memory α} {ls : List Nat} (call : Call α) (fuel : Nat) :
      Reachable s ls → call.pre fuel s ls → call.exec fuel s = .bad_alloc s2 →
      Reachable s2 ls

/-- Invariant of a store with the live list objects `ls`: the heap bounds
are valid, every live list satisfies the chain invariant, and two different
live lists share no node. -/
def Inv (s : Memory α) (ls : List Nat) : Prop :=
  s.Valid ∧ ∀ l ∈ ls, ∃ ps xs, IsList s l ps xs ∧
    ∀ k ∈ ls, k ≠ l → ∀ qs ys, IsList s k qs ys → ∀ q ∈ ps, q ∉ qs

/-- Example store: `SingleLinkedList<int> a{1, 2}, b{1, 2, 3};` in slots 0
and 1 of a store in which `new` succeeds eight times. -/
def store_12_123 : Memory Nat :=
  ((ctor_init (Memory.empty 8) 0 [1, 2]).andThen fun _ s => ctor_init s 1 [1, 2, 3]).storeOr
    (Memory.empty 8)

/-- Example store: a default-constructed list in slot 0; `new` succeeds
eight times. -/
def store_empty : Memory Nat := ctor_default (Memory.empty 8) 0

/-- Example store: `SingleLinkedList<int> l{1, 2, 3};` in slot 0; `new`
succeeds eight times. -/
def store_123 : Memory Nat :=
  (ctor_init (Memory.empty 8) 0 [1, 2, 3]).storeOr (Memory.empty 8)

/-- Example store: the lists `{1, 2}` and `{1, 2, 3}` of `store_12_123` in a
heap where `new` succeeds only once more. -/
def store_tight : Memory Nat := { store_12_123 with limit := 6 }

/-- Store left by a run that returned or threw, or `d` after a fault. -/
def Res.storeAfter {σ β : Type} (r : Res σ β) (d : σ) : σ :=
  match r with
  | .ok _ s => s
  | .bad_alloc s => s
  | _ => d

/-- Example run, call 1: `SingleLinkedList<int> a{1, 2};` in slot 0 of the
empty store in which `new` succeeds ten times. -/
def store_after_1 : Memory Nat :=
  (Call.exec 8 (Memory.empty 10) (.ctor_init 0 [1, 2])).storeAfter (Memory.empty 10)

/-- Example run, call 2: then `SingleLinkedList<int> b{1, 2, 3};` in slot 1. -/
def store_after_2 : Memory Nat :=
  (Call.exec 8 store_after_1 (.ctor_init 1 [1, 2, 3])).storeAfter store_after_1

/-- Example run, call 3: then `a.PushFront(7)`. -/
def store_after_3 : Memory Nat :=
  (Call.exec 8 store_after_2 (.mutate 0 (.PushFront 7))).storeAfter store_after_2

/-- Example run, call 4: then `a.swap(b)`. -/
def store_after_4 : Memory Nat :=
  (Call.exec 8 store_after_3 (.swap 0 1)).storeAfter store_after_3

/-- Example run, call 5: then `a = b`, the temporary in slot 2. -/
def store_after_5 : Memory Nat :=
  (Call.exec 8 store_after_4 (.operator_assign 0 1 2)).storeAfter store_after_4

/-- Example run, call 6: then `b.EraseAfter(b.begin())`. -/
def store_after_6 : Memory Nat :=
  (Call.exec 8 store_after_5 (.mutate 1 (.EraseAfter ⟨some (.heap 5)⟩))).storeAfter
    store_after_5

/-- Example run, call 7: then the copy construction `c(a)` in slot 3, which
runs out of memory. -/
def store_after_7 : Memory Nat :=
  (Call.exec 8 store_after_6 (.ctor_copy 3 0)).storeAfter store_after_6

/-! # Lemmas -/

/-! ## Chains -/

theorem linked_congr {c c2 : Addr → Option (Node α)} :
    ∀ {ps : List Addr} {q : Option Addr}, Linked c q ps → (∀ p ∈ ps, c2 p = c p) →
      Linked c2 q ps
  | [], _, h, _ => h
  | p :: ps, _, ⟨hq, n, hn, hrest⟩, hc =>
    ⟨hq, n, by rw [hc p (List.mem_cons_self _ _)]; exact hn,
      linked_congr hrest fun r hr => hc r (List.mem_cons_of_mem _ hr)⟩

theorem linked_unique {c : Addr → Option (Node α)} :
    ∀ {ps qs : List Addr} {q : Option Addr}, Linked c q ps → Linked c q qs → ps = qs
  | [], [], _, _, _ => rfl
  | [], _ :: _, _, h1, ⟨h2, _⟩ => by rw [h1] at h2; cases h2
  | _ :: _, [], _, ⟨h1, _⟩, h2 => by rw [h2] at h1; cases h1
  | p :: ps, r :: qs, _, ⟨h1, n, hn, hrest⟩, ⟨h2, m, hm, hrest2⟩ => by
    rw [h1] at h2
    cases h2
    rw [hn] at hm
    cases hm
    rw [linked_unique hrest hrest2]

theorem valuesAt_congr {c c2 : Addr → Option (Node α)} {ps : List Addr}
    (h : ∀ p ∈ ps, (c2 p).bind Node.value = (c p).bind Node.value) :
    valuesAt c2 ps = valuesAt c ps := by
  unfold valuesAt
  exact List.map_congr_left h

theorem valuesAt_append (c : Addr → Option (Node α)) (ps qs : List Addr) :
    valuesAt c (ps ++ qs) = valuesAt c ps ++ valuesAt c qs := by
  simp [valuesAt]

theorem valuesAt_length (c : Addr → Option (Node α)) (ps : List Addr) :
    (valuesAt c ps).length = ps.length := by
  simp [valuesAt]

theorem below_length_le {ps : List Addr} {n : Nat} (hnd : ps.Nodup)
    (hb : ∀ p ∈ ps, p.below n) : ps.length ≤ n := by
  have hinj : ∀ p ∈ ps, ∀ q ∈ ps, Addr.index p = Addr.index q → p = q := by
    intro p hp q hq hpq
    have h1 := hb p hp
    have h2 := hb q hq
    cases p <;> cases q <;> simp_all [Addr.below, Addr.index]
  have hnd2 : (ps.map Addr.index).Nodup := (List.nodup_map_iff_inj_on hnd).mpr hinj
  have hsub : ∀ k ∈ ps.map Addr.index, k ∈ List.range n := by
    intro k hk
    rcases List.mem_map.mp hk with ⟨p, hp, rfl⟩
    have h1 := hb p hp
    cases p <;> simp_all [Addr.below, Addr.index]
  have := (List.Nodup.subperm hnd2 hsub).length_le
  simpa using this

theorem below_ne_next {ps : List Addr} {n : Nat} (hb : ∀ p ∈ ps, p.below n) :
    Addr.heap n ∉ ps := by
  intro h
  have := hb _ h
  simp [Addr.below] at this

theorem below_ne_head {ps : List Addr} {n : Nat} (hb : ∀ p ∈ ps, p.below n) (l : Nat) :
    Addr.head l ∉ ps := by
  intro h
  exact hb _ h

/-! ## Traversal -/

theorem traverse_linked (s : Memory α) :
    ∀ (fuel : Nat) (ps : List Addr) (xs : List α) (q : Option Addr),
      Linked s.cells q ps → valuesAt s.cells ps = xs.map some → ps.length < fuel →
      traverse fuel s ⟨q⟩ = .ok xs
  | 0, _, _, _, _, _, hf => absurd hf (Nat.not_lt_zero _)
  | fuel + 1, [], xs, q, hl, hv, _ => by
    have hq : q = none := hl
    subst hq
    cases xs with
    | nil => simp [traverse, BasicIterator.operator_ne, BasicIterator.operator_eq, end_]
    | cons x xs => simp [valuesAt] at hv
  | fuel + 1, p :: ps, xs, q, ⟨hq, n, hn, hrest⟩, hv, hf => by
    subst hq
    cases xs with
    | nil => simp [valuesAt] at hv
    | cons x xs =>
      simp only [valuesAt, List.map_cons, List.cons.injEq, hn, Option.some_bind] at hv
      have ih := traverse_linked s fuel ps xs n.next_node hrest hv.2
        (by simpa using hf)
      simp [traverse, BasicIterator.operator_ne, BasicIterator.operator_eq, end_,
        BasicIterator.operator_deref, BasicIterator.operator_inc, hn, hv.1, ih]

theorem toList_isList {s : Memory α} {l : Nat} {ps : List Addr} {xs : List α}
    (h : IsList s l ps xs) {fuel : Nat} (hf : ps.length < fuel) :
    toList fuel s l = .ok xs := by
  obtain ⟨⟨_, n, hn, hrest⟩, _, _, hv, _⟩ := h
  simp [toList, begin_, hn, traverse_linked s fuel ps xs n.next_node hrest hv hf]


/-! ## Lexicographic comparison -/

theorem lexLess_nil_left [LinearOrder α] (ys : List α) : LexLess [] ys ↔ ys ≠ [] := by
  unfold LexLess
  constructor
  · rintro (⟨i, a, b, h1, _⟩ | ⟨h, _⟩)
    · simp at h1
    · intro hy; subst hy; simp at h
  · intro h
    right
    cases ys with
    | nil => exact absurd rfl h
    | cons y ys => simp

theorem lexLess_nil_right [LinearOrder α] (xs : List α) : ¬ LexLess xs [] := by
  unfold LexLess
  rintro (⟨i, a, b, _, h2, _⟩ | ⟨h, _⟩)
  · simp at h2
  · simp at h

theorem lexLess_cons [LinearOrder α] (x y : α) (xs ys : List α) :
    LexLess (x :: xs) (y :: ys) ↔ x < y ∨ (x = y ∧ LexLess xs ys) := by
  unfold LexLess
  constructor
  · rintro (⟨i, a, b, h1, h2, h3, h4⟩ | ⟨h1, h2⟩)
    · cases i with
      | zero =>
        simp at h1 h2
        subst h1; subst h2
        exact Or.inl h4
      | succ i =>
        simp at h1 h2 h3
        exact Or.inr ⟨h3.1, Or.inl ⟨i, a, b, h1, h2, h3.2, h4⟩⟩
    · simp at h1 h2
      exact Or.inr ⟨h2.1.symm, Or.inr ⟨h1, h2.2⟩⟩
  · rintro (h | ⟨rfl, ⟨i, a, b, h1, h2, h3, h4⟩ | ⟨h1, h2⟩⟩)
    · exact Or.inl ⟨0, x, y, by simp, by simp, by simp, h⟩
    · exact Or.inl ⟨i + 1, a, b, by simpa using h1, by simpa using h2, by simpa using h3, h4⟩
    · exact Or.inr ⟨by simpa using h1, by simpa using h2⟩

theorem std_lexicographical_compare_linked [LinearOrder α] (s : Memory α) :
    ∀ (fuel : Nat) (ps qs : List Addr) (xs ys : List α) (q1 q2 : Option Addr),
      Linked s.cells q1 ps → valuesAt s.cells ps = xs.map some →
      Linked s.cells q2 qs → valuesAt s.cells qs = ys.map some →
      ps.length < fuel →
      ∃ b, std_lexicographical_compare fuel s ⟨q1⟩ cend ⟨q2⟩ cend = .ok b ∧
        (b = true ↔ LexLess xs ys)
  | 0, _, _, _, _, _, _, _, _, _, _, hf => absurd hf (Nat.not_lt_zero _)
  | fuel + 1, [], qs, xs, ys, q1, q2, h1, v1, h2, v2, _ => by
    have hq : q1 = none := h1
    subst hq
    have hx : xs = [] := by cases xs <;> simp_all [valuesAt]
    subst hx
    cases qs with
    | nil =>
      have hq : q2 = none := h2
      subst hq
      have hy : ys = [] := by cases ys <;> simp_all [valuesAt]
      subst hy
      refine ⟨false, ?_, ?_⟩
      · simp [std_lexicographical_compare, BasicIterator.operator_ne,
          BasicIterator.operator_eq, cend]
      · simp [lexLess_nil_left]
    | cons r qs =>
      obtain ⟨hq, _⟩ := h2
      subst hq
      have hy : ys ≠ [] := by rintro rfl; simp [valuesAt] at v2
      refine ⟨true, ?_, ?_⟩
      · simp [std_lexicographical_compare, BasicIterator.operator_ne,
          BasicIterator.operator_eq, cend]
      · simp [lexLess_nil_left, hy]
  | fuel + 1, p :: ps, qs, xs, ys, q1, q2, ⟨hq1, n, hn, hrest⟩, v1, h2, v2, hf => by
    subst hq1
    cases xs with
    | nil => simp [valuesAt] at v1
    | cons x xs =>
      simp only [valuesAt, List.map_cons, List.cons.injEq, hn, Option.some_bind] at v1
      cases qs with
      | nil =>
        have hq : q2 = none := h2
        subst hq
        have hy : ys = [] := by cases ys <;> simp_all [valuesAt]
        subst hy
        refine ⟨false, ?_, ?_⟩
        · simp [std_lexicographical_compare, BasicIterator.operator_ne,
            BasicIterator.operator_eq, cend]
        · simp [lexLess_nil_right]
      | cons r qs =>
        obtain ⟨hq2, m, hm, hrest2⟩ := h2
        subst hq2
        cases ys with
        | nil => simp [valuesAt] at v2
        | cons y ys =>
          simp only [valuesAt, List.map_cons, List.cons.injEq, hm, Option.some_bind] at v2
          obtain ⟨b, hb, hiff⟩ := std_lexicographical_compare_linked s fuel ps qs xs ys
            n.next_node m.next_node hrest v1.2 hrest2 v2.2 (by simpa using hf)
          simp only [cend] at hb
          by_cases hxy : x < y
          · refine ⟨true, ?_, ?_⟩
            · simp [std_lexicographical_compare, BasicIterator.operator_ne,
                BasicIterator.operator_eq, cend, BasicIterator.operator_deref, hn, hm,
                v1.1, v2.1, hxy]
            · simp [lexLess_cons, hxy]
          · by_cases hyx : y < x
            · refine ⟨false, ?_, ?_⟩
              · simp [std_lexicographical_compare, BasicIterator.operator_ne,
                  BasicIterator.operator_eq, cend, BasicIterator.operator_deref, hn, hm,
                  v1.1, v2.1, hxy, hyx]
              · have hne : x ≠ y := fun h => by subst h; exact hxy hyx
                simp [lexLess_cons, hxy, hne]
            · have heq : x = y := le_antisymm (not_lt.mp hyx) (not_lt.mp hxy)
              refine ⟨b, ?_, ?_⟩
              · simp [std_lexicographical_compare, BasicIterator.operator_ne,
                  BasicIterator.operator_eq, cend, BasicIterator.operator_deref,
                  BasicIterator.operator_inc, hn, hm, v1.1, v2.1, hxy, hyx, hb]
              · simp [lexLess_cons, hxy, heq, hiff]


/-! ## Chain surgery -/

theorem linked_insert {c c2 : Addr → Option (Node α)} {p new : Addr} {n : Node α} {v : α}
    (hp : c p = some n)
    (hp2 : c2 p = some { n with next_node := some new })
    (hnew : c2 new = some ⟨some v, n.next_node⟩)
    (hframe : ∀ q, q ≠ p → q ≠ new → c2 q = c q) :
    ∀ (pre post : List Addr) (q0 : Option Addr),
      Linked c q0 (pre ++ p :: post) → (pre ++ p :: post).Nodup → new ∉ pre ++ p :: post →
      Linked c2 q0 (pre ++ p :: new :: post)
  | [], post, q0, ⟨hq, m, hm, hrest⟩, hnd, hfresh => by
    rw [hp] at hm
    cases hm
    simp only [List.nil_append, List.nodup_cons, List.mem_cons, not_or] at hnd hfresh
    refine ⟨hq, _, hp2, rfl, _, hnew, ?_⟩
    refine linked_congr hrest fun r hr => hframe r ?_ ?_
    · rintro rfl; exact hnd.1 hr
    · rintro rfl; exact hfresh.2 hr
  | r :: pre, post, q0, ⟨hq, m, hm, hrest⟩, hnd, hfresh => by
    simp only [List.cons_append, List.nodup_cons, List.mem_cons, List.mem_append,
      not_or] at hnd hfresh
    have hrp : r ≠ p := hnd.1.2.1
    have hrn : r ≠ new := fun h => hfresh.1 h.symm
    refine ⟨hq, m, by rw [hframe r hrp hrn]; exact hm, ?_⟩
    exact linked_insert hp hp2 hnew hframe pre post m.next_node hrest hnd.2
      (by simp only [List.mem_append, List.mem_cons, not_or]; exact hfresh.2)

theorem linked_erase {c c2 : Addr → Option (Node α)} {p d : Addr} {n dn : Node α}
    (hp : c p = some n) (hd : c d = some dn)
    (hp2 : c2 p = some { n with next_node := dn.next_node })
    (hframe : ∀ q, q ≠ p → q ≠ d → c2 q = c q) :
    ∀ (pre post : List Addr) (q0 : Option Addr),
      Linked c q0 (pre ++ p :: d :: post) → (pre ++ p :: d :: post).Nodup →
      Linked c2 q0 (pre ++ p :: post)
  | [], post, q0, ⟨hq, m, hm, hq1, m1, hm1, hrest⟩, hnd => by
    rw [hp] at hm
    cases hm
    rw [hd] at hm1
    cases hm1
    simp only [List.nil_append, List.nodup_cons, List.mem_cons, not_or] at hnd
    refine ⟨hq, _, hp2, ?_⟩
    refine linked_congr hrest fun r hr => hframe r ?_ ?_
    · rintro rfl; exact hnd.1.2 hr
    · rintro rfl; exact hnd.2.1 hr
  | r :: pre, post, q0, ⟨hq, m, hm, hrest⟩, hnd => by
    simp only [List.cons_append, List.nodup_cons, List.mem_cons, List.mem_append,
      not_or] at hnd
    have hrp : r ≠ p := hnd.1.2.1
    have hrd : r ≠ d := hnd.1.2.2.1
    refine ⟨hq, m, by rw [hframe r hrp hrd]; exact hm, ?_⟩
    exact linked_erase hp hd hp2 hframe pre post m.next_node hrest hnd.2

/-- Node reached right after the node `p` of a chain. -/
theorem linked_next_of_mem {c : Addr → Option (Node α)} :
    ∀ (pre post : List Addr) (p : Addr) (q0 : Option Addr),
      Linked c q0 (pre ++ p :: post) →
      ∃ n, c p = some n ∧ n.next_node = post.head? ∧ Linked c n.next_node post
  | [], post, p, q0, ⟨_, m, hm, hrest⟩ => by
    refine ⟨m, hm, ?_, hrest⟩
    cases post with
    | nil => exact hrest
    | cons r post => exact hrest.1
  | r :: pre, post, p, q0, ⟨_, m, _, hrest⟩ =>
    linked_next_of_mem pre post p m.next_node hrest

theorem getElem?_split {β : Type} {P : List β} {i : Nat} {p : β} (h : P[i]? = some p) :
    P = P.take i ++ p :: P.drop (i + 1) := by
  have hi : i < P.length := (List.getElem?_eq_some_iff.mp h).1
  have hp : P[i] = p := (List.getElem?_eq_some_iff.mp h).2
  rw [← hp, ← List.drop_eq_getElem_cons hi, List.take_append_drop]

/-- Frame rule: a list whose sentinel, nodes and size are untouched keeps
its representation. -/
theorem isList_frame {s s2 : Memory α} {l : Nat} {ps : List Addr} {xs : List α}
    (h : IsList s l ps xs) (hc : ∀ q ∈ Addr.head l :: ps, s2.cells q = s.cells q)
    (hsz : s2.size_ l = s.size_ l) (hnext : s.next ≤ s2.next) : IsList s2 l ps xs := by
  obtain ⟨h1, h2, h3, h4, h5⟩ := h
  refine ⟨linked_congr h1 hc, h2, ?_, ?_, by rw [hsz, h5]⟩
  · intro p hp
    have := h3 p hp
    cases p with
    | head k => exact this
    | heap a => exact Nat.lt_of_lt_of_le this hnext
  · rw [← h4]
    exact valuesAt_congr fun p hp => by rw [hc p (List.mem_cons_of_mem _ hp)]

theorem isList_length_eq {s : Memory α} {l : Nat} {ps : List Addr} {xs : List α}
    (h : IsList s l ps xs) : xs.length = ps.length := by
  have := congrArg List.length h.2.2.2.1
  simpa [valuesAt] using this.symm

theorem isList_length_le {s : Memory α} {l : Nat} {ps : List Addr} {xs : List α}
    (h : IsList s l ps xs) : ps.length ≤ s.next :=
  below_length_le h.2.1 h.2.2.1

theorem isList_nodup_cons {s : Memory α} {l : Nat} {ps : List Addr} {xs : List α}
    (h : IsList s l ps xs) : (Addr.head l :: ps).Nodup :=
  List.nodup_cons.mpr ⟨below_ne_head h.2.2.1 l, h.2.1⟩

theorem isList_unique {s : Memory α} {l : Nat} {ps qs : List Addr} {xs ys : List α}
    (h1 : IsList s l ps xs) (h2 : IsList s l qs ys) : ps = qs ∧ xs = ys := by
  have hp : ps = qs := by
    have := linked_unique h1.1 h2.1
    simpa using this
  subst hp
  refine ⟨rfl, ?_⟩
  have := h1.2.2.2.1.symm.trans h2.2.2.2.1
  exact (List.map_injective_iff.mpr (Option.some_injective α)) this

/-! ## Size arithmetic -/

theorem inc_no_wrap {n : Nat} (h : n + 1 < SIZE_MOD) : (n + 1) % SIZE_MOD = n + 1 :=
  Nat.mod_eq_of_lt h

theorem dec_no_wrap {n : Nat} (h : n + 1 < SIZE_MOD) :
    (n + 1 + SIZE_MOD - 1) % SIZE_MOD = n := by
  have : n + 1 + SIZE_MOD - 1 = n + SIZE_MOD := by omega
  rw [this, Nat.add_mod_right]
  exact Nat.mod_eq_of_lt (by omega)

/-! ## Values under surgery -/

theorem valuesAt_take (c : Addr → Option (Node α)) (ps : List Addr) (i : Nat) :
    valuesAt c (ps.take i) = (valuesAt c ps).take i := by
  simp [valuesAt, List.map_take]

theorem valuesAt_drop (c : Addr → Option (Node α)) (ps : List Addr) (i : Nat) :
    valuesAt c (ps.drop i) = (valuesAt c ps).drop i := by
  simp [valuesAt, List.map_drop]

theorem valuesAt_insert {c c2 : Addr → Option (Node α)} {ps : List Addr} {xs : List α}
    {new : Addr} {v : α} {nx : Option Addr} (i : Nat)
    (hval : ∀ q ∈ ps, (c2 q).bind Node.value = (c q).bind Node.value)
    (hnew : c2 new = some ⟨some v, nx⟩) (hvs : valuesAt c ps = xs.map some) :
    valuesAt c2 (ps.take i ++ new :: ps.drop i) = (xs.take i ++ v :: xs.drop i).map some := by
  have h1 : valuesAt c2 (ps.take i) = valuesAt c (ps.take i) :=
    valuesAt_congr fun q hq => hval q (List.mem_of_mem_take hq)
  have h2 : valuesAt c2 (ps.drop i) = valuesAt c (ps.drop i) :=
    valuesAt_congr fun q hq => hval q (List.mem_of_mem_drop hq)
  have h3 : valuesAt c2 (new :: ps.drop i) = some v :: valuesAt c2 (ps.drop i) := by
    simp [valuesAt, hnew]
  rw [valuesAt_append, h3, h1, h2, valuesAt_take, valuesAt_drop, hvs]
  simp [List.map_take, List.map_drop]

theorem valuesAt_eraseIdx {c c2 : Addr → Option (Node α)} {ps : List Addr} {xs : List α}
    (i : Nat)
    (hval : ∀ q ∈ ps.eraseIdx i, (c2 q).bind Node.value = (c q).bind Node.value)
    (hvs : valuesAt c ps = xs.map some) :
    valuesAt c2 (ps.eraseIdx i) = (xs.eraseIdx i).map some := by
  rw [valuesAt_congr hval]
  have : valuesAt c (ps.eraseIdx i) = (valuesAt c ps).eraseIdx i := by
    simp [valuesAt, List.eraseIdx_eq_take_drop_succ, List.map_take, List.map_drop]
  rw [this, hvs]
  simp [List.eraseIdx_eq_take_drop_succ, List.map_take, List.map_drop]

theorem nodup_insert {ps : List Addr} {new : Addr} (i : Nat) (hnd : ps.Nodup)
    (hfresh : new ∉ ps) : (ps.take i ++ new :: ps.drop i).Nodup := by
  have hperm : (ps.take i ++ new :: ps.drop i).Perm (new :: ps) := by
    have := @List.perm_middle _ new (ps.take i) (ps.drop i)
    rwa [List.take_append_drop] at this
  exact hperm.nodup_iff.mpr (List.nodup_cons.mpr ⟨hfresh, hnd⟩)

theorem mem_insert {ps : List Addr} {new q : Addr} (i : Nat)
    (hq : q ∈ ps.take i ++ new :: ps.drop i) : q = new ∨ q ∈ ps := by
  rcases List.mem_append.mp hq with h | h
  · exact Or.inr (List.mem_of_mem_take h)
  · rcases List.mem_cons.mp h with h | h
    · exact Or.inl h
    · exact Or.inr (List.mem_of_mem_drop h)

theorem below_mono {n m : Nat} (h : n ≤ m) : ∀ {p : Addr}, p.below n → p.below m
  | .heap _, hp => Nat.lt_of_lt_of_le hp h
  | .head _, hp => hp

/-- Position `i` of the chain with its sentinel: the chain splits there. -/
theorem position_split {l : Nat} {ps : List Addr} {i : Nat} {p : Addr}
    (hpos : (Addr.head l :: ps)[i]? = some p) :
    Addr.head l :: ps = (Addr.head l :: ps).take i ++ p :: ps.drop i ∧
    (Addr.head l :: ps).take i ++ [p] = Addr.head l :: ps.take i := by
  cases i with
  | zero =>
    simp at hpos
    subst hpos
    simp
  | succ j =>
    simp only [List.getElem?_cons_succ] at hpos
    have h1 := getElem?_split hpos
    have h2 : ps.take (j + 1) = ps.take j ++ [p] := by
      rw [List.take_succ, hpos]; rfl
    constructor
    · simp only [List.take_succ_cons, List.cons_append, List.cons.injEq, true_and]
      exact h1
    · simp [h2]

/-! ## Specifications of the mutators -/

theorem InsertAfter_spec {s : Memory α} {l : Nat} {ps : List Addr} {xs : List α}
    (hv : s.Valid) (h : IsList s l ps xs) (halloc : s.next < s.limit)
    {i : Nat} {p : Addr} (hpos : (Addr.head l :: ps)[i]? = some p) (v : α) :
    ∃ s2, InsertAfter s l ⟨some p⟩ v = .ok ⟨some (.heap s.next)⟩ s2 ∧
      IsList s2 l (ps.take i ++ .heap s.next :: ps.drop i) (xs.take i ++ v :: xs.drop i) ∧
      s2.Valid ∧ s2.next = s.next + 1 ∧ s2.limit = s.limit ∧
      s2.size_ l = s.size_ l + 1 ∧ (∀ k, k ≠ l → s2.size_ k = s.size_ k) ∧
      (∀ q, q ≠ p → q ≠ .heap s.next → s2.cells q = s.cells q) ∧
      (s2.cells p).bind Node.value = (s.cells p).bind Node.value := by
  obtain ⟨hlink, hnd, hbelow, hvals, hsize⟩ := h
  obtain ⟨hsplit, htake⟩ := position_split hpos
  have hlink2 := hlink
  rw [hsplit] at hlink2
  obtain ⟨n, hn, -, -⟩ := linked_next_of_mem _ _ _ _ hlink2
  have hndP : (Addr.head l :: ps).Nodup := List.nodup_cons.mpr ⟨below_ne_head hbelow l, hnd⟩
  have hfreshP : Addr.heap s.next ∉ Addr.head l :: ps := by
    simp only [List.mem_cons, not_or]
    exact ⟨by simp, below_ne_next hbelow⟩
  have hpP : p ∈ Addr.head l :: ps := List.getElem?_mem hpos
  have hpne : p ≠ Addr.heap s.next := fun e => hfreshP (e ▸ hpP)
  have hlen : ps.length ≤ s.next := below_length_le hnd hbelow
  have hsz : (s.size_ l + 1) % SIZE_MOD = s.size_ l + 1 :=
    inc_no_wrap (by have := hv.2; omega)
  refine ⟨((s.construct v n.next_node).setNext p (some (.heap s.next))).incSize l,
    by simp only [InsertAfter, halloc, if_true, hn], ?_, ?_, rfl, rfl, ?_, ?_, ?_, ?_⟩
  · -- the representation after the insertion
    have hp2 : (((s.construct v n.next_node).setNext p (some (.heap s.next))).incSize l).cells p
        = some { n with next_node := some (.heap s.next) } := by
      simp [Memory.incSize, Memory.setSize, Memory.setNext, Memory.construct, hpne, hn]
    have hnew : (((s.construct v n.next_node).setNext p (some (.heap s.next))).incSize l).cells
        (.heap s.next) = some ⟨some v, n.next_node⟩ := by
      simp [Memory.incSize, Memory.setSize, Memory.setNext, Memory.construct, Ne.symm hpne]
    have hframe : ∀ q, q ≠ p → q ≠ .heap s.next →
        (((s.construct v n.next_node).setNext p (some (.heap s.next))).incSize l).cells q
          = s.cells q := by
      intro q h1 h2
      simp [Memory.incSize, Memory.setSize, Memory.setNext, Memory.construct, h1, h2]
    have hL := linked_insert hn hp2 hnew hframe _ _ _ hlink2 (hsplit ▸ hndP) (hsplit ▸ hfreshP)
    have hshape : (Addr.head l :: ps).take i ++ p :: Addr.heap s.next :: ps.drop i
        = Addr.head l :: (ps.take i ++ Addr.heap s.next :: ps.drop i) := by
      have : (Addr.head l :: ps).take i ++ p :: Addr.heap s.next :: ps.drop i
          = ((Addr.head l :: ps).take i ++ [p]) ++ Addr.heap s.next :: ps.drop i := by simp
      rw [this, htake]; simp
    rw [hshape] at hL
    refine ⟨hL, nodup_insert i hnd (below_ne_next hbelow), ?_, ?_, ?_⟩
    · intro q hq
      rcases mem_insert i hq with rfl | hq
      · show s.next < s.next + 1
        exact Nat.lt_succ_self _
      · exact below_mono (Nat.le_succ _) (hbelow q hq)
    · refine valuesAt_insert i (fun q hq => ?_) hnew hvals
      by_cases hqp : q = p
      · subst hqp; rw [hp2, hn]; rfl
      · rw [hframe q hqp (fun e => below_ne_next hbelow (e ▸ hq))]
    · have hlen2 : (ps.take i ++ Addr.heap s.next :: ps.drop i).length = ps.length + 1 := by
        have := @List.perm_middle _ (Addr.heap s.next) (ps.take i) (ps.drop i)
        rw [this.length_eq]; simp
      rw [hlen2, ← hsize]
      simp [Memory.incSize, Memory.setSize, Memory.setNext, Memory.construct, hsz]
  · exact ⟨Nat.succ_le_of_lt halloc, hv.2⟩
  · simp [Memory.incSize, Memory.setSize, Memory.setNext, Memory.construct, hsz]
  · intro k hk
    simp [Memory.incSize, Memory.setSize, Memory.setNext, Memory.construct, hk]
  · intro q h1 h2
    simp [Memory.incSize, Memory.setSize, Memory.setNext, Memory.construct, h1, h2]
  · simp [Memory.incSize, Memory.setSize, Memory.setNext, Memory.construct, hpne, hn]

theorem below_heap {n : Nat} {p : Addr} (h : p.below n) : ∃ a, p = .heap a ∧ a < n := by
  cases p with
  | head k => exact absurd h id
  | heap a => exact ⟨a, rfl, h⟩

theorem delete_live {s : Memory α} {a : Nat} {n : Node α} (h : s.cells (.heap a) = some n) :
    s.delete (.heap a) = some (s.setCell (.heap a) none) := by
  simp [Memory.delete, h]

theorem EraseAfter_spec {s : Memory α} {l : Nat} {ps : List Addr} {xs : List α}
    (hv : s.Valid) (h : IsList s l ps xs)
    {i : Nat} {p d : Addr} (hpos : (Addr.head l :: ps)[i]? = some p) (hd : ps[i]? = some d) :
    ∃ s2, EraseAfter s l ⟨some p⟩ = .ok ⟨ps[i + 1]?⟩ s2 ∧
      IsList s2 l (ps.eraseIdx i) (xs.eraseIdx i) ∧
      s2.Valid ∧ s2.next = s.next ∧ s2.limit = s.limit ∧
      s2.size_ l + 1 = s.size_ l ∧ (∀ k, k ≠ l → s2.size_ k = s.size_ k) ∧
      (∀ q, q ≠ p → q ≠ d → s2.cells q = s.cells q) ∧
      (s2.cells p).bind Node.value = (s.cells p).bind Node.value ∧
      s2.cells d = none := by
  obtain ⟨hlink, hnd, hbelow, hvals, hsize⟩ := h
  obtain ⟨hsplit, htake⟩ := position_split hpos
  have hdrop : ps.drop i = d :: ps.drop (i + 1) := by
    have hi : i < ps.length := (List.getElem?_eq_some_iff.mp hd).1
    rw [List.drop_eq_getElem_cons hi, (List.getElem?_eq_some_iff.mp hd).2]
  rw [hdrop] at hsplit
  have hlink2 := hlink
  rw [hsplit] at hlink2
  obtain ⟨n, hn, hnx, hrest⟩ := linked_next_of_mem _ _ _ _ hlink2
  obtain ⟨-, dn, hdn, hrest2⟩ := hrest
  have hnx : n.next_node = some d := hnx
  have hndP : (Addr.head l :: ps).Nodup := List.nodup_cons.mpr ⟨below_ne_head hbelow l, hnd⟩
  have hndP2 := hndP
  rw [hsplit] at hndP2
  have hdmem : d ∈ ps := List.getElem?_mem hd
  obtain ⟨a, rfl, ha⟩ := below_heap (hbelow _ hdmem)
  have hpd : p ≠ Addr.heap a := by
    intro e
    have := (List.nodup_append.mp hndP2).2.1
    rw [e] at this
    simp at this
  have hlen : ps.length ≤ s.next := below_length_le hnd hbelow
  have hpos_len : 0 < ps.length := List.length_pos_of_mem hdmem
  have hsz : (s.size_ l + SIZE_MOD - 1) % SIZE_MOD + 1 = s.size_ l := by
    obtain ⟨m, hm⟩ : ∃ m, s.size_ l = m + 1 := ⟨ps.length - 1, by omega⟩
    rw [hm, dec_no_wrap (by have := hv.1; have := hv.2; omega)]
  have hret : dn.next_node = ps[i + 1]? := by
    have := List.head?_drop ps (i + 1)
    rw [← this]
    cases hps : ps.drop (i + 1) with
    | nil => rw [hps] at hrest2; exact hrest2
    | cons r rest => rw [hps] at hrest2; exact hrest2.1
  have hcp : (((s.setNext p dn.next_node).setCell (.heap a) none).decSize l).cells p
      = some { n with next_node := dn.next_node } := by
    simp [Memory.decSize, Memory.setSize, Memory.setNext, Memory.setCell, hpd, hn]
  have hframe : ∀ q, q ≠ p → q ≠ .heap a →
      (((s.setNext p dn.next_node).setCell (.heap a) none).decSize l).cells q = s.cells q := by
    intro q h1 h2
    simp [Memory.decSize, Memory.setSize, Memory.setNext, Memory.setCell, h1, h2]
  have hs1d : (s.setNext p dn.next_node).cells (.heap a) = some dn := by
    simp [Memory.setNext, Ne.symm hpd, hdn]
  refine ⟨((s.setNext p dn.next_node).setCell (.heap a) none).decSize l, ?_, ?_, hv, rfl, rfl,
    ?_, ?_, hframe, ?_, ?_⟩
  · simp only [EraseAfter, hn, hnx, hdn, delete_live hs1d, hcp]
    rw [hret]
  · have hL := linked_erase hn hdn hcp hframe _ _ _ hlink2 hndP2
    have hshape : (Addr.head l :: ps).take i ++ p :: ps.drop (i + 1)
        = Addr.head l :: ps.eraseIdx i := by
      have : (Addr.head l :: ps).take i ++ p :: ps.drop (i + 1)
          = ((Addr.head l :: ps).take i ++ [p]) ++ ps.drop (i + 1) := by simp
      rw [this, htake, List.eraseIdx_eq_take_drop_succ]; simp
    rw [hshape] at hL
    have hsub : ∀ q ∈ ps.eraseIdx i, q ∈ ps := fun q hq =>
      (List.eraseIdx_sublist ps i).subset hq
    have hdnot : Addr.heap a ∉ ps.eraseIdx i := by
      intro hmem
      rw [List.eraseIdx_eq_take_drop_succ] at hmem
      have h3 : (ps.take i ++ Addr.heap a :: ps.drop (i + 1)).Nodup := by
        rw [← hdrop, List.take_append_drop]; exact hnd
      have h4 := List.nodup_middle.mp h3
      exact (List.nodup_cons.mp h4).1 hmem
    refine ⟨hL, hnd.sublist (List.eraseIdx_sublist ps i), fun q hq => hbelow q (hsub q hq),
      ?_, ?_⟩
    · refine valuesAt_eraseIdx i (fun q hq => ?_) hvals
      by_cases hqp : q = p
      · subst hqp; rw [hcp, hn]; rfl
      · rw [hframe q hqp (fun e => hdnot (e ▸ hq))]
    · have hi : i < ps.length := (List.getElem?_eq_some_iff.mp hd).1
      rw [List.length_eraseIdx, if_pos hi, ← hsize]
      have : (((s.setNext p dn.next_node).setCell (.heap a) none).decSize l).size_ l
          = (s.size_ l + SIZE_MOD - 1) % SIZE_MOD := by
        simp [Memory.decSize, Memory.setSize, Memory.setNext, Memory.setCell]
      rw [this]; omega
  · have : (((s.setNext p dn.next_node).setCell (.heap a) none).decSize l).size_ l
        = (s.size_ l + SIZE_MOD - 1) % SIZE_MOD := by
      simp [Memory.decSize, Memory.setSize, Memory.setNext, Memory.setCell]
    rw [this]; exact hsz
  · intro k hk
    simp [Memory.decSize, Memory.setSize, Memory.setNext, Memory.setCell, hk]
  · rw [hcp, hn]; rfl
  · simp [Memory.decSize, Memory.setSize, Memory.setNext, Memory.setCell]

/-! ## Front operations as positional operations at the sentinel -/

theorem PushFront_eq_InsertAfter (s : Memory α) (l : Nat) (v : α) :
    PushFront s l v = (InsertAfter s l (before_begin l) v).andThen fun _ s2 => .ok () s2 := by
  unfold PushFront InsertAfter before_begin
  by_cases h : s.next < s.limit
  · simp only [h, if_true]
    cases hc : s.cells (.head l) with
    | none => rfl
    | some n => rfl
  · simp only [h, if_false]; rfl

theorem PopFront_eq_EraseAfter (s : Memory α) (l : Nat) :
    PopFront s l = (EraseAfter s l (before_begin l)).andThen fun _ s2 => .ok () s2 := by
  simp only [PopFront, EraseAfter, before_begin]
  cases hc : s.cells (.head l) with
  | none => simp [Res.andThen]
  | some n =>
    simp only []
    cases hn : n.next_node with
    | none => simp [Res.andThen]
    | some d =>
      simp only []
      cases hd : s.cells d with
      | none => simp [Res.andThen]
      | some dn =>
        simp only []
        cases d with
        | head k => simp [Res.andThen, Memory.delete]
        | heap a =>
          have h1 : (s.setNext (.head l) dn.next_node).cells (.heap a) = some dn := by
            simp [Memory.setNext, hd]
          rw [delete_live h1]
          simp [Res.andThen, Memory.decSize, Memory.setSize, Memory.setCell, Memory.setNext, hc]

theorem PushFront_spec {s : Memory α} {l : Nat} {ps : List Addr} {xs : List α}
    (hv : s.Valid) (h : IsList s l ps xs) (halloc : s.next < s.limit) (v : α) :
    ∃ s2, PushFront s l v = .ok () s2 ∧
      IsList s2 l (.heap s.next :: ps) (v :: xs) ∧
      s2.Valid ∧ s2.next = s.next + 1 ∧ s2.limit = s.limit ∧
      s2.size_ l = s.size_ l + 1 ∧ (∀ k, k ≠ l → s2.size_ k = s.size_ k) ∧
      (∀ q, q ≠ .head l → q ≠ .heap s.next → s2.cells q = s.cells q) := by
  obtain ⟨s2, h1, h2, h3, h4, h5, h6, h7, h8, -⟩ :=
    InsertAfter_spec hv h halloc (i := 0) (p := .head l) (by simp) v
  refine ⟨s2, ?_, by simpa using h2, h3, h4, h5, h6, h7, h8⟩
  rw [PushFront_eq_InsertAfter]
  unfold before_begin
  rw [h1]; rfl

theorem PopFront_spec {s : Memory α} {l : Nat} {d : Addr} {ps : List Addr} {x : α}
    {xs : List α} (hv : s.Valid) (h : IsList s l (d :: ps) (x :: xs)) :
    ∃ s2, PopFront s l = .ok () s2 ∧
      IsList s2 l ps xs ∧
      s2.Valid ∧ s2.next = s.next ∧ s2.limit = s.limit ∧
      s2.size_ l + 1 = s.size_ l ∧ (∀ k, k ≠ l → s2.size_ k = s.size_ k) ∧
      (∀ q, q ≠ .head l → q ≠ d → s2.cells q = s.cells q) ∧ s2.cells d = none := by
  obtain ⟨s2, h1, h2, h3, h4, h5, h6, h7, h8, -, h9⟩ :=
    EraseAfter_spec hv h (i := 0) (p := .head l) (d := d) (by simp) (by simp)
  refine ⟨s2, ?_, by simpa using h2, h3, h4, h5, h6, h7, h8, h9⟩
  rw [PopFront_eq_EraseAfter]
  unfold before_begin
  rw [h1]; rfl

/-! ## Sequences of front operations -/

theorem pops_le_of_model :
    ∀ (ops : List (Op α)) (xs st : List α), stackModel xs ops = some st →
      st.length + pops ops = xs.length + pushes ops
  | [], xs, st, h => by
    simp only [stackModel, Option.some.injEq] at h
    subst h; rfl
  | .push v :: ops, xs, st, h => by
    have := pops_le_of_model ops (v :: xs) st (by simpa [stackModel] using h)
    simp only [pushes, pops, List.length_cons] at this ⊢
    omega
  | .pop :: ops, [], st, h => by simp [stackModel] at h
  | .pop :: ops, x :: xs, st, h => by
    have := pops_le_of_model ops xs st (by simpa [stackModel] using h)
    simp only [pushes, pops, List.length_cons] at this ⊢
    omega

theorem runOps_spec :
    ∀ (ops : List (Op α)) (s : Memory α) (l : Nat) (ps : List Addr) (xs st : List α),
      s.Valid → IsList s l ps xs → stackModel xs ops = some st →
      s.next + pushes ops ≤ s.limit →
      ∃ s2 ps2, runOps s l ops = .ok () s2 ∧ IsList s2 l ps2 st ∧ s2.Valid
  | [], s, l, ps, xs, st, hv, h, hm, _ => by
    simp only [stackModel, Option.some.injEq] at hm
    subst hm
    exact ⟨s, ps, rfl, h, hv⟩
  | .push v :: ops, s, l, ps, xs, st, hv, h, hm, hcap => by
    simp only [pushes] at hcap
    obtain ⟨s1, h1, h2, h3, h4, h5, -⟩ := PushFront_spec hv h (by omega) v
    obtain ⟨s2, ps2, h6, h7, h8⟩ := runOps_spec ops s1 l _ _ st h3 h2
      (by simpa [stackModel] using hm) (by omega)
    exact ⟨s2, ps2, by simp only [runOps, h1, Res.andThen, h6], h7, h8⟩
  | .pop :: ops, s, l, ps, [], st, _, _, hm, _ => by simp [stackModel] at hm
  | .pop :: ops, s, l, [], x :: xs, st, _, h, _, _ => by
    have := (isList_length_eq h)
    simp at this
  | .pop :: ops, s, l, d :: ps, x :: xs, st, hv, h, hm, hcap => by
    simp only [pushes] at hcap
    obtain ⟨s1, h1, h2, h3, h4, h5, -⟩ := PopFront_spec hv h
    obtain ⟨s2, ps2, h6, h7, h8⟩ := runOps_spec ops s1 l _ _ st h3 h2
      (by simpa [stackModel] using hm) (by omega)
    exact ⟨s2, ps2, by simp only [runOps, h1, Res.andThen, h6], h7, h8⟩

/-! ## Clear -/

theorem Clear_succ (fuel : Nat) (s : Memory α) (l : Nat) :
    Clear (fuel + 1) s l =
      match s.cells (.head l) with
      | none => .undefined
      | some h =>
        match h.next_node with
        | none => .ok () s
        | some _ => (PopFront s l).andThen fun _ s2 => Clear fuel s2 l := by
  simp only [Clear, PopFront]
  cases hc : s.cells (.head l) with
  | none => rfl
  | some n =>
    simp only []
    cases hn : n.next_node with
    | none => rfl
    | some d =>
      simp only []
      cases hd : s.cells d with
      | none => rfl
      | some dn =>
        simp only []
        cases hdel : (s.setNext (.head l) dn.next_node).delete d with
        | none => rfl
        | some s2 => rfl

theorem Clear_spec :
    ∀ (ps : List Addr) (xs : List α) (s : Memory α) (l : Nat) (fuel : Nat),
      s.Valid → IsList s l ps xs → ps.length < fuel →
      ∃ s2, Clear fuel s l = .ok () s2 ∧ IsList s2 l [] [] ∧
        s2.Valid ∧ s2.next = s.next ∧ s2.limit = s.limit ∧
        (∀ k, k ≠ l → s2.size_ k = s.size_ k) ∧
        (∀ q, q ≠ .head l → q ∉ ps → s2.cells q = s.cells q) ∧
        (∀ q ∈ ps, s2.cells q = none)
  | _, _, _, _, 0, _, _, hf => absurd hf (Nat.not_lt_zero _)
  | [], xs, s, l, fuel + 1, hv, h, _ => by
    have hx : xs = [] := by
      have := isList_length_eq h
      simpa using this
    subst hx
    obtain ⟨_, n, hn, hq⟩ := h.1
    have hq : n.next_node = none := hq
    refine ⟨s, ?_, h, hv, rfl, rfl, fun _ _ => rfl, fun _ _ _ => rfl, ?_⟩
    · rw [Clear_succ]; simp only [hn, hq]
    · intro q hq; cases hq
  | d :: ps, [], s, l, fuel + 1, _, h, _ => by
    have := isList_length_eq h
    simp at this
  | d :: ps, x :: xs, s, l, fuel + 1, hv, h, hf => by
    obtain ⟨_, n, hn, hq, _⟩ := h.1
    obtain ⟨s1, h1, h2, h3, h4, h5, -, h7, h8, h9⟩ := PopFront_spec hv h
    obtain ⟨s2, k1, k2, k3, k4, k5, k6, k7, k8⟩ :=
      Clear_spec ps xs s1 l fuel h3 h2 (by simpa using hf)
    have hdps : d ∉ ps := (List.nodup_cons.mp h.2.1).1
    have hdh : d ≠ Addr.head l := fun e => below_ne_head h.2.2.1 l (e ▸ List.mem_cons_self _ _)
    refine ⟨s2, ?_, k2, k3, k4.trans h4, k5.trans h5, ?_, ?_, ?_⟩
    · rw [Clear_succ]; simp only [hn, hq, h1, Res.andThen, k1]
    · intro k hk; rw [k6 k hk, h7 k hk]
    · intro q hq1 hq2
      simp only [List.mem_cons, not_or] at hq2
      rw [k7 q hq1 hq2.2, h8 q hq1 hq2.1]
    · intro q hq
      rcases List.mem_cons.mp hq with rfl | hq
      · rw [k7 q hdh hdps, h9]
      · exact k8 q hq

/-! ## swap -/

theorem isList_head {s : Memory α} {l : Nat} {ps : List Addr} {xs : List α}
    (h : IsList s l ps xs) :
    ∃ n, s.cells (.head l) = some n ∧ Linked s.cells n.next_node ps := by
  obtain ⟨_, n, hn, hrest⟩ := h.1
  exact ⟨n, hn, hrest⟩

theorem isList_of_head {s : Memory α} {l : Nat} {ps : List Addr} {xs : List α} {n : Node α}
    (hn : s.cells (.head l) = some n) (hl : Linked s.cells n.next_node ps) (hnd : ps.Nodup)
    (hb : ∀ p ∈ ps, p.below s.next) (hv : valuesAt s.cells ps = xs.map some)
    (hs : s.size_ l = ps.length) : IsList s l ps xs :=
  ⟨⟨rfl, n, hn, hl⟩, hnd, hb, hv, hs⟩

theorem swap_spec {s : Memory α} {a b : Nat} {ps qs : List Addr} {xs ys : List α}
    (ha : IsList s a ps xs) (hb : IsList s b qs ys) :
    ∃ s2, swap s a b = .ok () s2 ∧ IsList s2 a qs ys ∧ IsList s2 b ps xs ∧
      s2.next = s.next ∧ s2.limit = s.limit ∧
      (∀ k, k ≠ a → k ≠ b → s2.size_ k = s.size_ k) ∧
      (∀ q, q ≠ .head a → q ≠ .head b → s2.cells q = s.cells q) ∧
      (∃ n m, s.cells (.head a) = some n ∧ s.cells (.head b) = some m ∧
        s2.cells (.head a) = some { n with next_node := m.next_node } ∧
        s2.cells (.head b) = some { m with next_node := n.next_node }) := by
  obtain ⟨n, hn, hln⟩ := isList_head ha
  obtain ⟨m, hm, hlm⟩ := isList_head hb
  have hframe : ∀ q, q ≠ .head a → q ≠ .head b →
      ((((s.setNext (.head a) m.next_node).setSize a (s.size_ b)).setNext (.head b)
        n.next_node).setSize b (s.size_ a)).cells q = s.cells q := by
    intro q h1 h2
    simp [Memory.setNext, Memory.setSize, h1, h2]
  have hheap : ∀ (rs : List Addr), (∀ p ∈ rs, p.below s.next) → ∀ q ∈ rs,
      ((((s.setNext (.head a) m.next_node).setSize a (s.size_ b)).setNext (.head b)
        n.next_node).setSize b (s.size_ a)).cells q = s.cells q := by
    intro rs hrs q hq
    refine hframe q ?_ ?_ <;> rintro rfl <;> exact below_ne_head hrs _ hq
  have hvals : ∀ (rs : List Addr), (∀ p ∈ rs, p.below s.next) →
      valuesAt ((((s.setNext (.head a) m.next_node).setSize a (s.size_ b)).setNext (.head b)
        n.next_node).setSize b (s.size_ a)).cells rs = valuesAt s.cells rs := by
    intro rs hrs
    exact valuesAt_congr fun q hq => by rw [hheap rs hrs q hq]
  have hca : ((((s.setNext (.head a) m.next_node).setSize a (s.size_ b)).setNext (.head b)
        n.next_node).setSize b (s.size_ a)).cells (.head a)
        = some { n with next_node := m.next_node } := by
    by_cases hab : a = b
    · subst hab
      rw [hn] at hm
      cases hm
      simp [Memory.setNext, Memory.setSize, hn]
    · have : Addr.head a ≠ Addr.head b := fun e => hab (by cases e; rfl)
      simp [Memory.setNext, Memory.setSize, hn, this]
  have hcb : ((((s.setNext (.head a) m.next_node).setSize a (s.size_ b)).setNext (.head b)
        n.next_node).setSize b (s.size_ a)).cells (.head b)
        = some { m with next_node := n.next_node } := by
    by_cases hab : a = b
    · subst hab
      rw [hn] at hm
      cases hm
      simp [Memory.setNext, Memory.setSize, hn]
    · have : Addr.head b ≠ Addr.head a := fun e => hab (by cases e; rfl)
      simp [Memory.setNext, Memory.setSize, hm, this]
  have hsa : ((((s.setNext (.head a) m.next_node).setSize a (s.size_ b)).setNext (.head b)
        n.next_node).setSize b (s.size_ a)).size_ a = s.size_ b := by
    by_cases hab : a = b
    · subst hab; simp [Memory.setNext, Memory.setSize]
    · simp [Memory.setNext, Memory.setSize, hab]
  have hsb : ((((s.setNext (.head a) m.next_node).setSize a (s.size_ b)).setNext (.head b)
        n.next_node).setSize b (s.size_ a)).size_ b = s.size_ a := by
    simp [Memory.setNext, Memory.setSize]
  refine ⟨(((s.setNext (.head a) m.next_node).setSize a (s.size_ b)).setNext (.head b)
        n.next_node).setSize b (s.size_ a), ?_, ?_, ?_, rfl, rfl, ?_, hframe,
        ⟨n, m, hn, hm, hca, hcb⟩⟩
  · simp [swap, hn, hm, Memory.setNext, Memory.setSize]
  · exact isList_of_head hca (linked_congr hlm (hheap qs hb.2.2.1)) hb.2.1 hb.2.2.1
      ((hvals qs hb.2.2.1).trans hb.2.2.2.1) (hsa.trans hb.2.2.2.2)
  · exact isList_of_head hcb (linked_congr hln (hheap ps ha.2.2.1)) ha.2.1 ha.2.2.1
      ((hvals ps ha.2.2.1).trans ha.2.2.2.1) (hsb.trans ha.2.2.2.2)
  · intro k h1 h2
    simp [Memory.setNext, Memory.setSize, h1, h2]

/-! ## Appending at the tail: the constructors' loops -/

theorem old_of_below {n : Nat} : ∀ {p : Addr}, p.below n → p.old n
  | .heap _, h => h
  | .head _, h => absurd h id

theorem old_mono {n m : Nat} (h : n ≤ m) : ∀ {p : Addr}, p.old n → p.old m
  | .heap _, hp => Nat.lt_of_lt_of_le hp h
  | .head _, _ => trivial

theorem not_old_next (n : Nat) : ¬ (Addr.heap n).old n := Nat.lt_irrefl n

theorem linked_last {c : Addr → Option (Node α)} {q0 : Option Addr} {P : List Addr}
    {last : Addr} (h : Linked c q0 P) (hl : P.getLast? = some last) :
    ∃ n, c last = some n ∧ n.next_node = none ∧ P[P.length - 1]? = some last := by
  obtain ⟨pre, rfl⟩ := List.getLast?_eq_some_iff.mp hl
  obtain ⟨n, hn, hnx, -⟩ := linked_next_of_mem pre [] last q0 h
  exact ⟨n, hn, hnx, by simp⟩

theorem tail_step {s : Memory α} {l : Nat} {qs : List Addr} {zs : List α} {last : Addr}
    (hv : s.Valid) (h : IsList s l qs zs) (hlast : (Addr.head l :: qs).getLast? = some last)
    (halloc : s.next < s.limit) (v : α) :
    ∃ n, s.cells last = some n ∧
      IsList (((s.construct v none).setNext last (some (.heap s.next))).incSize l) l
        (qs ++ [.heap s.next]) (zs ++ [v]) ∧
      (((s.construct v none).setNext last (some (.heap s.next))).incSize l).Valid ∧
      (∀ q, q ≠ last → q ≠ .heap s.next →
        (((s.construct v none).setNext last (some (.heap s.next))).incSize l).cells q
          = s.cells q) ∧
      (∀ k, k ≠ l →
        (((s.construct v none).setNext last (some (.heap s.next))).incSize l).size_ k
          = s.size_ k) ∧
      last ∈ Addr.head l :: qs := by
  obtain ⟨n, hn, hnx, hidx⟩ := linked_last h.1 hlast
  simp only [List.length_cons, Nat.add_sub_cancel] at hidx
  obtain ⟨s2, h1, h2, h3, -, -, -, h7, h8, -⟩ := InsertAfter_spec hv h halloc hidx v
  have heq : InsertAfter s l ⟨some last⟩ v = .ok ⟨some (.heap s.next)⟩
      (((s.construct v none).setNext last (some (.heap s.next))).incSize l) := by
    simp only [InsertAfter, halloc, if_true, hn, hnx]
  rw [heq] at h1
  injection h1 with _ hs
  subst hs
  have hzs : zs.length = qs.length := isList_length_eq h
  rw [List.take_of_length_le (Nat.le_refl _), List.drop_of_length_le (Nat.le_refl _),
    List.take_of_length_le (by omega), List.drop_of_length_le (by omega)] at h2
  exact ⟨n, hn, h2, h3, h8, h7, List.getElem?_mem hidx⟩

theorem getLast?_snoc_cons (a : Addr) (qs : List Addr) (b : Addr) :
    (a :: (qs ++ [b])).getLast? = some b := by
  rw [← List.cons_append, List.getLast?_append]
  simp

theorem ctor_copy_loop_spec :
    ∀ (rest : List Addr) (ys : List α) (fuel : Nat) (s : Memory α) (c : Nat)
      (qs : List Addr) (zs : List α) (last : Addr) (it : Option Addr),
      s.Valid → IsList s c qs zs → (Addr.head c :: qs).getLast? = some last →
      Linked s.cells it rest → valuesAt s.cells rest = ys.map some →
      (∀ q ∈ rest, q.below s.next) → (∀ q ∈ rest, q ∉ qs) → rest.length < fuel →
      ∃ s2, s2.Valid ∧ s2.limit = s.limit ∧ s.next ≤ s2.next ∧
        (∀ k, k ≠ c → s2.size_ k = s.size_ k) ∧
        (∀ q, q ∉ Addr.head c :: qs → q.old s.next → s2.cells q = s.cells q) ∧
        ((s.next + rest.length ≤ s.limit ∧
            ctor_copy_loop fuel s c last ⟨it⟩ = .ok () s2 ∧
            ∃ qs2, IsList s2 c (qs ++ qs2) (zs ++ ys) ∧ ∀ q ∈ qs2, ¬ q.old s.next) ∨
          (s.limit < s.next + rest.length ∧
            ctor_copy_loop fuel s c last ⟨it⟩ = .bad_alloc s2))
  | _, _, 0, _, _, _, _, _, _, _, _, _, _, _, _, _, hf => absurd hf (Nat.not_lt_zero _)
  | [], ys, fuel + 1, s, c, qs, zs, last, it, hv, hc, _, hl, hvals, _, _, _ => by
    have hit : it = none := hl
    subst hit
    have hy : ys = [] := by cases ys <;> simp_all [valuesAt]
    subst hy
    refine ⟨s, hv, rfl, Nat.le_refl _, fun _ _ => rfl, fun _ _ _ => rfl, Or.inl ⟨hv.1, ?_, [], ?_, ?_⟩⟩
    · simp [ctor_copy_loop, BasicIterator.operator_ne, BasicIterator.operator_eq, end_]
    · simpa using hc
    · intro q hq; cases hq
  | r :: rest, [], fuel + 1, _, _, _, _, _, _, _, _, _, _, hvals, _, _, _ => by
    simp [valuesAt] at hvals
  | r :: rest, y :: ys, fuel + 1, s, c, qs, zs, last, it, hv, hc, hlast,
      ⟨hit, rn, hrn, hrest⟩, hvals, hbelow, hdisj, hf => by
    subst hit
    simp only [valuesAt, List.map_cons, List.cons.injEq, hrn, Option.some_bind] at hvals
    by_cases halloc : s.next < s.limit
    · obtain ⟨n, hn, h2, h3, h4, h5, hmem⟩ := tail_step hv hc hlast halloc y
      have hrmem : ∀ q ∈ r :: rest, q ≠ last ∧ q ≠ Addr.heap s.next := by
        intro q hq
        constructor
        · rintro rfl
          rcases List.mem_cons.mp hmem with e | e
          · have := hbelow _ hq
            rw [e] at this
            exact this
          · exact hdisj _ hq e
        · rintro rfl
          exact below_ne_next hbelow hq
      have hr := hrmem r (List.mem_cons_self _ _)
      have hcr : (((s.construct y none).setNext last (some (.heap s.next))).incSize c).cells r
          = some rn := by rw [h4 r hr.1 hr.2, hrn]
      have hsame : ∀ q ∈ rest,
          (((s.construct y none).setNext last (some (.heap s.next))).incSize c).cells q
            = s.cells q := fun q hq =>
        h4 q (hrmem q (List.mem_cons_of_mem _ hq)).1 (hrmem q (List.mem_cons_of_mem _ hq)).2
      obtain ⟨s2, k1, k2, k3, k4, k5, k6⟩ := ctor_copy_loop_spec rest ys fuel
        (((s.construct y none).setNext last (some (.heap s.next))).incSize c) c
        (qs ++ [.heap s.next]) (zs ++ [y]) (.heap s.next) rn.next_node h3 h2
        (getLast?_snoc_cons _ _ _) (linked_congr hrest hsame)
        ((valuesAt_congr fun q hq => by rw [hsame q hq]).trans hvals.2)
        (fun q hq => below_mono (Nat.le_succ _) (hbelow q (List.mem_cons_of_mem _ hq)))
        (fun q hq hin => by
          rcases List.mem_append.mp hin with e | e
          · exact hdisj q (List.mem_cons_of_mem _ hq) e
          · simp only [List.mem_singleton] at e
            exact (hrmem q (List.mem_cons_of_mem _ hq)).2 e)
        (by simpa using hf)
      have hunroll : ctor_copy_loop (fuel + 1) s c last ⟨some r⟩
          = ctor_copy_loop fuel
              (((s.construct y none).setNext last (some (.heap s.next))).incSize c) c
              (.heap s.next) ⟨rn.next_node⟩ := by
        simp only [ctor_copy_loop, BasicIterator.operator_ne, BasicIterator.operator_eq, end_,
          Bool.not_false, halloc, if_true, BasicIterator.operator_deref, hrn, hvals.1, hn,
          BasicIterator.operator_inc, hcr]
      have hnext : (((s.construct y none).setNext last (some (.heap s.next))).incSize c).next
          = s.next + 1 := rfl
      have hlimit : (((s.construct y none).setNext last (some (.heap s.next))).incSize c).limit
          = s.limit := rfl
      refine ⟨s2, k1, k2.trans hlimit, by omega, fun k hk => (k4 k hk).trans (h5 k hk), ?_, ?_⟩
      · intro q hq hold
        have hne : q ≠ Addr.heap s.next := by rintro rfl; exact not_old_next _ hold
        have hq2 : q ∉ Addr.head c :: (qs ++ [Addr.heap s.next]) := by
          intro hin
          rw [← List.cons_append] at hin
          rcases List.mem_append.mp hin with e | e
          · exact hq e
          · simp only [List.mem_singleton] at e
            exact hne e
        rw [k5 q hq2 (old_mono (by omega) hold)]
        exact h4 q (fun e => hq (e ▸ hmem)) hne
      · rcases k6 with ⟨m1, m2, qs2, m3, m4⟩ | ⟨m1, m2⟩
        · refine Or.inl ⟨by simp only [List.length_cons]; omega, hunroll.trans m2,
            Addr.heap s.next :: qs2, by simpa using m3, ?_⟩
          intro q hq
          rcases List.mem_cons.mp hq with rfl | hq
          · exact not_old_next _
          · exact fun hold => m4 q hq (old_mono (by omega) hold)
        · exact Or.inr ⟨by simp only [List.length_cons]; omega, hunroll.trans m2⟩
    · refine ⟨s, hv, rfl, Nat.le_refl _, fun _ _ => rfl, fun _ _ _ => rfl, Or.inr ⟨?_, ?_⟩⟩
      · simp only [List.length_cons]; omega
      · simp only [ctor_copy_loop, BasicIterator.operator_ne, BasicIterator.operator_eq, end_,
          Bool.not_false, halloc, if_false]

/-! ## Copy construction -/

theorem ctor_default_isList (s : Memory α) (c : Nat) : IsList (ctor_default s c) c [] [] := by
  refine ⟨⟨rfl, ⟨none, none⟩, ?_, rfl⟩, List.nodup_nil, ?_, rfl, ?_⟩
  · simp [ctor_default, Memory.setCell, Memory.setSize]
  · intro p hp; cases hp
  · simp [ctor_default, Memory.setCell, Memory.setSize]

theorem ctor_default_cells (s : Memory α) (c : Nat) (q : Addr) (h : q ≠ .head c) :
    (ctor_default s c).cells q = s.cells q := by
  simp [ctor_default, Memory.setCell, Memory.setSize, h]

theorem ctor_default_size (s : Memory α) (c k : Nat) (h : k ≠ c) :
    (ctor_default s c).size_ k = s.size_ k := by
  simp [ctor_default, Memory.setCell, Memory.setSize, h]

theorem head_ne_of_ne {a b : Nat} (h : a ≠ b) : Addr.head a ≠ Addr.head b :=
  fun e => h (by cases e; rfl)

/-- A list other than `c` is untouched by the construction of the list
object in slot `c`. -/
theorem ctor_default_frame {s : Memory α} {c l : Nat} {ps : List Addr} {xs : List α}
    (h : IsList s l ps xs) (hcl : c ≠ l) : IsList (ctor_default s c) l ps xs := by
  refine isList_frame h (fun q hq => ctor_default_cells s c q ?_)
    (ctor_default_size s c l (Ne.symm hcl)) (Nat.le_refl _)
  rcases List.mem_cons.mp hq with rfl | hq
  · exact head_ne_of_ne (Ne.symm hcl)
  · rintro rfl; exact below_ne_head h.2.2.1 c hq

theorem ctor_copy_spec {s : Memory α} {c l : Nat} {ps : List Addr} {xs : List α} {fuel : Nat}
    (hv : s.Valid) (hl : IsList s l ps xs) (hcl : c ≠ l) (hf : ps.length < fuel) :
    ∃ s2, s2.Valid ∧ s2.limit = s.limit ∧ s.next ≤ s2.next ∧
      (∀ k, k ≠ c → s2.size_ k = s.size_ k) ∧
      (∀ q, q ≠ .head c → q.old s.next → s2.cells q = s.cells q) ∧
      ((s.next + ps.length ≤ s.limit ∧ ctor_copy fuel s c l = .ok () s2 ∧
          ∃ qs, IsList s2 c qs xs ∧ ∀ q ∈ qs, ¬ q.old s.next) ∨
        (s.limit < s.next + ps.length ∧ ctor_copy fuel s c l = .bad_alloc s2)) := by
  have h0 := ctor_default_isList s c
  have hl0 := ctor_default_frame hl hcl
  have hv0 : (ctor_default s c).Valid := hv
  obtain ⟨fuel, rfl⟩ : ∃ f, fuel = f + 1 := ⟨fuel - 1, by omega⟩
  obtain ⟨n, hn, hln⟩ := isList_head hl0
  have hclear : Clear (fuel + 1) (ctor_default s c) c = .ok () (ctor_default s c) := by
    obtain ⟨m, hm, hlm⟩ := isList_head h0
    have hm2 : m.next_node = none := hlm
    rw [Clear_succ]; simp only [hm, hm2]
  have hpre : ctor_copy (fuel + 1) s c l
      = ctor_copy_loop (fuel + 1) (ctor_default s c) c (.head c) ⟨n.next_node⟩ := by
    simp only [ctor_copy, hclear, Res.andThen, begin_, hn]
  obtain ⟨s2, k1, k2, k3, k4, k5, k6⟩ := ctor_copy_loop_spec ps xs (fuel + 1)
    (ctor_default s c) c [] [] (.head c) n.next_node hv0 h0 rfl hln hl0.2.2.2.1
    hl0.2.2.1 (fun _ _ h => by cases h) hf
  refine ⟨s2, k1, k2, k3, fun k hk => (k4 k hk).trans (ctor_default_size s c k hk), ?_, ?_⟩
  · intro q hq hold
    rw [k5 q (by simpa using hq) hold]
    exact ctor_default_cells s c q hq
  · rw [hpre]
    rcases k6 with ⟨m1, m2, qs2, m3, m4⟩ | ⟨m1, m2⟩
    · exact Or.inl ⟨m1, m2, qs2, by simpa using m3, m4⟩
    · exact Or.inr ⟨m1, m2⟩

/-- A list is kept by any change of the store that leaves the sentinels of
other slots and the heap nodes handed out so far as they are. -/
theorem isList_frame_old {s s2 : Memory α} {c l : Nat} {ps : List Addr} {xs : List α}
    (h : IsList s l ps xs) (hcl : c ≠ l)
    (hcells : ∀ q, q ≠ .head c → q.old s.next → s2.cells q = s.cells q)
    (hsize : ∀ k, k ≠ c → s2.size_ k = s.size_ k) (hnext : s.next ≤ s2.next) :
    IsList s2 l ps xs := by
  refine isList_frame h (fun q hq => ?_) (hsize l (Ne.symm hcl)) hnext
  rcases List.mem_cons.mp hq with rfl | hq
  · exact hcells _ (head_ne_of_ne (Ne.symm hcl)) trivial
  · exact hcells q (fun e => below_ne_head h.2.2.1 c (e ▸ hq)) (old_of_below (h.2.2.1 q hq))

/-! ## Independence of a second list -/

theorem assign_spec {s : Memory α} {c : Nat} {qs : List Addr} {zs : List α} {p : Addr}
    (hc : IsList s c qs zs) (hp : p ∈ qs) (v : α) :
    BasicIterator.assign s ⟨some p⟩ v = .ok () (s.setValue p v) := by
  obtain ⟨pre, post, rfl⟩ := List.append_of_mem hp
  obtain ⟨n, hn, -⟩ := linked_next_of_mem (Addr.head c :: pre) post p _ hc.1
  have hval := hc.2.2.2.1
  have : ∃ x, n.value = some x := by
    have h1 := congrArg (fun L => L[pre.length]?) hval
    simp only [valuesAt, List.getElem?_map, List.getElem?_append_right (Nat.le_refl _),
      Nat.sub_self, List.getElem?_cons_zero, Option.map_some', hn, Option.some_bind] at h1
    cases hx : zs[pre.length]? with
    | none => rw [hx] at h1; simp at h1
    | some x => rw [hx] at h1; exact ⟨x, by simpa using h1⟩
  obtain ⟨x, hx⟩ := this
  simp [BasicIterator.assign, hn, hx]

theorem mutation_frame {s : Memory α} {c l : Nat} {qs ps : List Addr} {zs xs : List α}
    (hv : s.Valid) (hc : IsList s c qs zs) (hl : IsList s l ps xs) (hcl : c ≠ l)
    (hdisj : ∀ q ∈ qs, q ∉ ps) (m : Mutation α) (fuel : Nat) (hm : m.admissible c qs fuel) :
    ∃ s2, (applyMutation fuel s c m = .ok () s2 ∨ applyMutation fuel s c m = .bad_alloc s2) ∧
      IsList s2 l ps xs ∧ s2.size_ l = s.size_ l := by
  have hlc : l ≠ c := Ne.symm hcl
  -- a change inside the nodes of `c` and the fresh address keeps `l`
  have key : ∀ s2 : Memory α,
      (∀ q, q ∉ Addr.head c :: qs → q ≠ .heap s.next → s2.cells q = s.cells q) →
      (∀ k, k ≠ c → s2.size_ k = s.size_ k) → s.next ≤ s2.next →
      IsList s2 l ps xs ∧ s2.size_ l = s.size_ l := by
    intro s2 h1 h2 h3
    refine ⟨isList_frame hl (fun q hq => h1 q ?_ ?_) (h2 l hlc) h3, h2 l hlc⟩
    · intro hin
      rcases List.mem_cons.mp hq with rfl | hq
      · rcases List.mem_cons.mp hin with e | e
        · exact hlc (by cases e; rfl)
        · exact below_ne_head hc.2.2.1 l e
      · rcases List.mem_cons.mp hin with rfl | e
        · exact below_ne_head hl.2.2.1 c hq
        · exact hdisj q e hq
    · rintro rfl
      rcases List.mem_cons.mp hq with e | hq
      · cases e
      · exact below_ne_next hl.2.2.1 hq
  cases m with
  | PushFront v =>
    by_cases halloc : s.next < s.limit
    · obtain ⟨s2, h1, -, -, h4, -, -, h7, h8⟩ := PushFront_spec hv hc halloc v
      refine ⟨s2, Or.inl h1, key s2 (fun q hq hne => h8 q ?_ hne) h7 (by omega)⟩
      exact fun e => hq (e ▸ List.mem_cons_self _ _)
    · refine ⟨s, Or.inr ?_, hl, rfl⟩
      simp [applyMutation, PushFront, halloc]
  | PopFront =>
    cases qs with
    | nil => exact absurd rfl (show ([] : List Addr) ≠ [] from hm)
    | cons d qs =>
      cases zs with
      | nil => have := isList_length_eq hc; simp at this
      | cons z zs =>
        obtain ⟨s2, h1, -, -, h4, -, -, h7, h8, -⟩ := PopFront_spec hv hc
        refine ⟨s2, Or.inl h1, key s2 (fun q hq _ => h8 q ?_ ?_) h7 (by omega)⟩
        · exact fun e => hq (e ▸ List.mem_cons_self _ _)
        · exact fun e => hq (e ▸ List.mem_cons_of_mem _ (List.mem_cons_self _ _))
  | InsertAfter pos v =>
    obtain ⟨i, p, hpos, hnode⟩ := hm
    have hpos_eq : pos = ⟨some p⟩ := by cases pos; simp_all
    subst hpos_eq
    by_cases halloc : s.next < s.limit
    · obtain ⟨s2, h1, -, -, h4, -, -, h7, h8, -⟩ := InsertAfter_spec hv hc halloc hpos v
      refine ⟨s2, Or.inl ?_, key s2 (fun q hq hne => h8 q ?_ hne) h7 (by omega)⟩
      · simp [applyMutation, h1, Res.andThen]
      · exact fun e => hq (e ▸ List.getElem?_mem hpos)
    · refine ⟨s, Or.inr ?_, hl, rfl⟩
      simp [applyMutation, InsertAfter, halloc, Res.andThen]
  | EraseAfter pos =>
    obtain ⟨i, p, d, hpos, hd, hnode⟩ := hm
    have hpos_eq : pos = ⟨some p⟩ := by cases pos; simp_all
    subst hpos_eq
    obtain ⟨s2, h1, -, -, h4, -, -, h7, h8, -⟩ := EraseAfter_spec hv hc hpos hd
    refine ⟨s2, Or.inl ?_, key s2 (fun q hq _ => h8 q ?_ ?_) h7 (by omega)⟩
    · simp [applyMutation, h1, Res.andThen]
    · exact fun e => hq (e ▸ List.getElem?_mem hpos)
    · exact fun e => hq (e ▸ List.mem_cons_of_mem _ (List.getElem?_mem hd))
  | Clear =>
    obtain ⟨s2, h1, -, -, h4, -, h6, h7, -⟩ := Clear_spec qs zs s c fuel hv hc
      (show qs.length < fuel from hm)
    refine ⟨s2, Or.inl h1, key s2 (fun q hq _ => h7 q ?_ ?_) h6 (by omega)⟩
    · exact fun e => hq (e ▸ List.mem_cons_self _ _)
    · exact fun e => hq (List.mem_cons_of_mem _ e)
  | assign it v =>
    obtain ⟨p, hp, hnode⟩ := hm
    have hit : it = ⟨some p⟩ := by cases it; simp_all
    subst hit
    refine ⟨s.setValue p v, Or.inl (assign_spec hc hp v),
      key _ (fun q hq _ => ?_) (fun _ _ => rfl) (Nat.le_refl _)⟩
    have : q ≠ p := fun e => hq (e ▸ List.mem_cons_of_mem _ hp)
    simp [Memory.setValue, this]

/-! ## Copy assignment -/

theorem fresh_not_mem_below {s : Memory α} {ts ps : List Addr}
    (hts : ∀ q ∈ ts, ¬ q.old s.next) (hps : ∀ p ∈ ps, p.below s.next) :
    ∀ q ∈ ts, q ∉ ps :=
  fun q hq hin => hts q hq (old_of_below (hps q hin))

theorem operator_assign_spec {s : Memory α} {a b t : Nat} {ps qs : List Addr}
    {xs ys : List α} {fuel : Nat} (hv : s.Valid) (ha : IsList s a ps xs)
    (hb : IsList s b qs ys) (hdisj : a ≠ b → ∀ q ∈ ps, q ∉ qs) (hta : t ≠ a) (htb : t ≠ b)
    (hfa : ps.length < fuel) (hfb : qs.length < fuel) :
    ∃ s2, s2.Valid ∧ s2.limit = s.limit ∧ s.next ≤ s2.next ∧
      ((s.next + qs.length ≤ s.limit ∧ operator_assign fuel s a b t = .ok () s2 ∧
          ∃ ts, IsList s2 a ts ys ∧ (∀ q ∈ ts, ¬ q.old s.next) ∧
            (a ≠ b → IsList s2 b qs ys)) ∨
        (s.limit < s.next + qs.length ∧ operator_assign fuel s a b t = .bad_alloc s2 ∧
          IsList s2 a ps xs ∧ IsList s2 b qs ys ∧
          s2.cells (.head a) = s.cells (.head a) ∧ s2.size_ a = s.size_ a)) := by
  obtain ⟨s1, k1, k2, k3, k4, k5, k6⟩ := ctor_copy_spec hv hb htb hfb
  have ha1 : IsList s1 a ps xs := isList_frame_old ha hta k5 k4 k3
  have hb1 : IsList s1 b qs ys := isList_frame_old hb htb k5 k4 k3
  rcases k6 with ⟨m1, m2, ts, m3, m4⟩ | ⟨m1, m2⟩
  · -- the copy succeeded: swap, then destroy the temporary
    obtain ⟨s2, w1, w2, w3, w4, w5, w6, w7, -⟩ := swap_spec ha1 m3
    have hv2 : s2.Valid := by
      have := k1
      unfold Memory.Valid at this ⊢
      rw [w4, w5]; exact this
    obtain ⟨s3, c1, -, c3, c4, c5, c6, c7, -⟩ := Clear_spec ps xs s2 t fuel hv2 w3 hfa
    have hts_ps : ∀ q ∈ ts, q ∉ ps := fresh_not_mem_below m4 ha.2.2.1
    have hcell : ∀ q, q ≠ .head t → q ∉ ps →
        (s3.setCell (.head t) none).cells q = s2.cells q := by
      intro q h1 h2
      simp only [Memory.setCell, h1, if_false]
      exact c7 q h1 h2
    have ha3 : IsList (s3.setCell (.head t) none) a ts ys := by
      refine isList_frame w2 (fun q hq => ?_) (c6 a (Ne.symm hta)) (Nat.le_of_eq c4.symm)
      rcases List.mem_cons.mp hq with rfl | hq
      · exact hcell _ (head_ne_of_ne (Ne.symm hta)) (below_ne_head ha.2.2.1 a)
      · exact hcell q (fun e => below_ne_head w2.2.2.1 t (e ▸ hq)) (hts_ps q hq)
    refine ⟨s3.setCell (.head t) none, c3, ?_, ?_, Or.inl ⟨m1, ?_, ts, ha3, m4, ?_⟩⟩
    · show s3.limit = s.limit
      rw [c5, w5, k2]
    · show s.next ≤ s3.next
      rw [c4, w4]; exact k3
    · simp only [operator_assign, m2, w1, Res.andThen, dtor, c1]
    · intro hab
      have hb2 : IsList s2 b qs ys := by
        refine isList_frame hb1 (fun q hq => w7 q ?_ ?_) (w6 b (Ne.symm hab) (Ne.symm htb))
          (Nat.le_of_eq w4.symm)
        · rcases List.mem_cons.mp hq with rfl | hq
          · exact head_ne_of_ne (Ne.symm hab)
          · rintro rfl; exact below_ne_head hb1.2.2.1 a hq
        · rcases List.mem_cons.mp hq with rfl | hq
          · exact head_ne_of_ne (Ne.symm htb)
          · rintro rfl; exact below_ne_head hb1.2.2.1 t hq
      refine isList_frame hb2 (fun q hq => ?_) (c6 b (Ne.symm htb))
        (Nat.le_of_eq c4.symm)
      rcases List.mem_cons.mp hq with rfl | hq
      · exact hcell _ (head_ne_of_ne (Ne.symm htb)) (below_ne_head ha.2.2.1 b)
      · exact hcell q (fun e => below_ne_head hb.2.2.1 t (e ▸ hq))
          (fun hin => hdisj hab q hin hq)
  · -- the copy threw: unwinding releases the temporary's slot
    have hcell : ∀ q, q ≠ .head t → (s1.setCell (.head t) none).cells q = s1.cells q := by
      intro q h1
      simp only [Memory.setCell, h1, if_false]
    have hkeep : ∀ (l : Nat) (rs : List Addr) (zs : List α), t ≠ l → IsList s1 l rs zs →
        IsList (s1.setCell (.head t) none) l rs zs := by
      intro l rs zs htl hl
      refine isList_frame hl (fun q hq => hcell q ?_) rfl (Nat.le_refl _)
      rcases List.mem_cons.mp hq with rfl | hq
      · exact head_ne_of_ne (Ne.symm htl)
      · rintro rfl; exact below_ne_head hl.2.2.1 t hq
    refine ⟨s1.setCell (.head t) none, k1, k2, k3, Or.inr ⟨m1, ?_, hkeep a ps xs hta ha1,
      hkeep b qs ys htb hb1, ?_, k4 a (Ne.symm hta)⟩⟩
    · simp only [operator_assign, m2]
    · rw [hcell _ (head_ne_of_ne (Ne.symm hta))]
      exact k5 _ (head_ne_of_ne (Ne.symm hta)) trivial

/-! ## Construction from an initializer list -/

theorem ctor_init_loop_spec :
    ∀ (vs : List α) (s : Memory α) (c : Nat) (qs : List Addr) (zs : List α) (last : Addr),
      s.Valid → IsList s c qs zs → (Addr.head c :: qs).getLast? = some last →
      ∃ s2, s2.Valid ∧ s2.limit = s.limit ∧ s.next ≤ s2.next ∧
        (∀ k, k ≠ c → s2.size_ k = s.size_ k) ∧
        (∀ q, q ∉ Addr.head c :: qs → q.old s.next → s2.cells q = s.cells q) ∧
        ((s.next + vs.length ≤ s.limit ∧ ctor_init_loop s c last vs = .ok () s2 ∧
            ∃ qs2, IsList s2 c (qs ++ qs2) (zs ++ vs) ∧ ∀ q ∈ qs2, ¬ q.old s.next) ∨
          (s.limit < s.next + vs.length ∧ ctor_init_loop s c last vs = .bad_alloc s2))
  | [], s, c, qs, zs, last, hv, hc, _ => by
    refine ⟨s, hv, rfl, Nat.le_refl _, fun _ _ => rfl, fun _ _ _ => rfl,
      Or.inl ⟨hv.1, rfl, [], ?_, ?_⟩⟩
    · simpa using hc
    · intro q hq; cases hq
  | v :: vs, s, c, qs, zs, last, hv, hc, hlast => by
    by_cases halloc : s.next < s.limit
    · obtain ⟨n, hn, h2, h3, h4, h5, hmem⟩ := tail_step hv hc hlast halloc v
      obtain ⟨s2, k1, k2, k3, k4, k5, k6⟩ := ctor_init_loop_spec vs
        (((s.construct v none).setNext last (some (.heap s.next))).incSize c) c
        (qs ++ [.heap s.next]) (zs ++ [v]) (.heap s.next) h3 h2 (getLast?_snoc_cons _ _ _)
      have hunroll : ctor_init_loop s c last (v :: vs)
          = ctor_init_loop (((s.construct v none).setNext last (some (.heap s.next))).incSize c)
              c (.heap s.next) vs := by
        simp only [ctor_init_loop, halloc, if_true, hn]
      have hnext : (((s.construct v none).setNext last (some (.heap s.next))).incSize c).next
          = s.next + 1 := rfl
      have hlimit : (((s.construct v none).setNext last (some (.heap s.next))).incSize c).limit
          = s.limit := rfl
      refine ⟨s2, k1, k2.trans hlimit, by omega, fun k hk => (k4 k hk).trans (h5 k hk), ?_, ?_⟩
      · intro q hq hold
        have hne : q ≠ Addr.heap s.next := by rintro rfl; exact not_old_next _ hold
        have hq2 : q ∉ Addr.head c :: (qs ++ [Addr.heap s.next]) := by
          intro hin
          rw [← List.cons_append] at hin
          rcases List.mem_append.mp hin with e | e
          · exact hq e
          · simp only [List.mem_singleton] at e
            exact hne e
        rw [k5 q hq2 (old_mono (by omega) hold)]
        exact h4 q (fun e => hq (e ▸ hmem)) hne
      · rcases k6 with ⟨m1, m2, qs2, m3, m4⟩ | ⟨m1, m2⟩
        · refine Or.inl ⟨by simp only [List.length_cons]; omega, hunroll.trans m2,
            Addr.heap s.next :: qs2, by simpa using m3, ?_⟩
          intro q hq
          rcases List.mem_cons.mp hq with rfl | hq
          · exact not_old_next _
          · exact fun hold => m4 q hq (old_mono (by omega) hold)
        · exact Or.inr ⟨by simp only [List.length_cons]; omega, hunroll.trans m2⟩
    · refine ⟨s, hv, rfl, Nat.le_refl _, fun _ _ => rfl, fun _ _ _ => rfl, Or.inr ⟨?_, ?_⟩⟩
      · simp only [List.length_cons]; omega
      · simp only [ctor_init_loop, halloc, if_false]

theorem ctor_init_spec {s : Memory α} {c : Nat} (vs : List α) (hv : s.Valid) :
    ∃ s2, s2.Valid ∧ s2.limit = s.limit ∧ s.next ≤ s2.next ∧
      (∀ k, k ≠ c → s2.size_ k = s.size_ k) ∧
      (∀ q, q ≠ .head c → q.old s.next → s2.cells q = s.cells q) ∧
      ((s.next + vs.length ≤ s.limit ∧ ctor_init s c vs = .ok () s2 ∧
          ∃ qs, IsList s2 c qs vs ∧ ∀ q ∈ qs, ¬ q.old s.next) ∨
        (s.limit < s.next + vs.length ∧ ctor_init s c vs = .bad_alloc s2)) := by
  have hv0 : (ctor_default s c).Valid := hv
  obtain ⟨s2, k1, k2, k3, k4, k5, k6⟩ := ctor_init_loop_spec vs (ctor_default s c) c [] []
    (.head c) hv0 (ctor_default_isList s c) rfl
  refine ⟨s2, k1, k2, k3, fun k hk => (k4 k hk).trans (ctor_default_size s c k hk), ?_, ?_⟩
  · intro q hq hold
    rw [k5 q (by simpa using hq) hold]
    exact ctor_default_cells s c q hq
  · rcases k6 with ⟨m1, m2, qs2, m3, m4⟩ | ⟨m1, m2⟩
    · exact Or.inl ⟨m1, m2, qs2, by simpa using m3, m4⟩
    · exact Or.inr ⟨m1, m2⟩

/-! ## Iterator equality -/

theorem linked_next_at {c : Addr → Option (Node α)} {q0 : Option Addr} {P : List Addr}
    {i : Nat} {p : Addr} (hl : Linked c q0 P) (hp : P[i]? = some p) :
    ∃ n, c p = some n ∧ n.next_node = P[i + 1]? := by
  have hsplit := getElem?_split hp
  rw [hsplit] at hl
  obtain ⟨n, hn, hnx, -⟩ := linked_next_of_mem _ _ _ _ hl
  exact ⟨n, hn, by rw [hnx, List.head?_drop]⟩

/-- Within one chain without repetition, two positions with the same
successor link are the same position. -/
theorem same_chain_next_inj {c : Addr → Option (Node α)} {q0 : Option Addr} {P : List Addr}
    (hl : Linked c q0 P) (hnd : P.Nodup) {p q : Addr} (hp : p ∈ P) (hq : q ∈ P)
    {n m : Node α} (hn : c p = some n) (hm : c q = some m) :
    n.next_node = m.next_node ↔ p = q := by
  constructor
  · intro hnm
    obtain ⟨i, hi⟩ := List.getElem?_of_mem hp
    obtain ⟨j, hj⟩ := List.getElem?_of_mem hq
    obtain ⟨n2, hn2, hnx⟩ := linked_next_at hl hi
    obtain ⟨m2, hm2, hmx⟩ := linked_next_at hl hj
    rw [hn] at hn2; cases hn2
    rw [hm] at hm2; cases hm2
    have hil : i < P.length := (List.getElem?_eq_some_iff.mp hi).1
    have hjl : j < P.length := (List.getElem?_eq_some_iff.mp hj).1
    have hij : i = j := by
      by_cases h1 : i + 1 < P.length
      · have := List.getElem?_inj h1 hnd (hnx.symm.trans (hnm.trans hmx))
        omega
      · have hnone : P[i + 1]? = none := List.getElem?_eq_none_iff.mpr (by omega)
        have hnone2 : P[j + 1]? = none := by rw [← hmx, ← hnm, hnx, hnone]
        have := List.getElem?_eq_none_iff.mp hnone2
        omega
    subst hij
    rw [hi] at hj
    exact Option.some.inj hj
  · rintro rfl
    rw [hn] at hm
    cases hm
    rfl

theorem iterator_eq_live {s : Memory α} {p q : Addr} {n m : Node α}
    (hn : s.cells p = some n) (hm : s.cells q = some m) :
    BasicIterator.operator_eq s ⟨some p⟩ ⟨some q⟩ = .ok (decide (m.next_node = n.next_node)) ∧
    BasicIterator.operator_eq_mut s ⟨some p⟩ ⟨some q⟩
      = .ok (decide (m.next_node = n.next_node)) := by
  simp [BasicIterator.operator_eq, BasicIterator.operator_eq_mut, hn, hm]

theorem isList_cell_of_mem {s : Memory α} {l : Nat} {ps : List Addr} {xs : List α}
    (h : IsList s l ps xs) {p : Addr} (hp : p ∈ Addr.head l :: ps) :
    ∃ n, s.cells p = some n := by
  obtain ⟨i, hi⟩ := List.getElem?_of_mem hp
  obtain ⟨n, hn, -⟩ := linked_next_at h.1 hi
  exact ⟨n, hn⟩

theorem iterator_eq_same_list_aux {s : Memory α} {l : Nat} {ps : List Addr} {xs : List α}
    (h : IsList s l ps xs) {it1 it2 : BasicIterator}
    (h1 : IteratorOf l ps it1) (h2 : IteratorOf l ps it2) :
    BasicIterator.operator_eq s it1 it2 = .ok (decide (it1 = it2)) ∧
    BasicIterator.operator_eq_mut s it1 it2 = .ok (decide (it1 = it2)) := by
  cases it1 with
  | mk n1 =>
    cases it2 with
    | mk n2 =>
      rcases h1 with h1 | ⟨p, hp, h1⟩ <;> rcases h2 with h2 | ⟨q, hq, h2⟩ <;>
        simp only at h1 h2 <;> subst h1 <;> subst h2
      · simp [BasicIterator.operator_eq, BasicIterator.operator_eq_mut]
      · simp [BasicIterator.operator_eq, BasicIterator.operator_eq_mut]
      · simp [BasicIterator.operator_eq, BasicIterator.operator_eq_mut]
      · obtain ⟨n, hn⟩ := isList_cell_of_mem h hp
        obtain ⟨m, hm⟩ := isList_cell_of_mem h hq
        have hinj := same_chain_next_inj h.1 (isList_nodup_cons h) hq hp hm hn
        obtain ⟨e1, e2⟩ := iterator_eq_live hn hm
        rw [e1, e2]
        have : decide (m.next_node = n.next_node)
            = decide ((⟨some p⟩ : BasicIterator) = ⟨some q⟩) := by
          by_cases hpq : p = q
          · subst hpq
            simp [hinj.mpr rfl]
          · have h3 : ¬ m.next_node = n.next_node := fun e => hpq (hinj.mp e).symm
            simp [h3, hpq]
        rw [this]
        exact ⟨rfl, rfl⟩

/-- Inside one list satisfying the chain invariant, for two iterators of that
list (each the end marker, the sentinel or a real node), both overloads of
`operator==` return `true` exactly when the two iterators reference the same
position, and both overloads of `operator!=` return the negation; end markers
compare equal to each other and to `end()`/`cend()`, and the sentinel
iterators of the mutable `before_begin()` and of `cbefore_begin()` never
compare equal to `end()`. -/
theorem iterator_eq_inside_one_list (s : Memory α) (l : Nat) (ps : List Addr) (xs : List α)
    (it1 it2 : BasicIterator) (h : IsList s l ps xs)
    (h1 : IteratorOf l ps it1) (h2 : IteratorOf l ps it2) :
    BasicIterator.operator_eq s it1 it2 = .ok (decide (it1 = it2)) ∧
    BasicIterator.operator_eq_mut s it1 it2 = .ok (decide (it1 = it2)) ∧
    BasicIterator.operator_ne s it1 it2 = .ok (!decide (it1 = it2)) ∧
    BasicIterator.operator_ne_mut s it1 it2 = .ok (!decide (it1 = it2)) ∧
    (it1.node_ = none → BasicIterator.operator_eq s it1 end_ = .ok true ∧
      BasicIterator.operator_eq s it1 cend = .ok true ∧
      BasicIterator.operator_eq_mut s it1 end_ = .ok true ∧
      BasicIterator.operator_eq_mut s end_ it1 = .ok true) ∧
    BasicIterator.operator_eq s (before_begin l) end_ = .ok false ∧
    BasicIterator.operator_eq s end_ (before_begin l) = .ok false ∧
    BasicIterator.operator_eq_mut s (cbefore_begin l) cend = .ok false ∧
    BasicIterator.operator_eq_mut s cend (cbefore_begin l) = .ok false := by
  obtain ⟨e1, e2⟩ := iterator_eq_same_list_aux h h1 h2
  refine ⟨e1, e2, by simp [BasicIterator.operator_ne, e1],
    by simp [BasicIterator.operator_ne_mut, e2], ?_, ?_, ?_, ?_, ?_⟩
  · intro hnone
    cases it1 with
    | mk n1 =>
      simp only at hnone
      subst hnone
      simp [BasicIterator.operator_eq, BasicIterator.operator_eq_mut, end_, cend]
  all_goals
    simp [BasicIterator.operator_eq, BasicIterator.operator_eq_mut, end_, cend, before_begin,
      cbefore_begin]

/-! ## The invariant of reachable stores -/

theorem inv_subset {s : Memory α} {ls ks : List Nat} (h : Inv s ls) (hsub : ∀ l ∈ ks, l ∈ ls) :
    Inv s ks := by
  refine ⟨h.1, fun l hl => ?_⟩
  obtain ⟨ps, xs, h1, h2⟩ := h.2 l (hsub l hl)
  exact ⟨ps, xs, h1, fun k hk hne qs ys hq => h2 k (hsub k hk) hne qs ys hq⟩

theorem inv_disjoint {s : Memory α} {ls : List Nat} (h : Inv s ls) {l k : Nat}
    (hl : l ∈ ls) (hk : k ∈ ls) (hne : k ≠ l) {ps qs : List Addr} {xs ys : List α}
    (h1 : IsList s l ps xs) (h2 : IsList s k qs ys) : ∀ q ∈ ps, q ∉ qs := by
  obtain ⟨ps0, xs0, h3, h4⟩ := h.2 l hl
  obtain ⟨rfl, rfl⟩ := isList_unique h1 h3
  exact h4 k hk hne qs ys h2

/-- One list gets a new representation made of nodes no other list has;
every other list keeps its own. -/
theorem inv_update {s s2 : Memory α} {ls : List Nat} {c : Nat} {ps2 : List Addr}
    {xs2 : List α} (h : Inv s ls) (hv2 : s2.Valid) (hc : IsList s2 c ps2 xs2)
    (hothers : ∀ l ∈ ls, l ≠ c → ∀ ps xs, IsList s l ps xs →
      IsList s2 l ps xs ∧ ∀ q ∈ ps2, q ∉ ps) :
    Inv s2 (c :: ls) := by
  refine ⟨hv2, fun l hl => ?_⟩
  by_cases hlc : l = c
  · subst hlc
    refine ⟨ps2, xs2, hc, fun k hk hne qs ys hq => ?_⟩
    have hk2 : k ∈ ls := by
      rcases List.mem_cons.mp hk with e | e
      · exact absurd e hne
      · exact e
    obtain ⟨ps0, xs0, h3, -⟩ := h.2 k hk2
    obtain ⟨h5, h6⟩ := hothers k hk2 hne ps0 xs0 h3
    obtain ⟨rfl, rfl⟩ := isList_unique hq h5
    exact h6
  · have hl2 : l ∈ ls := by
      rcases List.mem_cons.mp hl with e | e
      · exact absurd e hlc
      · exact e
    obtain ⟨ps0, xs0, h3, h4⟩ := h.2 l hl2
    obtain ⟨h5, h6⟩ := hothers l hl2 hlc ps0 xs0 h3
    refine ⟨ps0, xs0, h5, fun k hk hne qs ys hq => ?_⟩
    by_cases hkc : k = c
    · subst hkc
      obtain ⟨rfl, rfl⟩ := isList_unique hq hc
      exact fun q hq1 hq2 => h6 q hq2 hq1
    · have hk2 : k ∈ ls := by
        rcases List.mem_cons.mp hk with e | e
        · exact absurd e hkc
        · exact e
      obtain ⟨qs0, ys0, h7, -⟩ := h.2 k hk2
      obtain ⟨h8, -⟩ := hothers k hk2 hkc qs0 ys0 h7
      obtain ⟨rfl, rfl⟩ := isList_unique hq h8
      exact h4 k hk2 hne qs ys h7

/-- Every list keeps its representation. -/
theorem inv_frame {s s2 : Memory α} {ls : List Nat} (h : Inv s ls) (hv2 : s2.Valid)
    (hkeep : ∀ l ∈ ls, ∀ ps xs, IsList s l ps xs → IsList s2 l ps xs) : Inv s2 ls := by
  refine ⟨hv2, fun l hl => ?_⟩
  obtain ⟨ps0, xs0, h3, h4⟩ := h.2 l hl
  refine ⟨ps0, xs0, hkeep l hl ps0 xs0 h3, fun k hk hne qs ys hq => ?_⟩
  obtain ⟨qs0, ys0, h7, -⟩ := h.2 k hk
  obtain ⟨rfl, rfl⟩ := isList_unique hq (hkeep k hk qs0 ys0 h7)
  exact h4 k hk hne qs ys h7

theorem valuesAt_all_some {c : Addr → Option (Node α)} :
    ∀ {ps : List Addr} {xs : List α}, valuesAt c ps = xs.map some →
      ∀ q ∈ ps, ∃ x, (c q).bind Node.value = some x
  | [], _, _, _, hq => by cases hq
  | p :: ps, [], h, _, _ => by simp [valuesAt] at h
  | p :: ps, x :: xs, h, q, hq => by
    simp only [valuesAt, List.map_cons, List.cons.injEq] at h
    rcases List.mem_cons.mp hq with rfl | hq
    · exact ⟨x, h.1⟩
    · exact valuesAt_all_some h.2 q hq

theorem valuesAt_of_all_some {c : Addr → Option (Node α)} :
    ∀ (ps : List Addr), (∀ q ∈ ps, ∃ x, (c q).bind Node.value = some x) →
      ∃ xs : List α, valuesAt c ps = xs.map some
  | [], _ => ⟨[], rfl⟩
  | p :: ps, h => by
    obtain ⟨x, hx⟩ := h p (List.mem_cons_self _ _)
    obtain ⟨xs, hxs⟩ := valuesAt_of_all_some ps fun q hq => h q (List.mem_cons_of_mem _ hq)
    refine ⟨x :: xs, ?_⟩
    simp only [valuesAt, List.map_cons, List.cons.injEq] at hxs ⊢
    exact ⟨hx, hxs⟩

theorem linked_congr_next {c c2 : Addr → Option (Node α)} :
    ∀ {ps : List Addr} {q : Option Addr}, Linked c q ps →
      (∀ p ∈ ps, ∀ n, c p = some n → ∃ m, c2 p = some m ∧ m.next_node = n.next_node) →
      Linked c2 q ps
  | [], _, h, _ => h
  | p :: ps, _, ⟨hq, n, hn, hrest⟩, hc => by
    obtain ⟨m, hm, hmn⟩ := hc p (List.mem_cons_self _ _) n hn
    refine ⟨hq, m, hm, ?_⟩
    rw [hmn]
    exact linked_congr_next hrest fun r hr => hc r (List.mem_cons_of_mem _ hr)

theorem setValue_isList {s : Memory α} {c : Nat} {ps : List Addr} {xs : List α} {p : Addr}
    (h : IsList s c ps xs) (hp : p ∈ ps) (v : α) :
    ∃ xs2, IsList (s.setValue p v) c ps xs2 := by
  have hall := valuesAt_all_some h.2.2.2.1
  obtain ⟨xs2, hxs2⟩ := valuesAt_of_all_some (c := (s.setValue p v).cells) ps (by
    intro q hq
    by_cases hqp : q = p
    · subst hqp
      obtain ⟨n, hn⟩ := isList_cell_of_mem h (List.mem_cons_of_mem _ hq)
      exact ⟨v, by simp [Memory.setValue, hn]⟩
    · obtain ⟨x, hx⟩ := hall q hq
      exact ⟨x, by simpa [Memory.setValue, hqp] using hx⟩)
  refine ⟨xs2, linked_congr_next h.1 (fun q _ n hn => ?_), h.2.1, h.2.2.1, hxs2, h.2.2.2.2⟩
  by_cases hqp : q = p
  · subst hqp
    exact ⟨{ n with value := some v }, by simp [Memory.setValue, hn], rfl⟩
  · exact ⟨n, by simpa [Memory.setValue, hqp] using hn, rfl⟩

/-- Effect of an admissible mutation on the mutated list itself. -/
theorem mutation_self {s : Memory α} {c : Nat} {ps : List Addr} {xs : List α}
    (hv : s.Valid) (hc : IsList s c ps xs) (m : Mutation α) (fuel : Nat)
    (hm : m.admissible c ps fuel) :
    ∃ s2, (applyMutation fuel s c m = .ok () s2 ∧ s2.Valid ∧
        ∃ ps2 xs2, IsList s2 c ps2 xs2 ∧ ∀ q ∈ ps2, q ∈ ps ∨ q = .heap s.next) ∨
      (applyMutation fuel s c m = .bad_alloc s2 ∧ s2 = s) := by
  cases m with
  | PushFront v =>
    by_cases halloc : s.next < s.limit
    · obtain ⟨s2, h1, h2, h3, -⟩ := PushFront_spec hv hc halloc v
      refine ⟨s2, Or.inl ⟨h1, h3, _, _, h2, fun q hq => ?_⟩⟩
      rcases List.mem_cons.mp hq with e | e
      · exact Or.inr e
      · exact Or.inl e
    · exact ⟨s, Or.inr ⟨by simp [applyMutation, PushFront, halloc], rfl⟩⟩
  | PopFront =>
    cases ps with
    | nil => exact absurd rfl (show ([] : List Addr) ≠ [] from hm)
    | cons d ps =>
      cases xs with
      | nil => have := isList_length_eq hc; simp at this
      | cons x xs =>
        obtain ⟨s2, h1, h2, h3, -⟩ := PopFront_spec hv hc
        exact ⟨s2, Or.inl ⟨h1, h3, _, _, h2, fun q hq => Or.inl (List.mem_cons_of_mem _ hq)⟩⟩
  | InsertAfter pos v =>
    obtain ⟨i, p, hpos, hnode⟩ := hm
    have hpos_eq : pos = ⟨some p⟩ := by cases pos; simp_all
    subst hpos_eq
    by_cases halloc : s.next < s.limit
    · obtain ⟨s2, h1, h2, h3, -⟩ := InsertAfter_spec hv hc halloc hpos v
      refine ⟨s2, Or.inl ⟨by simp [applyMutation, h1, Res.andThen], h3, _, _, h2,
        fun q hq => ?_⟩⟩
      rcases mem_insert i hq with e | e
      · exact Or.inr e
      · exact Or.inl e
    · exact ⟨s, Or.inr ⟨by simp [applyMutation, InsertAfter, halloc, Res.andThen], rfl⟩⟩
  | EraseAfter pos =>
    obtain ⟨i, p, d, hpos, hd, hnode⟩ := hm
    have hpos_eq : pos = ⟨some p⟩ := by cases pos; simp_all
    subst hpos_eq
    obtain ⟨s2, h1, h2, h3, -⟩ := EraseAfter_spec hv hc hpos hd
    exact ⟨s2, Or.inl ⟨by simp [applyMutation, h1, Res.andThen], h3, _, _, h2,
      fun q hq => Or.inl ((List.eraseIdx_sublist ps i).subset hq)⟩⟩
  | Clear =>
    obtain ⟨s2, h1, h2, h3, -⟩ := Clear_spec ps xs s c fuel hv hc
      (show ps.length < fuel from hm)
    exact ⟨s2, Or.inl ⟨h1, h3, [], [], h2, fun q hq => by cases hq⟩⟩
  | assign it v =>
    obtain ⟨p, hp, hnode⟩ := hm
    have hit : it = ⟨some p⟩ := by cases it; simp_all
    subst hit
    obtain ⟨xs2, h2⟩ := setValue_isList hc hp v
    exact ⟨s.setValue p v, Or.inl ⟨assign_spec hc hp v, hv, ps, xs2, h2,
      fun q hq => Or.inl hq⟩⟩

theorem inv_mutate {s s2 : Memory α} {ls : List Nat} {c : Nat} {ps : List Addr} {xs : List α}
    (h : Inv s ls) (hcl : c ∈ ls) (hc : IsList s c ps xs) (m : Mutation α) (fuel : Nat)
    (hm : m.admissible c ps fuel)
    (hrun : applyMutation fuel s c m = .ok () s2 ∨ applyMutation fuel s c m = .bad_alloc s2) :
    Inv s2 ls := by
  obtain ⟨s3, hself⟩ := mutation_self h.1 hc m fuel hm
  have hother : ∀ l ∈ ls, l ≠ c → ∀ qs ys, IsList s l qs ys → IsList s2 l qs ys := by
    intro l hl hne qs ys hq
    obtain ⟨s4, h1, h2, -⟩ := mutation_frame h.1 hc hq (Ne.symm hne)
      (inv_disjoint h hcl hl hne hc hq) m fuel hm
    have : s4 = s2 := by
      rcases h1 with e | e <;> rcases hrun with e2 | e2
      · have := e.symm.trans e2; injection this
      · have := e.symm.trans e2; cases this
      · have := e.symm.trans e2; cases this
      · have := e.symm.trans e2; injection this
    exact this ▸ h2
  rcases hself with ⟨e, hv3, ps2, xs2, h3, hsub⟩ | ⟨e, rfl⟩
  · have hs : s3 = s2 := by
      rcases hrun with e2 | e2
      · have := e.symm.trans e2; injection this
      · have := e.symm.trans e2; cases this
    subst hs
    refine inv_subset (inv_update h hv3 h3 fun l hl hne qs ys hq =>
      ⟨hother l hl hne qs ys hq, fun q hq2 hq3 => ?_⟩) (fun l hl => ?_)
    · rcases hsub q hq2 with e3 | rfl
      · exact inv_disjoint h hcl hl hne hc hq q e3 hq3
      · exact below_ne_next hq.2.2.1 hq3
    · exact List.mem_cons_of_mem _ hl
  · have hs : s3 = s2 := by
      rcases hrun with e2 | e2
      · have := e.symm.trans e2; cases this
      · have := e.symm.trans e2; injection this
    subst hs
    exact h

theorem inv_permute {s s2 : Memory α} {ls : List Nat} (h : Inv s ls) (hv2 : s2.Valid)
    (σ : Nat → Nat) (hmem : ∀ l ∈ ls, σ l ∈ ls)
    (hinj : ∀ l ∈ ls, ∀ k ∈ ls, σ l = σ k → l = k)
    (hrep : ∀ l ∈ ls, ∀ ps xs, IsList s (σ l) ps xs → IsList s2 l ps xs) : Inv s2 ls := by
  refine ⟨hv2, fun l hl => ?_⟩
  obtain ⟨ps0, xs0, h3, h4⟩ := h.2 (σ l) (hmem l hl)
  refine ⟨ps0, xs0, hrep l hl ps0 xs0 h3, fun k hk hne qs ys hq => ?_⟩
  obtain ⟨qs0, ys0, h7, -⟩ := h.2 (σ k) (hmem k hk)
  obtain ⟨rfl, rfl⟩ := isList_unique hq (hrep k hk qs0 ys0 h7)
  exact h4 (σ k) (hmem k hk) (fun e => hne (hinj k hk l hl e)) qs ys h7

theorem inv_ctor_default {s : Memory α} {ls : List Nat} {c : Nat} (h : Inv s ls)
    (hc : c ∉ ls) : Inv (ctor_default s c) (c :: ls) :=
  inv_update h h.1 (ctor_default_isList s c) fun l hl _ ps xs hp =>
    ⟨ctor_default_frame hp (fun e => hc (e ▸ hl)), fun q hq => by cases hq⟩

theorem inv_ctor_init {s s2 : Memory α} {ls : List Nat} {c : Nat} (vs : List α)
    (h : Inv s ls) (hc : c ∉ ls) :
    (ctor_init s c vs = .ok () s2 → Inv s2 (c :: ls)) ∧
    (ctor_init s c vs = .bad_alloc s2 → Inv s2 ls) := by
  obtain ⟨s3, k1, k2, k3, k4, k5, k6⟩ := ctor_init_spec (c := c) vs h.1
  have hkeep : ∀ l ∈ ls, ∀ ps xs, IsList s l ps xs → IsList s3 l ps xs :=
    fun l hl ps xs hp => isList_frame_old hp (fun (e : c = l) => hc (e ▸ hl)) k5 k4 k3
  rcases k6 with ⟨-, m2, qs, m3, m4⟩ | ⟨-, m2⟩
  · constructor
    · intro e
      have hs : s3 = s2 := by have := m2.symm.trans e; injection this
      subst hs
      exact inv_update h k1 m3 fun l hl _ ps xs hp =>
        ⟨hkeep l hl ps xs hp, fresh_not_mem_below m4 hp.2.2.1⟩
    · intro e
      have := m2.symm.trans e
      cases this
  · constructor
    · intro e
      have := m2.symm.trans e
      cases this
    · intro e
      have hs : s3 = s2 := by have := m2.symm.trans e; injection this
      subst hs
      exact inv_frame h k1 hkeep

theorem inv_ctor_copy {s s2 : Memory α} {ls : List Nat} {c l : Nat} {ps : List Addr}
    {xs : List α} {fuel : Nat} (h : Inv s ls) (hc : c ∉ ls) (hl : l ∈ ls)
    (hp : IsList s l ps xs) (hf : ps.length < fuel) :
    (ctor_copy fuel s c l = .ok () s2 → Inv s2 (c :: ls)) ∧
    (ctor_copy fuel s c l = .bad_alloc s2 → Inv s2 ls) := by
  obtain ⟨s3, k1, k2, k3, k4, k5, k6⟩ := ctor_copy_spec h.1 hp (fun (e : c = l) => hc (e ▸ hl)) hf
  have hkeep : ∀ k ∈ ls, ∀ qs ys, IsList s k qs ys → IsList s3 k qs ys :=
    fun k hk qs ys hq => isList_frame_old hq (fun (e : c = k) => hc (e ▸ hk)) k5 k4 k3
  rcases k6 with ⟨-, m2, qs, m3, m4⟩ | ⟨-, m2⟩
  · constructor
    · intro e
      have hs : s3 = s2 := by have := m2.symm.trans e; injection this
      subst hs
      exact inv_update h k1 m3 fun k hk _ rs zs hr =>
        ⟨hkeep k hk rs zs hr, fresh_not_mem_below m4 hr.2.2.1⟩
    · intro e
      have := m2.symm.trans e
      cases this
  · constructor
    · intro e
      have := m2.symm.trans e
      cases this
    · intro e
      have hs : s3 = s2 := by have := m2.symm.trans e; injection this
      subst hs
      exact inv_frame h k1 hkeep

theorem inv_swap {s s2 : Memory α} {ls : List Nat} {a b : Nat} (h : Inv s ls)
    (ha : a ∈ ls) (hb : b ∈ ls) (hrun : swap s a b = .ok () s2) : Inv s2 ls := by
  obtain ⟨ps, xs, hpa, -⟩ := h.2 a ha
  obtain ⟨qs, ys, hpb, -⟩ := h.2 b hb
  obtain ⟨s3, w1, w2, w3, w4, w5, w6, w7, -⟩ := swap_spec hpa hpb
  have hs : s3 = s2 := by have := w1.symm.trans hrun; injection this
  subst hs
  have hv2 : s3.Valid := by
    have := h.1
    unfold Memory.Valid at this ⊢
    rw [w4, w5]; exact this
  refine inv_permute h hv2 (fun l => if l = a then b else if l = b then a else l)
    (fun l hl => ?_) (fun l hl k hk e => ?_) (fun l hl rs zs hr => ?_)
  · simp only
    split
    · exact hb
    · split
      · exact ha
      · exact hl
  · simp only at e
    by_cases h1 : l = a <;> by_cases h2 : l = b <;> by_cases h3 : k = a <;>
      by_cases h4 : k = b <;> simp_all
  · simp only at hr
    by_cases h1 : l = a
    · subst h1
      rw [if_pos rfl] at hr
      obtain ⟨rfl, rfl⟩ := isList_unique hr hpb
      exact w2
    · rw [if_neg h1] at hr
      by_cases h2 : l = b
      · subst h2
        rw [if_pos rfl] at hr
        obtain ⟨rfl, rfl⟩ := isList_unique hr hpa
        exact w3
      · rw [if_neg h2] at hr
        refine isList_frame hr (fun q hq => w7 q ?_ ?_) (w6 l h1 h2) (Nat.le_of_eq w4.symm)
        · rcases List.mem_cons.mp hq with rfl | hq
          · exact head_ne_of_ne h1
          · rintro rfl; exact below_ne_head hr.2.2.1 a hq
        · rcases List.mem_cons.mp hq with rfl | hq
          · exact head_ne_of_ne h2
          · rintro rfl; exact below_ne_head hr.2.2.1 b hq

/-- A list other than the assigned one and the temporary, with no node of
the assigned list, keeps its representation over a copy assignment, whether
the assignment returns or throws. -/
theorem operator_assign_other {s s2 : Memory α} {a b t l : Nat} {ps qs rs : List Addr}
    {xs ys zs : List α} {fuel : Nat} (hv : s.Valid) (ha : IsList s a ps xs)
    (hb : IsList s b qs ys) (hta : t ≠ a) (htb : t ≠ b)
    (hfa : ps.length < fuel) (hfb : qs.length < fuel)
    (hl : IsList s l rs zs) (hla : l ≠ a) (hlt : l ≠ t) (hsep : ∀ q ∈ ps, q ∉ rs)
    (hrun : operator_assign fuel s a b t = .ok () s2 ∨
      operator_assign fuel s a b t = .bad_alloc s2) :
    IsList s2 l rs zs := by
  obtain ⟨s1, k1, k2, k3, k4, k5, k6⟩ := ctor_copy_spec hv hb htb hfb
  have ha1 : IsList s1 a ps xs := isList_frame_old ha hta k5 k4 k3
  have hl1 : IsList s1 l rs zs := isList_frame_old hl (Ne.symm hlt) k5 k4 k3
  have hhead : ∀ (k : Nat), l ≠ k → ∀ q ∈ Addr.head l :: rs, q ≠ Addr.head k := by
    intro k hk q hq
    rcases List.mem_cons.mp hq with rfl | hq
    · exact head_ne_of_ne hk
    · rintro rfl; exact below_ne_head hl.2.2.1 k hq
  rcases k6 with ⟨-, m2, ts, m3, -⟩ | ⟨-, m2⟩
  · obtain ⟨s3, w1, -, w3, w4, w5, w6, w7, -⟩ := swap_spec ha1 m3
    have hv3 : s3.Valid := by
      have := k1
      unfold Memory.Valid at this ⊢
      rw [w4, w5]; exact this
    obtain ⟨s4, c1, -, -, c4, -, c6, c7, -⟩ := Clear_spec ps xs s3 t fuel hv3 w3 hfa
    have hfin : operator_assign fuel s a b t = .ok () (s4.setCell (.head t) none) := by
      simp only [operator_assign, m2, w1, Res.andThen, dtor, c1]
    have hs : s2 = s4.setCell (.head t) none := by
      rcases hrun with e | e
      · have := e.symm.trans hfin; injection this
      · have := e.symm.trans hfin; cases this
    subst hs
    have hl3 : IsList s3 l rs zs :=
      isList_frame hl1 (fun q hq => w7 q (hhead a hla q hq) (hhead t hlt q hq))
        (w6 l hla hlt) (Nat.le_of_eq w4.symm)
    refine isList_frame hl3 (fun q hq => ?_) (c6 l hlt) (Nat.le_of_eq c4.symm)
    have hqt := hhead t hlt q hq
    simp only [Memory.setCell, hqt, if_false]
    refine c7 q hqt fun hin => ?_
    rcases List.mem_cons.mp hq with rfl | hq
    · exact below_ne_head ha.2.2.1 l hin
    · exact hsep q hin hq
  · have hfin : operator_assign fuel s a b t = .bad_alloc (s1.setCell (.head t) none) := by
      simp only [operator_assign, m2]
    have hs : s2 = s1.setCell (.head t) none := by
      rcases hrun with e | e
      · have := e.symm.trans hfin; cases this
      · have := e.symm.trans hfin; injection this
    subst hs
    refine isList_frame hl1 (fun q hq => ?_) rfl (Nat.le_refl _)
    simp only [Memory.setCell, hhead t hlt q hq, if_false]

theorem inv_operator_assign {s s2 : Memory α} {ls : List Nat} {a b t : Nat}
    {ps qs : List Addr} {xs ys : List α} {fuel : Nat} (h : Inv s ls)
    (ha : a ∈ ls) (hb : b ∈ ls) (ht : t ∉ ls) (hpa : IsList s a ps xs)
    (hpb : IsList s b qs ys) (hfa : ps.length < fuel) (hfb : qs.length < fuel)
    (hrun : operator_assign fuel s a b t = .ok () s2 ∨
      operator_assign fuel s a b t = .bad_alloc s2) : Inv s2 ls := by
  have hta : t ≠ a := fun e => ht (e ▸ ha)
  have htb : t ≠ b := fun e => ht (e ▸ hb)
  have hdisj : a ≠ b → ∀ q ∈ ps, q ∉ qs := fun hab =>
    inv_disjoint h ha hb (Ne.symm hab) hpa hpb
  have hother : ∀ l ∈ ls, l ≠ a → ∀ rs zs, IsList s l rs zs → IsList s2 l rs zs :=
    fun l hl hla rs zs hr =>
      operator_assign_other h.1 hpa hpb hta htb hfa hfb hr hla (fun e => ht (e ▸ hl))
        (inv_disjoint h ha hl hla hpa hr) hrun
  obtain ⟨s3, k1, -, -, k⟩ := operator_assign_spec h.1 hpa hpb hdisj hta htb hfa hfb
  rcases k with ⟨-, m2, ts, m3, m4, -⟩ | ⟨-, m2, m3, -⟩
  · have hs : s3 = s2 := by
      rcases hrun with e | e
      · have := m2.symm.trans e; injection this
      · have := m2.symm.trans e; cases this
    subst hs
    exact inv_subset (inv_update h k1 m3 fun l hl hla rs zs hr =>
      ⟨hother l hl hla rs zs hr, fresh_not_mem_below m4 hr.2.2.1⟩)
      (fun l hl => List.mem_cons_of_mem _ hl)
  · have hs : s3 = s2 := by
      rcases hrun with e | e
      · have := m2.symm.trans e; cases this
      · have := m2.symm.trans e; injection this
    subst hs
    refine inv_frame h k1 fun l hl rs zs hr => ?_
    by_cases hla : l = a
    · subst hla
      obtain ⟨rfl, rfl⟩ := isList_unique hr hpa
      exact m3
    · exact hother l hl hla rs zs hr

theorem inv_empty (limit : Nat) (h : limit < SIZE_MOD) :
    Inv (Memory.empty limit : Memory α) [] :=
  ⟨⟨Nat.zero_le _, h⟩, fun _ hl => by cases hl⟩

theorem inv_call {s s2 : Memory α} {ls : List Nat} (call : Call α) (fuel : Nat)
    (h : Inv s ls) (hpre : call.pre fuel s ls) :
    (call.exec fuel s = .ok () s2 → Inv s2 (call.live ls)) ∧
    (call.exec fuel s = .bad_alloc s2 → Inv s2 ls) := by
  cases call with
  | ctor_default l =>
    constructor
    · intro e
      have hs : ctor_default s l = s2 := by
        have : Res.ok () (ctor_default s l) = Res.ok () s2 := e
        injection this
      subst hs
      exact inv_ctor_default h hpre
    · intro e
      have : Res.ok () (ctor_default s l) = Res.bad_alloc s2 := e
      cases this
  | ctor_init l vs => exact inv_ctor_init vs h hpre
  | ctor_copy l other =>
    obtain ⟨h1, h2, ps, xs, h3, h4⟩ := hpre
    exact inv_ctor_copy h h1 h2 h3 h4
  | mutate l m =>
    obtain ⟨h1, ps, xs, h2, h3⟩ := hpre
    exact ⟨fun e => inv_mutate h h1 h2 m fuel h3 (Or.inl e),
      fun e => inv_mutate h h1 h2 m fuel h3 (Or.inr e)⟩
  | operator_assign a b t =>
    obtain ⟨h1, h2, h3, ps, xs, qs, ys, h4, h5, h6, h7⟩ := hpre
    exact ⟨fun e => inv_operator_assign h h1 h2 h3 h4 h5 h6 h7 (Or.inl e),
      fun e => inv_operator_assign h h1 h2 h3 h4 h5 h6 h7 (Or.inr e)⟩
  | swap a b =>
    obtain ⟨h1, h2⟩ := hpre
    constructor
    · exact fun e => inv_swap h h1 h2 e
    · intro e
      obtain ⟨ps, xs, hpa, -⟩ := h.2 a h1
      obtain ⟨qs, ys, hpb, -⟩ := h.2 b h2
      obtain ⟨s3, w1, -⟩ := swap_spec hpa hpb
      have := w1.symm.trans e
      cases this

theorem inv_reachable {s : Memory α} {ls : List Nat} (h : Reachable s ls) : Inv s ls := by
  induction h with
  | start limit hlim => exact inv_empty limit hlim
  | returned call fuel _ hpre hrun ih => exact (inv_call call fuel ih hpre).1 hrun
  | threw call fuel _ hpre hrun ih => exact (inv_call call fuel ih hpre).2 hrun

/-! ## The example stores are reachable -/

theorem reachable_store_empty : Reachable store_empty [0] :=
  Reachable.returned (Call.ctor_default 0) 0 (Reachable.start 8 (by decide))
    (show 0 ∉ ([] : List Nat) by decide) (by rfl)

theorem reachable_store_123 : Reachable store_123 [0] :=
  Reachable.returned (Call.ctor_init 0 [1, 2, 3]) 0 (Reachable.start 8 (by decide))
    (show 0 ∉ ([] : List Nat) by decide) (by rfl)

theorem reachable_store_12 :
    Reachable ((ctor_init (Memory.empty 8) 0 [1, 2]).storeOr (Memory.empty 8)) [0] :=
  Reachable.returned (Call.ctor_init 0 [1, 2]) 0 (Reachable.start 8 (by decide))
    (show 0 ∉ ([] : List Nat) by decide) (by rfl)

theorem reachable_store_12_123 : Reachable store_12_123 [1, 0] :=
  Reachable.returned (Call.ctor_init 1 [1, 2, 3]) 0 reachable_store_12
    (show 1 ∉ [0] by decide) (by rfl)

/-- Positions of two lists that share no node: the successor links are equal
exactly when both positions are the last of their chains. -/
theorem iterator_eq_cross_list {s : Memory α} {a b : Nat} {ps qs : List Addr}
    {xs ys : List α} (ha : IsList s a ps xs) (hb : IsList s b qs ys)
    (hdisj : ∀ r ∈ ps, r ∉ qs) {i j : Nat} {p q : Addr}
    (hp : (Addr.head a :: ps)[i]? = some p) (hq : (Addr.head b :: qs)[j]? = some q) :
    BasicIterator.operator_eq s ⟨some p⟩ ⟨some q⟩
      = .ok (decide (i = ps.length ∧ j = qs.length)) ∧
    BasicIterator.operator_eq_mut s ⟨some p⟩ ⟨some q⟩
      = .ok (decide (i = ps.length ∧ j = qs.length)) := by
  obtain ⟨n, hn, hnx⟩ := linked_next_at ha.1 hp
  obtain ⟨m, hm, hmx⟩ := linked_next_at hb.1 hq
  simp only [List.getElem?_cons_succ] at hnx hmx
  have hi : i ≤ ps.length := by
    have := (List.getElem?_eq_some_iff.mp hp).1
    simpa [Nat.lt_succ_iff] using this
  have hj : j ≤ qs.length := by
    have := (List.getElem?_eq_some_iff.mp hq).1
    simpa [Nat.lt_succ_iff] using this
  obtain ⟨e1, e2⟩ := iterator_eq_live hn hm
  have key : decide (m.next_node = n.next_node) = decide (i = ps.length ∧ j = qs.length) := by
    rw [hnx, hmx]
    by_cases h1 : i = ps.length
    · by_cases h2 : j = qs.length
      · have c1 : ps[i]? = none := List.getElem?_eq_none_iff.mpr (by omega)
        have c2 : qs[j]? = none := List.getElem?_eq_none_iff.mpr (by omega)
        simp [c1, c2, h1, h2]
      · have c1 : ps[i]? = none := List.getElem?_eq_none_iff.mpr (by omega)
        have c2 : qs[j]? ≠ none := fun e => h2 (by
          have := List.getElem?_eq_none_iff.mp e
          omega)
        have : ¬ qs[j]? = ps[i]? := by rw [c1]; exact c2
        simp [this, h2]
    · have c1 : ps[i]? ≠ none := fun e => h1 (by
        have := List.getElem?_eq_none_iff.mp e
        omega)
      have : ¬ qs[j]? = ps[i]? := by
        intro e
        cases hr : ps[i]? with
        | none => exact c1 hr
        | some r =>
          rw [hr] at e
          exact hdisj r (List.getElem?_mem hr) (List.getElem?_mem e)
      simp [this, h1]
  rw [e1, e2, key]
  exact ⟨rfl, rfl⟩

/-! ## An example run is reachable -/

theorem reachable_returned_step {s : Memory α} {ls : List Nat} (call : Call α) (fuel : Nat)
    (h : Reachable s ls) (hpre : call.pre fuel s ls)
    (hok : (call.exec fuel s).outcome = .ok ()) :
    Reachable ((call.exec fuel s).storeAfter s) (call.live ls) := by
  cases hr : call.exec fuel s with
  | ok v s2 => exact Reachable.returned call fuel h hpre hr
  | bad_alloc s2 => rw [hr] at hok; cases hok
  | undefined => rw [hr] at hok; cases hok
  | timeout => rw [hr] at hok; cases hok

theorem reachable_threw_step {s : Memory α} {ls : List Nat} (call : Call α) (fuel : Nat)
    (h : Reachable s ls) (hpre : call.pre fuel s ls)
    (hbad : (call.exec fuel s).outcome = .bad_alloc) :
    Reachable ((call.exec fuel s).storeAfter s) ls := by
  cases hr : call.exec fuel s with
  | ok v s2 => rw [hr] at hbad; cases hbad
  | bad_alloc s2 => exact Reachable.threw call fuel h hpre hr
  | undefined => rw [hr] at hbad; cases hbad
  | timeout => rw [hr] at hbad; cases hbad

theorem reachable_store_after_2 : Reachable store_after_2 [1, 0] :=
  reachable_returned_step (Call.ctor_init 1 [1, 2, 3]) 8
    (reachable_returned_step (Call.ctor_init 0 [1, 2]) 8 (Reachable.start 10 (by decide))
      (show 0 ∉ ([] : List Nat) by decide) (by decide))
    (show 1 ∉ [0] by decide) (by decide)

theorem reachable_store_after_4 : Reachable store_after_4 [1, 0] :=
  reachable_returned_step (Call.swap 0 1) 8
    (reachable_returned_step (Call.mutate 0 (.PushFront 7)) 8 reachable_store_after_2
      ⟨by decide, [.heap 0, .heap 1], [1, 2], by decide, trivial⟩ (by decide))
    ⟨by decide, by decide⟩ (by decide)

theorem reachable_store_after_6 : Reachable store_after_6 [1, 0] :=
  reachable_returned_step (Call.mutate 1 (.EraseAfter ⟨some (.heap 5)⟩)) 8
    (reachable_returned_step (Call.operator_assign 0 1 2) 8 reachable_store_after_4
      ⟨by decide, by decide, by decide, [.heap 2, .heap 3, .heap 4], [1, 2, 3],
        [.heap 5, .heap 0, .heap 1], [7, 1, 2], by decide, by decide, by decide, by decide⟩
      (by decide))
    ⟨by decide, [.heap 5, .heap 0, .heap 1], [7, 1, 2], by decide,
      1, .heap 5, .heap 0, by decide, by decide, rfl⟩ (by decide)

theorem reachable_store_after_7 : Reachable store_after_7 [1, 0] :=
  reachable_threw_step (Call.ctor_copy 3 0) 8 reachable_store_after_6
    ⟨by decide, by decide, [.heap 6, .heap 7, .heap 8], [7, 1, 2], by decide, by decide⟩
    (by decide)

/-! # Properties of the specification -/

/-- C1: list `operator==` on `[1, 2]` and `[1, 2, 3]`. The three-iterator
`std::equal` stops at the end of the left list, so the comparison of the
shorter left list with the longer right list returns `true`, where equality
of length and pairwise equality of the elements would give `false`. -/
theorem operator_eq_true_on_proper_prefix :
    toList 8 store_12_123 0 = .ok [1, 2] ∧ toList 8 store_12_123 1 = .ok [1, 2, 3] ∧
    operator_eq 8 store_12_123 0 1 = .ok true := by
  decide

/-- C2: list `operator<` returns the reference lexicographic order of the
two element sequences: `true` exactly when at the first index where they
differ the left element is smaller, or the left sequence is a proper prefix
of the right one. -/
theorem operator_lt_is_lexicographic [LinearOrder α] (s : Memory α) (a b : Nat)
    (ps qs : List Addr) (xs ys : List α) (ha : IsList s a ps xs) (hb : IsList s b qs ys)
    (fuel : Nat) (hf : ps.length < fuel) :
    ∃ r, operator_lt fuel s a b = .ok r ∧ (r = true ↔ LexLess xs ys) := by
  obtain ⟨⟨_, n, hn, hrest⟩, _, _, hv, _⟩ := ha
  obtain ⟨⟨_, m, hm, hrest2⟩, _, _, hv2, _⟩ := hb
  obtain ⟨r, hr, hiff⟩ := std_lexicographical_compare_linked s fuel ps qs xs ys
    n.next_node m.next_node hrest hv hrest2 hv2 hf
  exact ⟨r, by simp only [operator_lt, cbegin, hn, hm, hr], hiff⟩

theorem operator_lt_is_lexicographic_witness :
    IsList store_12_123 0 [.heap 0, .heap 1] [1, 2] ∧
    IsList store_12_123 1 [.heap 2, .heap 3, .heap 4] [1, 2, 3] ∧
    (∃ r, operator_lt 8 store_12_123 0 1 = .ok r ∧ (r = true ↔ LexLess [1, 2] [1, 2, 3])) ∧
    operator_lt 8 store_12_123 0 1 = .ok true ∧
    ((ctor_init (Memory.empty 8) 0 []).andThen fun _ s => ctor_init s 1 [1]).observe
      (fun s => operator_lt 8 s 0 1) = .ok true ∧
    ((ctor_init (Memory.empty 8) 0 [1, 3]).andThen fun _ s => ctor_init s 1 [1, 2, 9]).observe
      (fun s => operator_lt 8 s 0 1) = .ok false :=
  ⟨by decide, by decide,
    operator_lt_is_lexicographic store_12_123 0 1 [.heap 0, .heap 1]
      [.heap 2, .heap 3, .heap 4] [1, 2] [1, 2, 3] (by decide) (by decide) 8 (by decide),
    by decide, by decide, by decide⟩

/-- C3: a sequence of `PushFront`/`PopFront` calls on an initially empty
list that never pops from an empty list, with `new` succeeding for every
push, runs to completion; afterwards `GetSize()` is the number of pushes
minus the number of pops and forward traversal yields the LIFO stack model
of the sequence, most recently pushed surviving element first. -/
theorem front_ops_follow_stack_model (s : Memory α) (l : Nat) (ops : List (Op α))
    (st : List α) (hv : s.Valid) (h0 : IsList s l [] [])
    (hm : stackModel [] ops = some st) (hcap : s.next + pushes ops ≤ s.limit) :
    ∃ s2, runOps s l ops = .ok () s2 ∧
      GetSize s2 l = pushes ops - pops ops ∧ pops ops ≤ pushes ops ∧
      ∀ fuel, st.length < fuel → toList fuel s2 l = .ok st := by
  obtain ⟨s2, ps2, h1, h2, -⟩ := runOps_spec ops s l [] [] st hv h0 hm hcap
  have hcount := pops_le_of_model ops [] st hm
  have hlen := (isList_length_eq h2)
  have hsize : s2.size_ l = ps2.length := h2.2.2.2.2
  simp only [List.length_nil, Nat.zero_add] at hcount
  refine ⟨s2, h1, ?_, by omega, fun fuel hf => toList_isList h2 (by omega)⟩
  show s2.size_ l = _
  omega

theorem front_ops_follow_stack_model_witness :
    ∃ s2, runOps store_empty 0 [Op.push 1, Op.push 2, Op.pop, Op.push 3] = .ok () s2 ∧
      GetSize s2 0 = pushes [Op.push 1, Op.push 2, Op.pop, Op.push 3]
        - pops [Op.push 1, Op.push 2, Op.pop, Op.push 3] ∧
      pops [Op.push 1, Op.push 2, Op.pop, Op.push 3]
        ≤ pushes [Op.push 1, Op.push 2, Op.pop, Op.push 3] ∧
      ∀ fuel, [3, 1].length < fuel → toList fuel s2 0 = .ok [3, 1] :=
  front_ops_follow_stack_model store_empty 0 [Op.push 1, Op.push 2, Op.pop, Op.push 3] [3, 1]
    (by decide) (by decide) (by decide) (by decide)

/-- C4: for a list with nodes `ps` and elements `xs`, and a position `p`
that is the sentinel (`i = 0`) or the `i`-th real node, `InsertAfter(p, v)`
with `new` succeeding returns normally; afterwards the elements are the
first `i` elements of `xs`, then `v`, then the remaining ones, `GetSize()`
has grown by exactly 1, and the returned iterator references the new node,
which was not part of the list and now stands at index `i`, and
dereferences to `v`; after insertion at the sentinel `*begin()` is `v`. -/
theorem InsertAfter_inserts_after_position (s : Memory α) (l : Nat) (ps : List Addr)
    (xs : List α) (i : Nat) (p : Addr) (v : α) (hv : s.Valid) (h : IsList s l ps xs)
    (halloc : s.next < s.limit) (hpos : (Addr.head l :: ps)[i]? = some p) :
    ∃ it s2, InsertAfter s l ⟨some p⟩ v = .ok it s2 ∧
      (∃ ps2, IsList s2 l ps2 (xs.take i ++ [v] ++ xs.drop i) ∧
        ps2[i]? = it.node_ ∧ it.node_ ≠ none ∧ (∀ q ∈ ps, it.node_ ≠ some q) ∧
        ps2.eraseIdx i = ps) ∧
      (∀ fuel, xs.length + 1 < fuel →
        toList fuel s2 l = .ok (xs.take i ++ [v] ++ xs.drop i)) ∧
      GetSize s2 l = GetSize s l + 1 ∧
      BasicIterator.operator_deref s2 it = .ok v ∧
      (p = Addr.head l → ∃ b, begin_ s2 l = .ok b ∧ BasicIterator.operator_deref s2 b = .ok v) := by
  obtain ⟨s2, h1, h2, -, -, -, h6, -, -, -⟩ := InsertAfter_spec hv h halloc hpos v
  have hi : i ≤ ps.length := by
    have := (List.getElem?_eq_some_iff.mp hpos).1
    simpa [Nat.lt_succ_iff] using this
  have hxs : xs.take i ++ [v] ++ xs.drop i = xs.take i ++ v :: xs.drop i := by simp
  have hlen2 : (ps.take i ++ Addr.heap s.next :: ps.drop i).length = ps.length + 1 := by
    have := @List.perm_middle _ (Addr.heap s.next) (ps.take i) (ps.drop i)
    rw [this.length_eq]; simp
  have hidx : (ps.take i ++ Addr.heap s.next :: ps.drop i)[i]? = some (Addr.heap s.next) := by
    rw [List.getElem?_append_right (by simp [hi])]
    simp [hi]
  have hnewcell : ∃ nx, s2.cells (.heap s.next) = some ⟨some v, nx⟩ := by
    obtain ⟨hl, _, _, hvals, _⟩ := h2
    have := congrArg (fun L => L[i]?) hvals
    simp only [valuesAt, List.getElem?_map, hidx, Option.map_some'] at this
    have hx : (xs.take i ++ v :: xs.drop i)[i]? = some v := by
      rw [List.getElem?_append_right (by simp [(isList_length_eq h), hi])]
      simp [(isList_length_eq h), hi]
    rw [hx] at this
    cases hc : s2.cells (.heap s.next) with
    | none => rw [hc] at this; simp at this
    | some nd =>
      rw [hc] at this
      simp only [Option.some_bind, Option.map_some', Option.some.injEq] at this
      exact ⟨nd.next_node, by cases nd; simp_all⟩
  obtain ⟨nx, hcell⟩ := hnewcell
  refine ⟨⟨some (.heap s.next)⟩, s2, h1, ⟨_, hxs ▸ h2, hidx, by simp, ?_, ?_⟩, ?_, h6, ?_, ?_⟩
  · intro q hq e
    simp only [Option.some.injEq] at e
    exact below_ne_next h.2.2.1 (e ▸ hq)
  · rw [List.eraseIdx_eq_take_drop_succ]
    have ht : (ps.take i ++ Addr.heap s.next :: ps.drop i).take i = ps.take i := by
      rw [List.take_append_of_le_length (by simp [hi])]
      simp [List.take_take]
    have hd : (ps.take i ++ Addr.heap s.next :: ps.drop i).drop (i + 1) = ps.drop i := by
      have : i + 1 = (ps.take i).length + 1 := by simp [hi]
      rw [this, List.drop_append]
      simp
    rw [ht, hd, List.take_append_drop]
  · intro fuel hf
    rw [hxs]
    exact toList_isList h2 (by rw [hlen2, ← (isList_length_eq h)]; exact hf)
  · simp [BasicIterator.operator_deref, hcell]
  · rintro rfl
    have hi0 : i = 0 := by
      cases i with
      | zero => rfl
      | succ j =>
        simp only [List.getElem?_cons_succ] at hpos
        exact absurd (List.getElem?_mem hpos) (below_ne_head h.2.2.1 l)
    subst hi0
    obtain ⟨⟨_, n, hn, hq, _⟩, -⟩ := h2
    have hq : n.next_node = some (Addr.heap s.next) := hq
    refine ⟨⟨n.next_node⟩, by simp [begin_, hn], ?_⟩
    simp [BasicIterator.operator_deref, hq, hcell]

theorem InsertAfter_inserts_after_position_witness :
    ∃ it s2, InsertAfter store_12_123 1 ⟨some (.heap 2)⟩ 9 = .ok it s2 ∧
      (∃ ps2, IsList s2 1 ps2 ([1, 2, 3].take 1 ++ [9] ++ [1, 2, 3].drop 1) ∧
        ps2[1]? = it.node_ ∧ it.node_ ≠ none ∧
        (∀ q ∈ [Addr.heap 2, .heap 3, .heap 4], it.node_ ≠ some q) ∧
        ps2.eraseIdx 1 = [.heap 2, .heap 3, .heap 4]) ∧
      (∀ fuel, [1, 2, 3].length + 1 < fuel →
        toList fuel s2 1 = .ok ([1, 2, 3].take 1 ++ [9] ++ [1, 2, 3].drop 1)) ∧
      GetSize s2 1 = GetSize store_12_123 1 + 1 ∧
      BasicIterator.operator_deref s2 it = .ok 9 ∧
      (Addr.heap 2 = Addr.head 1 →
        ∃ b, begin_ s2 1 = .ok b ∧ BasicIterator.operator_deref s2 b = .ok 9) :=
  InsertAfter_inserts_after_position store_12_123 1 [.heap 2, .heap 3, .heap 4] [1, 2, 3]
    1 (.heap 2) 9 (by decide) (by decide) (by decide) (by decide)

/-- C5: for a list with nodes `ps` and elements `xs`, and a position `p`
(the sentinel for `i = 0`, else the `i`-th real node) with a node after it,
`EraseAfter(p)` returns normally; it removes exactly the element right
after `p`, keeps every other node and element in order, lowers `GetSize()`
by exactly 1, and returns an iterator to the node that was two positions
after `p`, or the end marker when there was none. -/
theorem EraseAfter_removes_next (s : Memory α) (l : Nat) (ps : List Addr) (xs : List α)
    (i : Nat) (p d : Addr) (hv : s.Valid) (h : IsList s l ps xs)
    (hpos : (Addr.head l :: ps)[i]? = some p) (hd : ps[i]? = some d) :
    ∃ it s2, EraseAfter s l ⟨some p⟩ = .ok it s2 ∧
      IsList s2 l (ps.eraseIdx i) (xs.eraseIdx i) ∧
      (∀ fuel, xs.length < fuel → toList fuel s2 l = .ok (xs.eraseIdx i)) ∧
      GetSize s2 l + 1 = GetSize s l ∧
      it.node_ = (Addr.head l :: ps)[i + 2]? ∧
      ((Addr.head l :: ps)[i + 2]? = none → it = end_) := by
  obtain ⟨s2, h1, h2, -, -, -, h6, -⟩ := EraseAfter_spec hv h hpos hd
  refine ⟨⟨ps[i + 1]?⟩, s2, h1, h2, ?_, h6, by simp, ?_⟩
  · intro fuel hf
    refine toList_isList h2 ?_
    have := (List.eraseIdx_sublist ps i).length_le
    rw [(isList_length_eq h)] at hf
    omega
  · intro hnone
    simp only [List.getElem?_cons_succ] at hnone
    rw [hnone]; rfl

theorem EraseAfter_removes_next_witness :
    ∃ it s2, EraseAfter store_12_123 1 ⟨some (.heap 2)⟩ = .ok it s2 ∧
      IsList s2 1 ([Addr.heap 2, .heap 3, .heap 4].eraseIdx 1) ([1, 2, 3].eraseIdx 1) ∧
      (∀ fuel, [1, 2, 3].length < fuel → toList fuel s2 1 = .ok ([1, 2, 3].eraseIdx 1)) ∧
      GetSize s2 1 + 1 = GetSize store_12_123 1 ∧
      it.node_ = (Addr.head 1 :: [Addr.heap 2, .heap 3, .heap 4])[1 + 2]? ∧
      ((Addr.head 1 :: [Addr.heap 2, .heap 3, .heap 4])[1 + 2]? = none → it = end_) :=
  EraseAfter_removes_next store_12_123 1 [.heap 2, .heap 3, .heap 4] [1, 2, 3] 1 (.heap 2)
    (.heap 3) (by decide) (by decide) (by decide) (by decide)

/-- C6: after the copy `C` of a list `L` is constructed, any mutation of `C`
within its preconditions (`PushFront`, `PopFront`, `InsertAfter`,
`EraseAfter`, `Clear`, a write through an iterator of `C`) ends normally or
with `bad_alloc`, and leaves the nodes, the element sequence and the size of
`L` as they were; a successful `C.PushFront(v)` makes `C` equal to `v`
followed by the elements of `L`. -/
theorem copy_is_independent (s : Memory α) (c l : Nat) (ps : List Addr) (xs : List α)
    (fuel : Nat) (hv : s.Valid) (hl : IsList s l ps xs) (hcl : c ≠ l)
    (hf : ps.length < fuel) (hcap : s.next + ps.length ≤ s.limit) :
    ∃ s1 qs, ctor_copy fuel s c l = .ok () s1 ∧ IsList s1 c qs xs ∧
      ∀ (m : Mutation α) (fuel2 : Nat), m.admissible c qs fuel2 →
        ∃ s2, (applyMutation fuel2 s1 c m = .ok () s2 ∨
            applyMutation fuel2 s1 c m = .bad_alloc s2) ∧
          IsList s2 l ps xs ∧ GetSize s2 l = GetSize s l ∧
          (∀ f, xs.length < f → toList f s2 l = .ok xs) ∧
          (∀ v, m = .PushFront v → s1.next < s1.limit →
            applyMutation fuel2 s1 c m = .ok () s2 ∧
            ∀ f, xs.length + 1 < f → toList f s2 c = .ok (v :: xs)) := by
  obtain ⟨s1, k1, k2, k3, k4, k5, k6⟩ := ctor_copy_spec hv hl hcl hf
  rcases k6 with ⟨-, m2, qs, m3, m4⟩ | ⟨m1, -⟩
  · have hl1 : IsList s1 l ps xs := isList_frame_old hl hcl k5 k4 k3
    refine ⟨s1, qs, m2, m3, fun m fuel2 hm => ?_⟩
    obtain ⟨s2, h1, h2, h3⟩ := mutation_frame k1 m3 hl1 hcl
      (fresh_not_mem_below m4 hl.2.2.1) m fuel2 hm
    refine ⟨s2, h1, h2, h3.trans (k4 l (Ne.symm hcl)), fun f hf2 => toList_isList h2
      (by rw [← isList_length_eq hl]; exact hf2), ?_⟩
    rintro v rfl halloc
    obtain ⟨s3, p1, p2, -⟩ := PushFront_spec k1 m3 halloc v
    have hs : s2 = s3 := by
      rcases h1 with e | e
      · have := e.symm.trans p1
        injection this
      · have := e.symm.trans p1
        cases this
    subst hs
    refine ⟨p1, fun f hf2 => toList_isList p2 ?_⟩
    rw [List.length_cons, ← isList_length_eq m3]
    exact hf2
  · omega

theorem copy_is_independent_witness :
    (∃ s1 qs, ctor_copy 8 store_123 1 0 = .ok () s1 ∧ IsList s1 1 qs [1, 2, 3] ∧
      ∀ (m : Mutation Nat) (fuel2 : Nat), m.admissible 1 qs fuel2 →
        ∃ s2, (applyMutation fuel2 s1 1 m = .ok () s2 ∨
            applyMutation fuel2 s1 1 m = .bad_alloc s2) ∧
          IsList s2 0 [.heap 0, .heap 1, .heap 2] [1, 2, 3] ∧
          GetSize s2 0 = GetSize store_123 0 ∧
          (∀ f, [1, 2, 3].length < f → toList f s2 0 = .ok [1, 2, 3]) ∧
          (∀ v, m = .PushFront v → s1.next < s1.limit →
            applyMutation fuel2 s1 1 m = .ok () s2 ∧
            ∀ f, [1, 2, 3].length + 1 < f → toList f s2 1 = .ok (v :: [1, 2, 3]))) ∧
    ((ctor_copy 8 store_123 1 0).andThen fun _ s1 => PushFront s1 1 0).observe
      (fun s2 => toList 8 s2 0) = .ok [1, 2, 3] ∧
    ((ctor_copy 8 store_123 1 0).andThen fun _ s1 => PushFront s1 1 0).observe
      (fun s2 => toList 8 s2 1) = .ok [0, 1, 2, 3] :=
  ⟨copy_is_independent store_123 1 0 [.heap 0, .heap 1, .heap 2] [1, 2, 3] 8
    (by decide) (by decide) (by decide) (by decide) (by decide), by decide, by decide⟩

/-- C7: the copy constructor, with `new` succeeding for every element of
`L`, returns normally; the new list holds the elements of `L` in the same
order in nodes of its own, its `GetSize()` equals `L.GetSize()`, and `L`
keeps its nodes, elements and size. -/
theorem copy_constructor_copies (s : Memory α) (c l : Nat) (ps : List Addr) (xs : List α)
    (fuel : Nat) (hv : s.Valid) (hl : IsList s l ps xs) (hcl : c ≠ l)
    (hf : ps.length < fuel) (hcap : s.next + ps.length ≤ s.limit) :
    ∃ s2 qs, ctor_copy fuel s c l = .ok () s2 ∧
      IsList s2 c qs xs ∧ IsList s2 l ps xs ∧ (∀ q ∈ qs, q ∉ ps) ∧
      (∀ f, xs.length < f → toList f s2 c = .ok xs ∧ toList f s2 l = .ok xs) ∧
      GetSize s2 c = GetSize s l ∧ GetSize s2 l = GetSize s l := by
  obtain ⟨s1, k1, k2, k3, k4, k5, k6⟩ := ctor_copy_spec hv hl hcl hf
  rcases k6 with ⟨-, m2, qs, m3, m4⟩ | ⟨m1, -⟩
  · have hl1 : IsList s1 l ps xs := isList_frame_old hl hcl k5 k4 k3
    have hlen1 := isList_length_eq m3
    have hlen2 := isList_length_eq hl
    refine ⟨s1, qs, m2, m3, hl1, fresh_not_mem_below m4 hl.2.2.1, fun f hf2 =>
      ⟨toList_isList m3 (by omega), toList_isList hl1 (by omega)⟩, ?_, k4 l (Ne.symm hcl)⟩
    show s1.size_ c = s.size_ l
    rw [m3.2.2.2.2, hl.2.2.2.2]; omega
  · omega

theorem copy_constructor_copies_witness :
    ∃ s2 qs, ctor_copy 8 store_123 1 0 = .ok () s2 ∧
      IsList s2 1 qs [1, 2, 3] ∧ IsList s2 0 [.heap 0, .heap 1, .heap 2] [1, 2, 3] ∧
      (∀ q ∈ qs, q ∉ [Addr.heap 0, .heap 1, .heap 2]) ∧
      (∀ f, [1, 2, 3].length < f →
        toList f s2 1 = .ok [1, 2, 3] ∧ toList f s2 0 = .ok [1, 2, 3]) ∧
      GetSize s2 1 = GetSize store_123 0 ∧ GetSize s2 0 = GetSize store_123 0 :=
  copy_constructor_copies store_123 1 0 [.heap 0, .heap 1, .heap 2] [1, 2, 3] 8
    (by decide) (by decide) (by decide) (by decide) (by decide)

/-- C8: the copy assignment `A = B`, with `new` succeeding for every element
of `B` and the temporary in a slot `t` of its own, returns normally;
afterwards `A` holds the elements and the size `B` had, and `B` holds the
same elements, in its old nodes when `A` and `B` are different lists. No
hypothesis separates `A` from `B`: for `A = B` (self-assignment) the contents
and the size are unchanged. -/
theorem copy_assignment_assigns (s : Memory α) (a b t : Nat) (ps qs : List Addr)
    (xs ys : List α) (fuel : Nat) (hv : s.Valid) (ha : IsList s a ps xs)
    (hb : IsList s b qs ys) (hdisj : a ≠ b → ∀ q ∈ ps, q ∉ qs) (hta : t ≠ a) (htb : t ≠ b)
    (hfa : ps.length < fuel) (hfb : qs.length < fuel) (hcap : s.next + qs.length ≤ s.limit) :
    ∃ s2, operator_assign fuel s a b t = .ok () s2 ∧
      (∃ ts, IsList s2 a ts ys) ∧
      (∃ qs2, IsList s2 b qs2 ys ∧ (a ≠ b → qs2 = qs)) ∧
      GetSize s2 a = GetSize s b ∧ GetSize s2 b = GetSize s b ∧
      (∀ f, ys.length < f → toList f s2 a = .ok ys ∧ toList f s2 b = .ok ys) ∧
      (a = b → ys = xs) := by
  obtain ⟨s2, -, -, -, k⟩ := operator_assign_spec hv ha hb hdisj hta htb hfa hfb
  rcases k with ⟨-, m2, ts, m3, -, m5⟩ | ⟨m1, -⟩
  · have hb2 : ∃ qs2, IsList s2 b qs2 ys ∧ (a ≠ b → qs2 = qs) := by
      by_cases hab : a = b
      · subst hab
        exact ⟨ts, m3, fun h => absurd rfl h⟩
      · exact ⟨qs, m5 hab, fun _ => rfl⟩
    obtain ⟨qs2, hq1, hq2⟩ := hb2
    have e1 := isList_length_eq m3
    have e2 := isList_length_eq hq1
    have e3 := isList_length_eq hb
    refine ⟨s2, m2, ⟨ts, m3⟩, ⟨qs2, hq1, hq2⟩, ?_, ?_, fun f hf2 =>
      ⟨toList_isList m3 (by omega), toList_isList hq1 (by omega)⟩, ?_⟩
    · show s2.size_ a = s.size_ b
      rw [m3.2.2.2.2, hb.2.2.2.2]; omega
    · show s2.size_ b = s.size_ b
      rw [hq1.2.2.2.2, hb.2.2.2.2]; omega
    · rintro rfl
      exact (isList_unique ha hb).2.symm
  · omega

theorem copy_assignment_assigns_witness :
    (∃ s2, operator_assign 8 store_12_123 0 1 2 = .ok () s2 ∧
      (∃ ts, IsList s2 0 ts [1, 2, 3]) ∧
      (∃ qs2, IsList s2 1 qs2 [1, 2, 3] ∧ (0 ≠ 1 → qs2 = [.heap 2, .heap 3, .heap 4])) ∧
      GetSize s2 0 = GetSize store_12_123 1 ∧ GetSize s2 1 = GetSize store_12_123 1 ∧
      (∀ f, [1, 2, 3].length < f →
        toList f s2 0 = .ok [1, 2, 3] ∧ toList f s2 1 = .ok [1, 2, 3]) ∧
      (0 = 1 → [1, 2, 3] = [1, 2])) ∧
    (∃ s2, operator_assign 8 store_12_123 1 1 2 = .ok () s2 ∧
      (∃ ts, IsList s2 1 ts [1, 2, 3]) ∧
      (∃ qs2, IsList s2 1 qs2 [1, 2, 3] ∧ (1 ≠ 1 → qs2 = [.heap 2, .heap 3, .heap 4])) ∧
      GetSize s2 1 = GetSize store_12_123 1 ∧ GetSize s2 1 = GetSize store_12_123 1 ∧
      (∀ f, [1, 2, 3].length < f →
        toList f s2 1 = .ok [1, 2, 3] ∧ toList f s2 1 = .ok [1, 2, 3]) ∧
      (1 = 1 → [1, 2, 3] = [1, 2, 3])) :=
  ⟨copy_assignment_assigns store_12_123 0 1 2 [.heap 0, .heap 1]
      [.heap 2, .heap 3, .heap 4] [1, 2] [1, 2, 3] 8
      (by decide) (by decide) (by decide) (by decide) (by decide) (by decide) (by decide)
      (by decide) (by decide),
    copy_assignment_assigns store_12_123 1 1 2 [.heap 2, .heap 3, .heap 4]
      [.heap 2, .heap 3, .heap 4] [1, 2, 3] [1, 2, 3] 8
      (by decide) (by decide) (by decide) (by decide) (by decide) (by decide) (by decide)
      (by decide) (by decide)⟩

/-- C9: strong failure guarantee of the copy assignment `A = B`. When `new`
fails before every element of `B` is copied, at whichever allocation, the
assignment ends with `bad_alloc`, and then `A` has the nodes, the element
sequence, the size and the sentinel it had before, and `B` is unchanged. -/
theorem copy_assignment_strong_guarantee (s : Memory α) (a b t : Nat) (ps qs : List Addr)
    (xs ys : List α) (fuel : Nat) (hv : s.Valid) (ha : IsList s a ps xs)
    (hb : IsList s b qs ys) (hdisj : a ≠ b → ∀ q ∈ ps, q ∉ qs) (hta : t ≠ a) (htb : t ≠ b)
    (hfa : ps.length < fuel) (hfb : qs.length < fuel)
    (hfail : s.limit < s.next + qs.length) :
    ∃ s2, operator_assign fuel s a b t = .bad_alloc s2 ∧
      IsList s2 a ps xs ∧ IsList s2 b qs ys ∧
      s2.cells (.head a) = s.cells (.head a) ∧ begin_ s2 a = begin_ s a ∧
      GetSize s2 a = GetSize s a ∧ GetSize s2 b = GetSize s b ∧
      (∀ f, xs.length < f → toList f s2 a = .ok xs) ∧
      (∀ f, ys.length < f → toList f s2 b = .ok ys) := by
  obtain ⟨s2, -, -, -, k⟩ := operator_assign_spec hv ha hb hdisj hta htb hfa hfb
  rcases k with ⟨m1, -⟩ | ⟨-, m2, m3, m4, m5, m6⟩
  · omega
  · have e1 := isList_length_eq m3
    have e2 := isList_length_eq m4
    refine ⟨s2, m2, m3, m4, m5, by simp only [begin_, m5], m6, ?_,
      fun f hf2 => toList_isList m3 (by omega), fun f hf2 => toList_isList m4 (by omega)⟩
    show s2.size_ b = s.size_ b
    rw [m4.2.2.2.2, hb.2.2.2.2]

theorem copy_assignment_strong_guarantee_witness :
    ∃ s2, operator_assign 8 store_tight 0 1 2 = .bad_alloc s2 ∧
      IsList s2 0 [.heap 0, .heap 1] [1, 2] ∧
      IsList s2 1 [.heap 2, .heap 3, .heap 4] [1, 2, 3] ∧
      s2.cells (.head 0) = store_tight.cells (.head 0) ∧
      begin_ s2 0 = begin_ store_tight 0 ∧
      GetSize s2 0 = GetSize store_tight 0 ∧ GetSize s2 1 = GetSize store_tight 1 ∧
      (∀ f, [1, 2].length < f → toList f s2 0 = .ok [1, 2]) ∧
      (∀ f, [1, 2, 3].length < f → toList f s2 1 = .ok [1, 2, 3]) :=
  copy_assignment_strong_guarantee store_tight 0 1 2 [.heap 0, .heap 1]
    [.heap 2, .heap 3, .heap 4] [1, 2] [1, 2, 3] 8
    (by decide) (by decide) (by decide) (by decide) (by decide) (by decide) (by decide)
    (by decide) (by decide)

/-- C10: `A.swap(B)` returns normally and exchanges the whole state of the
two lists: afterwards `A` has the nodes, the elements, the size and the
first-node link `B` had, and `B` has those `A` had; the swap of a list with
itself leaves the store as it was. -/
theorem swap_exchanges_state (s : Memory α) (a b : Nat) (ps qs : List Addr) (xs ys : List α)
    (ha : IsList s a ps xs) (hb : IsList s b qs ys) :
    ∃ s2, swap s a b = .ok () s2 ∧
      IsList s2 a qs ys ∧ IsList s2 b ps xs ∧
      GetSize s2 a = GetSize s b ∧ GetSize s2 b = GetSize s a ∧
      begin_ s2 a = begin_ s b ∧ begin_ s2 b = begin_ s a ∧
      (a = b → s2 = s) := by
  obtain ⟨s2, w1, w2, w3, w4, w5, w6, w7, n, m, hn, hm, hca, hcb⟩ := swap_spec ha hb
  refine ⟨s2, w1, w2, w3, ?_, ?_, ?_, ?_, ?_⟩
  · show s2.size_ a = s.size_ b
    rw [w2.2.2.2.2, hb.2.2.2.2]
  · show s2.size_ b = s.size_ a
    rw [w3.2.2.2.2, ha.2.2.2.2]
  · simp only [begin_, hca, hm]
  · simp only [begin_, hcb, hn]
  · rintro rfl
    rw [hn] at hm
    cases hm
    have hcells : s2.cells = s.cells := by
      funext q
      by_cases hq : q = Addr.head a
      · subst hq; rw [hca, hn]
      · exact w7 q hq hq
    have hsize : s2.size_ = s.size_ := by
      funext k
      by_cases hk : k = a
      · subst hk; rw [w2.2.2.2.2, hb.2.2.2.2]
      · exact w6 k hk hk
    cases s2
    cases s
    simp only [Memory.mk.injEq]
    exact ⟨hcells, hsize, w4, w5⟩

theorem swap_exchanges_state_witness :
    (∃ s2, swap store_12_123 0 1 = .ok () s2 ∧
      IsList s2 0 [.heap 2, .heap 3, .heap 4] [1, 2, 3] ∧
      IsList s2 1 [.heap 0, .heap 1] [1, 2] ∧
      GetSize s2 0 = GetSize store_12_123 1 ∧ GetSize s2 1 = GetSize store_12_123 0 ∧
      begin_ s2 0 = begin_ store_12_123 1 ∧ begin_ s2 1 = begin_ store_12_123 0 ∧
      (0 = 1 → s2 = store_12_123)) ∧
    (∃ s2, swap store_12_123 0 0 = .ok () s2 ∧
      IsList s2 0 [.heap 0, .heap 1] [1, 2] ∧
      IsList s2 0 [.heap 0, .heap 1] [1, 2] ∧
      GetSize s2 0 = GetSize store_12_123 0 ∧ GetSize s2 0 = GetSize store_12_123 0 ∧
      begin_ s2 0 = begin_ store_12_123 0 ∧ begin_ s2 0 = begin_ store_12_123 0 ∧
      (0 = 0 → s2 = store_12_123)) :=
  ⟨swap_exchanges_state store_12_123 0 1 [.heap 0, .heap 1] [.heap 2, .heap 3, .heap 4]
      [1, 2] [1, 2, 3] (by decide) (by decide),
    swap_exchanges_state store_12_123 0 0 [.heap 0, .heap 1] [.heap 0, .heap 1]
      [1, 2] [1, 2] (by decide) (by decide)⟩

/-- C11: the non-member `swap(A, B)` has the effect of the member
`A.swap(B)`, and two non-member swaps in a row return normally and give both
lists back the nodes, the element sequence and the size they had. -/
theorem swap_free_twice_restores (s : Memory α) (a b : Nat) (ps qs : List Addr)
    (xs ys : List α) (ha : IsList s a ps xs) (hb : IsList s b qs ys) :
    swap_free s a b = swap s a b ∧
    ∃ s1 s2, swap_free s a b = .ok () s1 ∧ swap_free s1 a b = .ok () s2 ∧
      IsList s2 a ps xs ∧ IsList s2 b qs ys ∧
      GetSize s2 a = GetSize s a ∧ GetSize s2 b = GetSize s b ∧
      (∀ f, xs.length < f → toList f s2 a = .ok xs) ∧
      (∀ f, ys.length < f → toList f s2 b = .ok ys) := by
  obtain ⟨s1, w1, w2, w3, -⟩ := swap_spec ha hb
  obtain ⟨s2, v1, v2, v3, -⟩ := swap_spec w2 w3
  have e1 := isList_length_eq v2
  have e2 := isList_length_eq v3
  refine ⟨rfl, s1, s2, w1, v1, v2, v3, ?_, ?_,
    fun f hf => toList_isList v2 (by omega), fun f hf => toList_isList v3 (by omega)⟩
  · show s2.size_ a = s.size_ a
    rw [v2.2.2.2.2, ha.2.2.2.2]
  · show s2.size_ b = s.size_ b
    rw [v3.2.2.2.2, hb.2.2.2.2]

theorem swap_free_twice_restores_witness :
    swap_free store_12_123 0 1 = swap store_12_123 0 1 ∧
    ∃ s1 s2, swap_free store_12_123 0 1 = .ok () s1 ∧ swap_free s1 0 1 = .ok () s2 ∧
      IsList s2 0 [.heap 0, .heap 1] [1, 2] ∧
      IsList s2 1 [.heap 2, .heap 3, .heap 4] [1, 2, 3] ∧
      GetSize s2 0 = GetSize store_12_123 0 ∧ GetSize s2 1 = GetSize store_12_123 1 ∧
      (∀ f, [1, 2].length < f → toList f s2 0 = .ok [1, 2]) ∧
      (∀ f, [1, 2, 3].length < f → toList f s2 1 = .ok [1, 2, 3]) :=
  swap_free_twice_restores store_12_123 0 1 [.heap 0, .heap 1] [.heap 2, .heap 3, .heap 4]
    [1, 2] [1, 2, 3] (by decide) (by decide)

/-- C12: for every live list of a reachable store, empty ones included,
`Clear()` terminates (any fuel above `GetSize()` is enough) and leaves
`GetSize() == 0`, `IsEmpty() == true` and `begin() == end()`. -/
theorem Clear_empties_reachable_list (s : Memory α) (ls : List Nat) (l : Nat)
    (hr : Reachable s ls) (hl : l ∈ ls) :
    ∀ fuel, GetSize s l < fuel →
      ∃ s2, Clear fuel s l = .ok () s2 ∧
        GetSize s2 l = 0 ∧ IsEmpty s2 l = true ∧
        begin_ s2 l = .ok end_ ∧ BasicIterator.operator_eq s2 end_ end_ = .ok true ∧
        (∃ b, begin_ s2 l = .ok b ∧ BasicIterator.operator_eq s2 b end_ = .ok true) ∧
        ∀ f, 0 < f → toList f s2 l = .ok [] := by
  intro fuel hf
  have hinv := inv_reachable hr
  obtain ⟨ps, xs, hp, -⟩ := hinv.2 l hl
  have hsz : s.size_ l = ps.length := hp.2.2.2.2
  obtain ⟨s2, h1, h2, -⟩ := Clear_spec ps xs s l fuel hinv.1 hp (by rw [← hsz]; exact hf)
  obtain ⟨n, hn, hnx⟩ := isList_head h2
  have hnx : n.next_node = none := hnx
  have hsize : s2.size_ l = 0 := h2.2.2.2.2
  have hbegin : begin_ s2 l = .ok end_ := by simp [begin_, hn, hnx, end_]
  have heq : BasicIterator.operator_eq s2 end_ end_ = .ok true := by
    simp [BasicIterator.operator_eq, end_]
  exact ⟨s2, h1, hsize, by simp [IsEmpty, hsize], hbegin, heq, ⟨end_, hbegin, heq⟩,
    fun f hf2 => toList_isList h2 hf2⟩

theorem Clear_empties_reachable_list_witness :
    (∀ fuel, GetSize store_123 0 < fuel →
      ∃ s2, Clear fuel store_123 0 = .ok () s2 ∧
        GetSize s2 0 = 0 ∧ IsEmpty s2 0 = true ∧
        begin_ s2 0 = .ok end_ ∧ BasicIterator.operator_eq s2 end_ end_ = .ok true ∧
        (∃ b, begin_ s2 0 = .ok b ∧ BasicIterator.operator_eq s2 b end_ = .ok true) ∧
        ∀ f, 0 < f → toList f s2 0 = .ok []) ∧
    (∀ fuel, GetSize store_empty 0 < fuel →
      ∃ s2, Clear fuel store_empty 0 = .ok () s2 ∧
        GetSize s2 0 = 0 ∧ IsEmpty s2 0 = true ∧
        begin_ s2 0 = .ok end_ ∧ BasicIterator.operator_eq s2 end_ end_ = .ok true ∧
        (∃ b, begin_ s2 0 = .ok b ∧ BasicIterator.operator_eq s2 b end_ = .ok true) ∧
        ∀ f, 0 < f → toList f s2 0 = .ok []) :=
  ⟨Clear_empties_reachable_list store_123 [0] 0 reachable_store_123 (by decide),
    Clear_empties_reachable_list store_empty [0] 0 reachable_store_empty (by decide)⟩

/-- C13: construction from the initializer sequence `vs`, with `new`
succeeding for every value, returns normally; the list has `GetSize()` equal
to the length of `vs` and forward traversal yields exactly `vs` in order. The
default-constructed list has size 0 and `begin() == end()`, and is what the
empty initializer sequence gives. -/
theorem ctor_init_builds_sequence (s : Memory α) (l : Nat) (vs : List α) (hv : s.Valid)
    (hcap : s.next + vs.length ≤ s.limit) :
    (∃ s2 qs, ctor_init s l vs = .ok () s2 ∧ IsList s2 l qs vs ∧
      GetSize s2 l = vs.length ∧ ∀ f, vs.length < f → toList f s2 l = .ok vs) ∧
    GetSize (ctor_default s l) l = 0 ∧ IsEmpty (ctor_default s l) l = true ∧
    begin_ (ctor_default s l) l = .ok end_ ∧
    BasicIterator.operator_eq (ctor_default s l) end_ end_ = .ok true ∧
    ctor_init s l [] = .ok () (ctor_default s l) := by
  obtain ⟨s2, -, -, -, -, -, k6⟩ := ctor_init_spec (c := l) vs hv
  have h0 := ctor_default_isList s l
  obtain ⟨n, hn, hnx⟩ := isList_head h0
  have hnx : n.next_node = none := hnx
  have hsize0 : (ctor_default s l).size_ l = 0 := h0.2.2.2.2
  refine ⟨?_, hsize0, by simp [IsEmpty, hsize0], by simp [begin_, hn, hnx, end_],
    by simp [BasicIterator.operator_eq, end_], rfl⟩
  rcases k6 with ⟨-, m2, qs, m3, -⟩ | ⟨m1, -⟩
  · have e1 := isList_length_eq m3
    refine ⟨s2, qs, m2, m3, ?_, fun f hf => toList_isList m3 (by omega)⟩
    show s2.size_ l = vs.length
    rw [m3.2.2.2.2]; omega
  · omega

theorem ctor_init_builds_sequence_witness :
    (∃ s2 qs, ctor_init (Memory.empty 8) 0 [4, 5, 6] = .ok () s2 ∧ IsList s2 0 qs [4, 5, 6] ∧
      GetSize s2 0 = [4, 5, 6].length ∧
      ∀ f, [4, 5, 6].length < f → toList f s2 0 = .ok [4, 5, 6]) ∧
    GetSize (ctor_default (Memory.empty 8 : Memory Nat) 0) 0 = 0 ∧
    IsEmpty (ctor_default (Memory.empty 8 : Memory Nat) 0) 0 = true ∧
    begin_ (ctor_default (Memory.empty 8 : Memory Nat) 0) 0 = .ok end_ ∧
    BasicIterator.operator_eq (ctor_default (Memory.empty 8 : Memory Nat) 0) end_ end_
      = .ok true ∧
    ctor_init (Memory.empty 8 : Memory Nat) 0 []
      = .ok () (ctor_default (Memory.empty 8 : Memory Nat) 0) :=
  ctor_init_builds_sequence (Memory.empty 8) 0 [4, 5, 6] (by decide) (by decide)

/-- C14: in every store reachable from the empty store through constructors
and public operations whose preconditions hold, every live list satisfies
the chain invariant: the chain from the sentinel's link visits pairwise
distinct nodes (no cycle) and reaches `none` after finitely many steps, and
`GetSize()` is the number of nodes visited, which forward traversal
confirms. -/
theorem reachable_lists_keep_size_invariant (s : Memory α) (ls : List Nat) (l : Nat)
    (hr : Reachable s ls) (hl : l ∈ ls) :
    ∃ ps xs, IsList s l ps xs ∧
      (∃ n, s.cells (.head l) = some n ∧ Linked s.cells n.next_node ps) ∧
      ps.Nodup ∧ GetSize s l = ps.length ∧
      toList (GetSize s l + 1) s l = .ok xs ∧ xs.length = GetSize s l := by
  obtain ⟨ps, xs, hp, -⟩ := (inv_reachable hr).2 l hl
  have hsz : s.size_ l = ps.length := hp.2.2.2.2
  have e1 := isList_length_eq hp
  refine ⟨ps, xs, hp, isList_head hp, hp.2.1, hsz, toList_isList hp ?_, ?_⟩
  · show ps.length < s.size_ l + 1
    omega
  · show xs.length = s.size_ l
    omega

theorem reachable_lists_keep_size_invariant_witness :
    (∃ ps xs, IsList store_12_123 1 ps xs ∧
      (∃ n, store_12_123.cells (.head 1) = some n ∧
        Linked store_12_123.cells n.next_node ps) ∧
      ps.Nodup ∧ GetSize store_12_123 1 = ps.length ∧
      toList (GetSize store_12_123 1 + 1) store_12_123 1 = .ok xs ∧
      xs.length = GetSize store_12_123 1) ∧
    (∃ ps xs, IsList store_after_7 0 ps xs ∧
      (∃ n, store_after_7.cells (.head 0) = some n ∧
        Linked store_after_7.cells n.next_node ps) ∧
      ps.Nodup ∧ GetSize store_after_7 0 = ps.length ∧
      toList (GetSize store_after_7 0 + 1) store_after_7 0 = .ok xs ∧
      xs.length = GetSize store_after_7 0) :=
  ⟨reachable_lists_keep_size_invariant store_12_123 [1, 0] 1 reachable_store_12_123
      (by decide),
    reachable_lists_keep_size_invariant store_after_7 [1, 0] 0 reachable_store_after_7
      (by decide)⟩

/-- C15: iterator equality on an empty list, for the read-only overload of
`before_begin()`. The overload returns `cbegin()`, which on an empty list is
the end marker, so `before_begin() == end()` is `true` (and `!=` is `false`)
under both overloads of `operator==`, where the clause says `before_begin()`
never compares equal to `end()`; the mutable overload and `cbefore_begin()`
return the sentinel, which compares unequal to `end()`. -/
theorem before_begin_const_equals_end_on_empty :
    IsList store_empty 0 [] [] ∧
    before_begin_const store_empty 0 = .ok end_ ∧
    BasicIterator.operator_eq store_empty end_ end_ = .ok true ∧
    BasicIterator.operator_eq store_empty end_ cend = .ok true ∧
    BasicIterator.operator_eq_mut store_empty end_ end_ = .ok true ∧
    BasicIterator.operator_ne store_empty end_ end_ = .ok false ∧
    BasicIterator.operator_ne_mut store_empty end_ cend = .ok false ∧
    before_begin 0 = ⟨some (.head 0)⟩ ∧ cbefore_begin 0 = ⟨some (.head 0)⟩ ∧
    BasicIterator.operator_eq store_empty (before_begin 0) end_ = .ok false ∧
    BasicIterator.operator_eq_mut store_empty (cbefore_begin 0) cend = .ok false := by
  decide

/-- C16: the read-only overload of `before_begin()` on the list `[1, 2]`. It
returns `cbegin()`: the iterator references the first real element (it
dereferences to 1 and equals `begin()`), not the sentinel that the mutable
overload and `cbefore_begin()` return, and advancing it once gives the
second node, which does not compare equal to `begin()`. -/
theorem before_begin_const_is_begin :
    before_begin_const store_12_123 0 = .ok ⟨some (.heap 0)⟩ ∧
    begin_ store_12_123 0 = .ok ⟨some (.heap 0)⟩ ∧
    cbegin store_12_123 0 = .ok ⟨some (.heap 0)⟩ ∧
    before_begin 0 = ⟨some (.head 0)⟩ ∧ cbefore_begin 0 = ⟨some (.head 0)⟩ ∧
    BasicIterator.operator_deref store_12_123 ⟨some (.heap 0)⟩ = .ok 1 ∧
    BasicIterator.operator_inc store_12_123 ⟨some (.heap 0)⟩ = .ok ⟨some (.heap 1)⟩ ∧
    BasicIterator.operator_eq store_12_123 ⟨some (.heap 1)⟩ ⟨some (.heap 0)⟩ = .ok false ∧
    BasicIterator.operator_inc store_12_123 (before_begin 0) = .ok ⟨some (.heap 0)⟩ ∧
    before_begin_const store_empty 0 = .ok end_ := by
  decide

/-- C17, as stated, fails: in the store holding `[1, 2]` and `[1, 2, 3]` the
last nodes of the two lists are different nodes and `operator==` returns
`true` for them, and the last node of `[1, 2]` compares equal to the sentinel
of an empty third list. -/
theorem iterator_eq_not_identity_across_lists :
    (⟨some (.heap 1)⟩ : BasicIterator) ≠ ⟨some (.heap 4)⟩ ∧
    BasicIterator.operator_eq store_12_123 ⟨some (.heap 1)⟩ ⟨some (.heap 4)⟩ = .ok true ∧
    BasicIterator.operator_eq_mut store_12_123 ⟨some (.heap 1)⟩ ⟨some (.heap 4)⟩ = .ok true ∧
    (⟨some (.heap 1)⟩ : BasicIterator) ≠ ⟨some (.head 2)⟩ ∧
    BasicIterator.operator_eq (ctor_default store_12_123 2) ⟨some (.heap 1)⟩ ⟨some (.head 2)⟩
      = .ok true := by
  decide

/-- C17, amended: `operator==` compares the successor links of the two
referenced nodes. For two positions of one list satisfying the chain
invariant this is the comparison of the nodes' identities; for positions of
two lists that share no node it is `true` exactly when each position is the
last of its chain (the last node, or the sentinel of an empty list); two end
markers are equal, and an end marker differs from every position. -/
theorem iterator_eq_compares_successor_links (s : Memory α) (a b : Nat) (ps qs : List Addr)
    (xs ys : List α) (i j : Nat) (p q : Addr) (ha : IsList s a ps xs)
    (hb : IsList s b qs ys) (hsep : a ≠ b → ∀ r ∈ ps, r ∉ qs)
    (hp : (Addr.head a :: ps)[i]? = some p) (hq : (Addr.head b :: qs)[j]? = some q) :
    (a = b → BasicIterator.operator_eq s ⟨some p⟩ ⟨some q⟩ = .ok (decide (p = q)) ∧
      BasicIterator.operator_eq_mut s ⟨some p⟩ ⟨some q⟩ = .ok (decide (p = q))) ∧
    (a ≠ b → BasicIterator.operator_eq s ⟨some p⟩ ⟨some q⟩
        = .ok (decide (i = ps.length ∧ j = qs.length)) ∧
      BasicIterator.operator_eq_mut s ⟨some p⟩ ⟨some q⟩
        = .ok (decide (i = ps.length ∧ j = qs.length))) ∧
    BasicIterator.operator_eq s ⟨none⟩ ⟨none⟩ = .ok true ∧
    BasicIterator.operator_eq s ⟨some p⟩ ⟨none⟩ = .ok false ∧
    BasicIterator.operator_eq s ⟨none⟩ ⟨some q⟩ = .ok false ∧
    BasicIterator.operator_eq_mut s ⟨none⟩ ⟨none⟩ = .ok true ∧
    BasicIterator.operator_eq_mut s ⟨some p⟩ ⟨none⟩ = .ok false ∧
    BasicIterator.operator_eq_mut s ⟨none⟩ ⟨some q⟩ = .ok false := by
  refine ⟨?_, fun hab => iterator_eq_cross_list ha hb (hsep hab) hp hq,
    by simp [BasicIterator.operator_eq], by simp [BasicIterator.operator_eq],
    by simp [BasicIterator.operator_eq], by simp [BasicIterator.operator_eq_mut],
    by simp [BasicIterator.operator_eq_mut], by simp [BasicIterator.operator_eq_mut]⟩
  rintro rfl
  obtain ⟨rfl, rfl⟩ := isList_unique ha hb
  have h1 : IteratorOf a ps ⟨some p⟩ := Or.inr ⟨p, List.getElem?_mem hp, rfl⟩
  have h2 : IteratorOf a ps ⟨some q⟩ := Or.inr ⟨q, List.getElem?_mem hq, rfl⟩
  obtain ⟨e1, e2⟩ := iterator_eq_same_list_aux ha h1 h2
  have : decide ((⟨some p⟩ : BasicIterator) = ⟨some q⟩) = decide (p = q) := by
    by_cases hpq : p = q <;> simp [hpq]
  rw [e1, e2, this]
  exact ⟨rfl, rfl⟩

theorem iterator_eq_compares_successor_links_witness :
    (0 = 1 → BasicIterator.operator_eq store_12_123 ⟨some (.heap 1)⟩ ⟨some (.heap 4)⟩
        = .ok (decide (Addr.heap 1 = Addr.heap 4)) ∧
      BasicIterator.operator_eq_mut store_12_123 ⟨some (.heap 1)⟩ ⟨some (.heap 4)⟩
        = .ok (decide (Addr.heap 1 = Addr.heap 4))) ∧
    (0 ≠ 1 → BasicIterator.operator_eq store_12_123 ⟨some (.heap 1)⟩ ⟨some (.heap 4)⟩
        = .ok (decide (2 = [Addr.heap 0, .heap 1].length ∧
            3 = [Addr.heap 2, .heap 3, .heap 4].length)) ∧
      BasicIterator.operator_eq_mut store_12_123 ⟨some (.heap 1)⟩ ⟨some (.heap 4)⟩
        = .ok (decide (2 = [Addr.heap 0, .heap 1].length ∧
            3 = [Addr.heap 2, .heap 3, .heap 4].length))) ∧
    BasicIterator.operator_eq store_12_123 ⟨none⟩ ⟨none⟩ = .ok true ∧
    BasicIterator.operator_eq store_12_123 ⟨some (.heap 1)⟩ ⟨none⟩ = .ok false ∧
    BasicIterator.operator_eq store_12_123 ⟨none⟩ ⟨some (.heap 4)⟩ = .ok false ∧
    BasicIterator.operator_eq_mut store_12_123 ⟨none⟩ ⟨none⟩ = .ok true ∧
    BasicIterator.operator_eq_mut store_12_123 ⟨some (.heap 1)⟩ ⟨none⟩ = .ok false ∧
    BasicIterator.operator_eq_mut store_12_123 ⟨none⟩ ⟨some (.heap 4)⟩ = .ok false :=
  iterator_eq_compares_successor_links store_12_123 0 1 [.heap 0, .heap 1]
    [.heap 2, .heap 3, .heap 4] [1, 2] [1, 2, 3] 2 3 (.heap 1) (.heap 4)
    (by decide) (by decide) (by decide) (by decide) (by decide)

/-- C18: the front operations are the positional operations at the
sentinel. For every store `PushFront(v)` has the outcome and the resulting
store of `InsertAfter(before_begin(), v)` (also with `cbefore_begin()`), and
`PopFront()` those of `EraseAfter(before_begin())`; on a list satisfying the
chain invariant both pairs return normally, the push when `new` succeeds and
the pop when the list is not empty. -/
theorem front_ops_are_sentinel_cases (s : Memory α) (l : Nat) (ps : List Addr) (xs : List α)
    (v : α) (hv : s.Valid) (h : IsList s l ps xs) :
    PushFront s l v = (InsertAfter s l (before_begin l) v).andThen (fun _ s2 => .ok () s2) ∧
    PushFront s l v = (InsertAfter s l (cbefore_begin l) v).andThen (fun _ s2 => .ok () s2) ∧
    PopFront s l = (EraseAfter s l (before_begin l)).andThen (fun _ s2 => .ok () s2) ∧
    PopFront s l = (EraseAfter s l (cbefore_begin l)).andThen (fun _ s2 => .ok () s2) ∧
    (s.next < s.limit → ∃ it s2, PushFront s l v = .ok () s2 ∧
      InsertAfter s l (before_begin l) v = .ok it s2 ∧
      (∃ ps2, IsList s2 l ps2 (v :: xs)) ∧ GetSize s2 l = GetSize s l + 1) ∧
    (ps ≠ [] → ∃ it s2, PopFront s l = .ok () s2 ∧
      EraseAfter s l (before_begin l) = .ok it s2 ∧
      (∃ ps2, IsList s2 l ps2 xs.tail) ∧ GetSize s2 l + 1 = GetSize s l) := by
  refine ⟨PushFront_eq_InsertAfter s l v, PushFront_eq_InsertAfter s l v,
    PopFront_eq_EraseAfter s l, PopFront_eq_EraseAfter s l, ?_, ?_⟩
  · intro halloc
    obtain ⟨s2, h1, h2, -, -, -, h6, -⟩ :=
      InsertAfter_spec hv h halloc (i := 0) (p := .head l) (by simp) v
    refine ⟨_, s2, ?_, h1, ⟨_, by simpa using h2⟩, h6⟩
    rw [PushFront_eq_InsertAfter]
    unfold before_begin
    rw [h1]; rfl
  · intro hne
    cases ps with
    | nil => exact absurd rfl hne
    | cons d ps =>
      obtain ⟨s2, h1, h2, -, -, -, h6, -⟩ :=
        EraseAfter_spec hv h (i := 0) (p := .head l) (d := d) (by simp) (by simp)
      refine ⟨_, s2, ?_, h1, ⟨ps, ?_⟩, h6⟩
      · rw [PopFront_eq_EraseAfter]
        unfold before_begin
        rw [h1]; rfl
      · cases xs with
        | nil => have := isList_length_eq h; simp at this
        | cons x xs => simpa using h2

theorem front_ops_are_sentinel_cases_witness :
    PushFront store_12_123 0 7
      = (InsertAfter store_12_123 0 (before_begin 0) 7).andThen (fun _ s2 => .ok () s2) ∧
    PushFront store_12_123 0 7
      = (InsertAfter store_12_123 0 (cbefore_begin 0) 7).andThen (fun _ s2 => .ok () s2) ∧
    PopFront store_12_123 0
      = (EraseAfter store_12_123 0 (before_begin 0)).andThen (fun _ s2 => .ok () s2) ∧
    PopFront store_12_123 0
      = (EraseAfter store_12_123 0 (cbefore_begin 0)).andThen (fun _ s2 => .ok () s2) ∧
    (store_12_123.next < store_12_123.limit → ∃ it s2, PushFront store_12_123 0 7 = .ok () s2 ∧
      InsertAfter store_12_123 0 (before_begin 0) 7 = .ok it s2 ∧
      (∃ ps2, IsList s2 0 ps2 (7 :: [1, 2])) ∧ GetSize s2 0 = GetSize store_12_123 0 + 1) ∧
    ([Addr.heap 0, .heap 1] ≠ [] → ∃ it s2, PopFront store_12_123 0 = .ok () s2 ∧
      EraseAfter store_12_123 0 (before_begin 0) = .ok it s2 ∧
      (∃ ps2, IsList s2 0 ps2 [1, 2].tail) ∧ GetSize s2 0 + 1 = GetSize store_12_123 0) :=
  front_ops_are_sentinel_cases store_12_123 0 [.heap 0, .heap 1] [1, 2] 7
    (by decide) (by decide)

/-- C19: the comparison operators on `A = [1, 2]` and `B = [1, 2, 3]`. Both
`A < B` and `A == B` return `true`, and `A != B` returns `false`: the
three-iterator `std::equal` of `operator==` accepts a proper prefix. -/
theorem operator_lt_and_eq_both_true :
    toList 8 store_12_123 0 = .ok [1, 2] ∧ toList 8 store_12_123 1 = .ok [1, 2, 3] ∧
    operator_lt 8 store_12_123 0 1 = .ok true ∧
    operator_eq 8 store_12_123 0 1 = .ok true ∧
    operator_ne 8 store_12_123 0 1 = .ok false ∧
    operator_gt 8 store_12_123 0 1 = .ok false := by
  decide

/-- C20: the derived operators on `A = [1, 2, 3]` and `B = [1, 2]`, a proper
prefix of `A`. `B < A` is `true` and `A < B` is `false`, so `A > B` should be
`true` and `A <= B` should be `false`; both evaluations instead dereference
the end marker of `B` inside `std::equal` and are undefined. `A >= B` is
defined and is the negation of `A < B`. -/
theorem operator_gt_le_undefined_on_prefix :
    toList 8 store_12_123 1 = .ok [1, 2, 3] ∧ toList 8 store_12_123 0 = .ok [1, 2] ∧
    operator_lt 8 store_12_123 0 1 = .ok true ∧
    operator_lt 8 store_12_123 1 0 = .ok false ∧
    operator_gt 8 store_12_123 1 0 = .undefined ∧
    operator_le 8 store_12_123 1 0 = .undefined ∧
    operator_eq 8 store_12_123 1 0 = .undefined ∧
    operator_ge 8 store_12_123 1 0 = .ok true := by
  decide

end SLL
